import Mathlib

/-!
# hdoc HTML writer: symbol-graph rendering and cross-reference resolution

A shallow embedding of `src/serde/HTMLWriter.cpp` and a verification of the
properties its specification states about it.

Conventions of the embedding:

* `std::unordered_map` collections are finite association lists looked up by key;
  the throwing accessor `entries.at(id)` returns `Option` (`none` stands for the
  `std::out_of_range` exception).
* `while` loops whose termination depends on the shape of the index take a fuel
  argument counting loop iterations; running out of fuel is `none`.
* `std::stack` is a list whose head is the top of the stack.
* The symbol types of `types/Symbols.hpp`, which is not part of the sources at hand,
  are modelled with the fields the writer reads; the functions that header declares
  (string form of an identifier, per-kind directory names, record URLs, the
  "not grouped" sentinel) are collected in the structure `Ext` and taken as
  parameters.
* The libraries and utilities that the page functions call (clang-format, the
  Markdown converter, `getSortedIDs`, the string utilities, the table of `std::`
  types) are collected in the structure `Lib` and taken as parameters; a function
  that may raise `std::out_of_range` returns a `Result`.
* A page function returns the node `main` it builds; writing the file
  (`printNewPage`) is not part of the embedding.
* A `std::string` is embedded as the `String` of its text and stands for the bytes of the
  UTF-8 encoding of that text (`utf8`). Lengths and offsets are counted in bytes, as the
  methods `size`, `find` and `substr` of `std::string` count them, not in chars; the value
  of `getSymbolBlurb`, which `substr(0, 63)` may cut inside a char, is given by its bytes.
-/

namespace hdoc

/-! ## Data model (`types/Symbols.hpp`) -/

/-- Modelled from the spec: the declaration of `hdoc::types::SymbolID` is missing from the
sources; an opaque identifier compared by its underlying value, zero meaning "unset". -/
structure SymbolID where
  hashValue : Nat
  deriving DecidableEq, Repr

/-- The accessor `SymbolID::raw()`. -/
def SymbolID.raw (id : SymbolID) : Nat := id.hashValue

/-- The enumeration `clang::AccessSpecifier`, in its declared order. -/
inductive AccessSpecifier where
  | AS_public
  | AS_protected
  | AS_private
  | AS_none
  deriving DecidableEq, Repr

/-- The integer value of an enumerator of `clang::AccessSpecifier`. -/
def AccessSpecifier.value : AccessSpecifier → Nat
  | AccessSpecifier.AS_public => 0
  | AccessSpecifier.AS_protected => 1
  | AccessSpecifier.AS_private => 2
  | AccessSpecifier.AS_none => 3

/-- The `switch` of `to_string(access)` (lines 23-36) on the integer value of its argument;
the `default` branch is taken by values that are none of the four enumerators. -/
def to_string_value (v : Nat) : String :=
  match v with
  | 0 => "public"
  | 1 => "protected"
  | 2 => "private"
  | 3 => "none"
  | _ => "unknown"

/-- The function `to_string(const clang::AccessSpecifier& access)`. -/
def to_string (access : AccessSpecifier) : String :=
  to_string_value access.value

/-- Modelled from the spec: `hdoc::types::TypeRef` (missing header), a display name plus an
optional resolved target identifier. -/
structure TypeRef where
  name : String := ""
  id : SymbolID := ⟨0⟩
  deriving DecidableEq, Repr

/-- Modelled from the spec: `hdoc::types::Symbol` (missing header), the attributes shared by
all symbol kinds. -/
structure Symbol where
  ID : SymbolID := ⟨0⟩
  name : String := ""
  briefComment : String := ""
  docComment : String := ""
  file : String := ""
  line : Nat := 0
  parentNamespaceID : SymbolID := ⟨0⟩
  isDetail : Bool := false
  deriving DecidableEq, Repr

/-- Modelled from the spec: `hdoc::types::MemberVariable` (missing header). -/
structure MemberVariable where
  name : String := ""
  type : TypeRef := {}
  access : AccessSpecifier := AccessSpecifier.AS_public
  isStatic : Bool := false
  defaultValue : String := ""
  docComment : String := ""
  deriving DecidableEq, Repr

/-- Modelled from the spec: `hdoc::types::RecordSymbol::BaseRecord` (missing header), one
base edge `(baseRecordID, accessSpecifier, baseName)`. -/
structure BaseRecord where
  id : SymbolID
  access : AccessSpecifier
  name : String := ""
  deriving DecidableEq, Repr

/-- Modelled from the spec: `hdoc::types::TemplateParam` (missing header), one template
parameter with the fields the writer reads. -/
structure TemplateParam where
  type : String := ""
  name : String := ""
  defaultValue : String := ""
  docComment : String := ""
  deriving DecidableEq, Repr

/-- Modelled from the spec: `hdoc::types::FunctionParam` (missing header), one function
parameter `(name, type, defaultValue, docComment)`. -/
structure FunctionParam where
  name : String := ""
  type : TypeRef := {}
  defaultValue : String := ""
  docComment : String := ""
  deriving DecidableEq, Repr

/-- Modelled from the spec: `hdoc::types::RecordSymbol` (missing header). -/
structure RecordSymbol extends Symbol where
  proto : String := ""
  type : String := "struct"
  vars : List MemberVariable := []
  methodIDs : List SymbolID := []
  baseRecords : List BaseRecord := []
  aliasIDs : List SymbolID := []
  hiddenFriendIDs : List SymbolID := []
  templateParams : List TemplateParam := []
  deriving DecidableEq, Repr

/-- Modelled from the spec: `hdoc::types::NamespaceSymbol` (missing header). -/
structure NamespaceSymbol extends Symbol where
  records : List SymbolID := []
  enums : List SymbolID := []
  namespaces : List SymbolID := []
  usings : List SymbolID := []
  functions : List SymbolID := []
  deriving DecidableEq, Repr

/-- Modelled from the spec: `hdoc::types::EnumMember` (missing header), one enumerator
`(name, integer value, docComment)`. -/
structure EnumMember where
  name : String := ""
  value : Int := 0
  docComment : String := ""
  deriving DecidableEq, Repr

/-- Modelled from the spec: `hdoc::types::EnumSymbol` (missing header). -/
structure EnumSymbol extends Symbol where
  type : String := "enum"
  members : List EnumMember := []
  deriving DecidableEq, Repr

/-- Modelled from the spec: `hdoc::types::AliasSymbol` (missing header). -/
structure AliasSymbol extends Symbol where
  proto : String := ""
  target : TypeRef := {}
  isRecordMember : Bool := false
  access : AccessSpecifier := AccessSpecifier.AS_public
  deriving DecidableEq, Repr

/-- Modelled from the spec: `hdoc::types::FreestandingFunctionID` (missing header), the key
`(enclosing namespace, name)` of a group of overloaded free functions. -/
structure FreestandingFunctionID where
  parentNamespaceID : SymbolID
  name : String
  deriving DecidableEq, Repr

/-- Modelled from the spec: `hdoc::types::FunctionSymbol` (missing header). The field
`freestandingID` holds the group of a free function, or the sentinel `types::notFreeStanding`
(the parameter `Ext.notFreeStanding`); `postTemplate` and `nameStart` are the byte offsets
into `proto` of the end of the template clause and of the name, unsigned 64-bit values. -/
structure FunctionSymbol extends Symbol where
  proto : String := ""
  access : AccessSpecifier := AccessSpecifier.AS_public
  isRecordMember : Bool := false
  isHiddenFriend : Bool := false
  isCtorOrDtor : Bool := false
  freestandingID : FreestandingFunctionID := ⟨⟨0⟩, ""⟩
  returnType : TypeRef := {}
  params : List FunctionParam := []
  templateParams : List TemplateParam := []
  postTemplate : Nat := 0
  nameStart : Nat := 0
  returnTypeDocComment : String := ""
  deriving DecidableEq, Repr

/-- Modelled from the spec: `hdoc::types::Database<T>` (missing header), a collection of
symbols keyed by identifier. -/
structure Database (T : Type) where
  entries : List (SymbolID × T) := []

/-- The test `Database::contains(id)`: is `id` a key of the collection. -/
def Database.contains {T : Type} (db : Database T) (id : SymbolID) : Bool :=
  (db.entries.lookup id).isSome

/-- The accessor `entries.at(id)`; `none` stands for the `std::out_of_range` exception. -/
def Database.entriesAt {T : Type} (db : Database T) (id : SymbolID) : Option T :=
  db.entries.lookup id

/-- Modelled from the spec: `hdoc::types::FreestandingFunction` (missing header), a group of
overloaded free functions: its member function IDs and its aggregated "is detail" flag. -/
structure FreestandingFunction where
  functionIDs : List SymbolID := []
  isDetail : Bool := false
  deriving DecidableEq, Repr

/-- Modelled from the spec: `hdoc::types::Index` (missing header), the typed collections
the writer reads; `freestandingFunctions` is the map from group IDs to groups. -/
structure Index where
  records : Database RecordSymbol := {}
  namespaces : Database NamespaceSymbol := {}
  enums : Database EnumSymbol := {}
  aliases : Database AliasSymbol := {}
  functions : Database FunctionSymbol := {}
  freestandingFunctions : List (FreestandingFunctionID × FreestandingFunction) := []

/-- The accessor `index->freestandingFunctions.at(id)`; `none` stands for the
`std::out_of_range` exception. -/
def Index.groupAt (index : Index) (id : FreestandingFunctionID) : Option FreestandingFunction :=
  index.freestandingFunctions.lookup id

/-- The declarations of `types/Symbols.hpp` that the writer calls and that are not part of the
sources at hand, taken as parameters: the string form `SymbolID::str()`, the per-kind
`directory()` names, the sentinel `types::notFreeStanding`, and the record methods `url()` and
`relativeUrl()`. -/
structure Ext where
  str : SymbolID → String
  namespaceDirectory : String
  recordDirectory : String
  enumDirectory : String
  aliasDirectory : String
  functionDirectory : String
  notFreeStanding : FreestandingFunctionID
  recordUrl : RecordSymbol → String
  recordRelativeUrl : RecordSymbol → String

/-- The outcome of a function that looks entries up with the throwing accessor `.at()` inside
a loop: a returned value, the exception `std::out_of_range`, or a loop still running when
the fuel is spent. -/
inductive Result (α : Type) where
  | ok (a : α)
  | outOfRange
  | outOfFuel
  deriving DecidableEq, Repr

/-- Applies a function to a returned value. -/
def Result.map {α β : Type} (f : α → β) : Result α → Result β
  | Result.ok a => Result.ok (f a)
  | Result.outOfRange => Result.outOfRange
  | Result.outOfFuel => Result.outOfFuel

/-! ## HTML nodes (the bundled CTML library) -/

/-- Modelled from the spec: the node type `CTML::Node` of the bundled CTML library, which is
not part of the sources at hand. An element has a name (the selector it was created with),
attributes and children; text and raw HTML are leaves. -/
inductive Node where
  | element (name : String) (attrs : List (String × String)) (children : List Node)
  | text (content : String)
  | raw (html : String)
  deriving Repr

/-- The constructor `CTML::Node()`: the empty node. -/
def Node.empty : Node := Node.element "" [] []

/-- The constructor `CTML::Node(name)`. -/
def Node.named (name : String) : Node := Node.element name [] []

/-- The constructor `CTML::Node(name, content)`. -/
def Node.withText (name content : String) : Node := Node.element name [] [Node.text content]

/-- The name of a node (empty for text and raw HTML). -/
def Node.name : Node → String
  | Node.element n _ _ => n
  | _ => ""

/-- The attributes of a node. -/
def Node.attrs : Node → List (String × String)
  | Node.element _ as _ => as
  | _ => []

/-- The children of a node. -/
def Node.children : Node → List Node
  | Node.element _ _ cs => cs
  | _ => []

/-- The call `node.SetAttr(key, value)`: sets the attribute, replacing an earlier value. -/
def Node.SetAttr (n : Node) (key value : String) : Node :=
  match n with
  | Node.element name as cs =>
    Node.element name ((as.filter fun kv => kv.1 ≠ key) ++ [(key, value)]) cs
  | other => other

/-- The call `node.AddChild(child)`; the bundled version of the library does not append a
node without a name (see the comment in `printNamespace`). -/
def Node.AddChild (n child : Node) : Node :=
  match n with
  | Node.element name as cs =>
    match child with
    | Node.element "" _ _ => n
    | _ => Node.element name as (cs ++ [child])
  | other => other

/-- The value of an attribute of a node, if it has it. -/
def Node.attr? (n : Node) (key : String) : Option String :=
  n.attrs.lookup key

/-! ## URL resolver (lines 119-124 and 1352-1419) -/

/-- The template `entryPageUrl<SymbolType>(topLevel)`; `directory` is
`SymbolType().directory()`. -/
def entryPageUrl (directory : String) (topLevel : Bool) : String :=
  (if topLevel then "" else "../") ++ directory ++ "/index.html"

/-- The function `getRecordUrl(id, relative)`. -/
def getRecordUrl (ext : Ext) (id : SymbolID) (relative : Bool) : String :=
  (if relative then "../" else "") ++ ext.recordDirectory ++ "/" ++ ext.str id ++ ".html"

/-- The function `getEnumURL(id, relative)`. -/
def getEnumURL (ext : Ext) (id : SymbolID) (relative : Bool) : String :=
  (if relative then "../" else "") ++ ext.enumDirectory ++ "/" ++ ext.str id ++ ".html"

/-- The function `getAliasURL(id, relative)`. -/
def getAliasURL (ext : Ext) (id : SymbolID) (relative : Bool) : String :=
  (if relative then "../" else "") ++ ext.aliasDirectory ++ "/" ++ ext.str id ++ ".html"

/-- The method `HTMLWriter::getURLForSymbol(id, relative)`. -/
def getURLForSymbol (ext : Ext) (index : Index) (id : SymbolID) (relative : Bool) : String :=
  if index.records.contains id then getRecordUrl ext id relative
  else if index.enums.contains id then getEnumURL ext id relative
  else if index.aliases.contains id then getAliasURL ext id relative
  else ""

/-- The `while (ns != 0)` loop of `getNamespaceString`, which collects the names of the
enclosing namespaces, innermost first; `fuel` bounds the number of iterations. -/
def getNamespaceStringLoop (index : Index) : Nat → SymbolID → List String → Result (List String)
  | fuel, ns, nsNames =>
    if ns.raw = 0 then Result.ok nsNames
    else
      match fuel with
      | 0 => Result.outOfFuel
      | fuel + 1 =>
        match index.namespaces.entriesAt ns with
        | none => Result.outOfRange
        | some nss =>
          getNamespaceStringLoop index fuel nss.parentNamespaceID (nsNames ++ [nss.name])

/-- The `for` loop of `getNamespaceString` from index `i` on, `rest` being the names from
index `i` to the end and `size` the value of `nsNames.size()`: each name is added to `ret`,
followed by `"_"` unless `i` is `size - 1`. -/
def joinNamesLoop (size : Nat) : Nat → List String → String → String
  | _, [], ret => ret
  | i, name :: rest, ret =>
    joinNamesLoop size (i + 1) rest (if i ≠ size - 1 then ret ++ name ++ "_" else ret ++ name)

/-- The method `HTMLWriter::getNamespaceString(n)`. -/
def getNamespaceString (fuel : Nat) (index : Index) (n : SymbolID) : Result String :=
  (getNamespaceStringLoop index fuel n []).map fun nsNames =>
    joinNamesLoop nsNames.reverse.length 0 nsNames.reverse ""

/-- The method `HTMLWriter::getFunctionGroupURL(f, relative)`. -/
def getFunctionGroupURL (fuel : Nat) (index : Index) (f : FreestandingFunctionID)
    (relative : Bool) : Result String :=
  (getNamespaceString fuel index f.parentNamespaceID).map fun namespaceStr =>
    if relative then "../functions/" ++ namespaceStr ++ "-" ++ f.name ++ ".html"
    else "functions/" ++ namespaceStr ++ "-" ++ f.name ++ ".html"

/-- The method `HTMLWriter::getFunctionURL(f, relative)`. -/
def getFunctionURL (ext : Ext) (fuel : Nat) (index : Index) (f : SymbolID) (relative : Bool) :
    Result String :=
  match index.functions.entriesAt f with
  | none => Result.outOfRange
  | some func =>
    if func.freestandingID ≠ ext.notFreeStanding then
      (getFunctionGroupURL fuel index func.freestandingID relative).map fun url =>
        url ++ "#" ++ ext.str func.ID
    else
      match index.records.entriesAt func.parentNamespaceID with
      | none => Result.outOfRange
      | some record =>
        if relative then Result.ok (ext.recordRelativeUrl record ++ "#" ++ ext.str func.ID)
        else Result.ok (ext.recordUrl record ++ "#" ++ ext.str func.ID)

/-! ## Breadcrumb builder (`getBreadcrumbNode`, lines 436-494) -/

/-- The local structure `ParentSymbol` of `getBreadcrumbNode`. -/
structure ParentSymbol where
  symbolType : String
  symbol : Symbol
  deriving DecidableEq, Repr

/-- The first loop of `getBreadcrumbNode`, `while (true)`, which stacks the containers of
`parent`; `fuel` bounds the number of iterations (the one that breaks included). Each lookup
`entries.at(...)` comes after the matching `contains` test, so its failing branch is never
taken. -/
def parentStackLoop (index : Index) : Nat → Symbol → List ParentSymbol → Option (List ParentSymbol)
  | 0, _, _ => none
  | fuel + 1, parent, stack =>
    if index.namespaces.contains parent.parentNamespaceID then
      match index.namespaces.entriesAt parent.parentNamespaceID with
      | none => none
      | some newParent =>
        parentStackLoop index fuel newParent.toSymbol (⟨"namespace", newParent.toSymbol⟩ :: stack)
    else if index.records.contains parent.parentNamespaceID then
      match index.records.entriesAt parent.parentNamespaceID with
      | none => none
      | some newParent =>
        parentStackLoop index fuel newParent.toSymbol (⟨newParent.type, newParent.toSymbol⟩ :: stack)
    else some stack

/-- The list item that the second loop of `getBreadcrumbNode` builds for a popped parent. -/
def parentEntry (ext : Ext) (index : Index) (parent : ParentSymbol) : Node :=
  let li := Node.named "li"
  let a :=
    if parent.symbolType = "namespace" then
      (Node.named "a").SetAttr "href"
        (entryPageUrl ext.namespaceDirectory false ++ "#" ++ ext.str parent.symbol.ID)
    else (Node.named "a").SetAttr "href" (getURLForSymbol ext index parent.symbol.ID true)
  let span := Node.withText "span" (parent.symbolType ++ " " ++ parent.symbol.name)
  li.AddChild (a.AddChild span)

/-- The second loop of `getBreadcrumbNode`, `while (!stack.empty())`, which pops the parents
and adds their list items to `ul`. -/
def addParentEntries (ext : Ext) (index : Index) : List ParentSymbol → Node → Node
  | [], ul => ul
  | parent :: stack, ul => addParentEntries ext index stack (ul.AddChild (parentEntry ext index parent))

/-- The final breadcrumb of `getBreadcrumbNode`, "the actual symbol itself" (lines 487-491);
the first parameter of the source is called `pfx` here. -/
def activeEntry (ext : Ext) (pfx : String) (s : Symbol) : Node :=
  let li := Node.named "li.is-active"
  let a := (Node.named "a").SetAttr "aria-current" ("page" ++ ext.str s.ID)
  let span := Node.withText "span" (pfx ++ " " ++ s.name)
  li.AddChild (a.AddChild span)

/-- The method `HTMLWriter::getBreadcrumbNode(prefix, s, index)`. -/
def getBreadcrumbNode (ext : Ext) (fuel : Nat) (pfx : String) (s : Symbol) (index : Index) :
    Option Node :=
  if s.parentNamespaceID.raw = 0 then some Node.empty
  else
    let nav := (Node.named "nav.breadcrumb has-arrow-separator").SetAttr "aria-label" "breadcrumbs"
    let ul := Node.named "ul"
    match parentStackLoop index fuel s [] with
    | none => none
    | some stack =>
      let ul := addParentEntries ext index stack ul
      let ul := ul.AddChild (activeEntry ext pfx s)
      some (nav.AddChild ul)

/-! ## Inheritance flattener (`getInheritedSymbols`, lines 747-781) -/

/-- The loops `for (const auto& base : bases) stack.push(base);`. -/
def pushAll (bases : List BaseRecord) (stack : List BaseRecord) : List BaseRecord :=
  bases.foldl (fun s b => b :: s) stack

/-- The `while (!stack.empty())` loop of `getInheritedSymbols`; `fuel` bounds the number
of iterations. The lookup `entries.at(record.id)` comes after the `contains` test, so its
failing branch is never taken. -/
def getInheritedSymbolsLoop (index : Index) :
    Nat → List BaseRecord → List BaseRecord → Option (List BaseRecord)
  | _, [], vec => some vec
  | 0, _ :: _, _ => none
  | fuel + 1, record :: stack, vec =>
    if index.records.contains record.id = false then
      getInheritedSymbolsLoop index fuel stack vec
    else if record.access = AccessSpecifier.AS_private then
      getInheritedSymbolsLoop index fuel stack vec
    else
      match index.records.entriesAt record.id with
      | none => none
      | some c => getInheritedSymbolsLoop index fuel (pushAll c.baseRecords stack) (vec ++ [record])

/-- The function `getInheritedSymbols(index, root)`. -/
def getInheritedSymbols (fuel : Nat) (index : Index) (root : RecordSymbol) :
    Option (List BaseRecord) :=
  getInheritedSymbolsLoop index fuel (pushAll root.baseRecords []) []

/-- The test the loop applies to a popped edge before appending it: the target is a record
of the index and the edge is not private. -/
def admissible (index : Index) (b : BaseRecord) : Bool :=
  index.records.contains b.id && decide (b.access ≠ AccessSpecifier.AS_private)

/-- One base edge met along a chain of base edges: the record it leaves, its position in that
record's base list, and the edge itself. -/
structure Step where
  src : SymbolID
  pos : Nat
  edge : BaseRecord
  deriving DecidableEq, Repr

/-- Follows a chain of base edges given by positions: the first position selects an edge of
`bases` (the base list of `src`), every further position an edge of the base list of the
record the previous edge leads to. `none` when a position is out of range or a record to
continue from is not in the index. -/
def walk (index : Index) : SymbolID → List BaseRecord → List Nat → Option (List Step)
  | _, _, [] => some []
  | src, bases, i :: p =>
    match bases[i]? with
    | none => none
    | some b =>
      match p with
      | [] => some [⟨src, i, b⟩]
      | _ :: _ =>
        match index.records.entriesAt b.id with
        | none => none
        | some c => (walk index b.id c.baseRecords p).map (fun steps => ⟨src, i, b⟩ :: steps)

/-- The positions `p` describe a chain of base edges from `bases` that ends at the record
`target`, passing through `steps`. -/
def ChainTo (index : Index) (src : SymbolID) (bases : List BaseRecord) (p : List Nat)
    (steps : List Step) (target : SymbolID) : Prop :=
  walk index src bases p = some steps ∧ steps.getLast?.map (fun s => s.edge.id) = some target

/-- A chain of base edges to `target` along which every edge is non-private and leads to a
record of the index. -/
def AdmissibleChainTo (index : Index) (src : SymbolID) (bases : List BaseRecord) (p : List Nat)
    (target : SymbolID) : Prop :=
  ∃ steps, ChainTo index src bases p steps target ∧ ∀ s ∈ steps, admissible index s.edge = true

/-- The chain that starts with the edge `b` and continues by the positions `q` is admissible
and ends at `target`: either it stops at `b`, or it goes on through the base list of the
record `b` leads to. -/
def Through (index : Index) (b : BaseRecord) (q : List Nat) (target : SymbolID) : Prop :=
  admissible index b = true ∧
    ((q = [] ∧ b.id = target) ∨
      (q ≠ [] ∧ ∃ c, index.records.entriesAt b.id = some c ∧
        AdmissibleChainTo index b.id c.baseRecords q target))

/-- The relation "`y` is a direct base of the record `x` of the index, by a non-private edge,
and is itself a record of the index". -/
def InheritsFrom (index : Index) (x y : SymbolID) : Prop :=
  ∃ c, index.records.entriesAt x = some c ∧ ∃ b ∈ c.baseRecords, b.id = y ∧ admissible index b = true

/-- Acyclic inheritance: no record is its own ancestor along such edges. -/
def Acyclic (index : Index) : Prop :=
  ∀ x, ¬ Relation.TransGen (InheritsFrom index) x x

/-- A checkable certificate of acyclicity: a rank that strictly decreases along every
admissible base edge of every record of the index. -/
def rankDecreases (index : Index) (rank : SymbolID → Nat) : Bool :=
  index.records.entries.all fun kc =>
    kc.2.baseRecords.all fun b => !admissible index b || decide (rank b.id < rank kc.1)

/-- The number of entries of a result list whose id is `a`. -/
def countID (a : SymbolID) (res : List BaseRecord) : Nat :=
  res.countP fun e => decide (e.id = a)

/-- The record `r` with the base edge at position `i` deleted. -/
def RecordSymbol.eraseBase (r : RecordSymbol) (i : Nat) : RecordSymbol :=
  { r with baseRecords := r.baseRecords.eraseIdx i }

/-- The index with the base edge at position `i` of the record stored under `k` deleted. -/
def Index.eraseBase (index : Index) (k : SymbolID) (i : Nat) : Index :=
  { index with
    records :=
      { entries := index.records.entries.map fun kc =>
          (kc.1, if kc.1 = k then kc.2.eraseBase i else kc.2) } }

/-- Big-step description of what the loop appends while it consumes a stack: a popped edge
that is not admissible appends nothing, an admissible one appends itself, then everything its
own base list (pushed on top) gives, then what the rest of the stack gives. -/
inductive Flat (index : Index) : List BaseRecord → List BaseRecord → Prop
  | nil : Flat index [] []
  | skip (b : BaseRecord) (s out : List BaseRecord) :
      admissible index b = false → Flat index s out → Flat index (b :: s) out
  | take (b : BaseRecord) (c : RecordSymbol) (s o₁ o₂ : List BaseRecord) :
      admissible index b = true → index.records.entriesAt b.id = some c →
      Flat index (pushAll c.baseRecords []) o₁ → Flat index s o₂ →
      Flat index (b :: s) (b :: (o₁ ++ o₂))

/-- The stack `s'` is the stack `s` with some edges to records outside the index deleted. -/
inductive DropsDangling (index : Index) : List BaseRecord → List BaseRecord → Prop
  | nil : DropsDangling index [] []
  | keep (b : BaseRecord) (s s' : List BaseRecord) :
      DropsDangling index s s' → DropsDangling index (b :: s) (b :: s')
  | drop (b : BaseRecord) (s s' : List BaseRecord) :
      index.records.contains b.id = false → DropsDangling index s s' →
      DropsDangling index (b :: s) s'

/-- The index `index'` has the keys of `index`, and the base list of each of its records is
that of the same record of `index` with some edges to records outside the index deleted. -/
def IndexDropsDangling (index index' : Index) : Prop :=
  (∀ id, index'.records.contains id = index.records.contains id) ∧
    ∀ id c, index.records.entriesAt id = some c →
      ∃ c', index'.records.entriesAt id = some c' ∧
        DropsDangling index c.baseRecords c'.baseRecords

/-! ## Recursive reference of the inheritance flattener -/

/-- What the recursive reference gives for one base edge: nothing when the target is absent
from `index.records` or the edge is private, and otherwise the edge followed by `flat` of the
target's base list. -/
def flatEdge (index : Index) (flat : List BaseRecord → Option (List BaseRecord))
    (b : BaseRecord) : Option (List BaseRecord) :=
  if index.records.contains b.id = false ∨ b.access = AccessSpecifier.AS_private then some []
  else
    match index.records.entriesAt b.id with
    | none => some []
    | some c => (flat c.baseRecords).map fun rest => b :: rest

/-- The concatenation of what `f` gives for the edges of a list, taken in the order of the
list; it has no value when `f` has none for some edge. -/
def concatEdges (f : BaseRecord → Option (List BaseRecord)) :
    List BaseRecord → Option (List BaseRecord)
  | [] => some []
  | b :: rest =>
    match f b, concatEdges f rest with
    | some x, some y => some (x ++ y)
    | _, _ => none

/-- The recursive reference `flat(bases)`: the concatenation, over the base edges of `bases`
taken in reverse declaration order, of what `flatEdge` gives for the edge. `depth` bounds the
nesting of the recursion; `none` means that the bound is too small. -/
def flatReference (index : Index) : Nat → List BaseRecord → Option (List BaseRecord)
  | 0, _ => none
  | depth + 1, bases => concatEdges (flatEdge index (flatReference index depth)) bases.reverse

/-- The part of a result list that belongs to one base edge `b`: empty when the edge is not
admissible, and otherwise the edge followed by what `getInheritedSymbols` returns for the
record the edge leads to. -/
def EdgeBlock (index : Index) (b : BaseRecord) (blk : List BaseRecord) : Prop :=
  (admissible index b = false ∧ blk = []) ∨
    (admissible index b = true ∧ ∃ c o fuel, index.records.entriesAt b.id = some c ∧
      getInheritedSymbols fuel index c = some o ∧ blk = b :: o)

/-! ## HTML escaping (`escapeForHTML`, lines 109-117) -/

/-- The char `"` (code 34). -/
def quoteChar : Char := Char.ofNat 34

/-- The char apostrophe (code 39). -/
def aposChar : Char := Char.ofNat 39

/-- Modelled from the spec: `hdoc::utils::replaceAll(str, from, to)` (of the missing string
utilities), on the chars of the strings: every occurrence of `pat`, looked for from left to
right, is replaced by `sub`, and the search goes on behind the replacement, which is not
searched again. `skip` counts the chars of the occurrence just found that are still to be
dropped; an empty `pat` has no occurrence. -/
def replaceAllFrom (pat sub : List Char) : Nat → List Char → List Char
  | _, [] => []
  | skip + 1, _ :: rest => replaceAllFrom pat sub skip rest
  | 0, c :: rest =>
    if pat ≠ [] ∧ pat.isPrefixOf (c :: rest) = true then
      sub ++ replaceAllFrom pat sub (pat.length - 1) rest
    else c :: replaceAllFrom pat sub 0 rest

/-- Modelled from the spec: `hdoc::utils::replaceAll(str, from, to)` on strings. -/
def replaceAll (str pat sub : String) : String :=
  ⟨replaceAllFrom pat.data sub.data 0 str.data⟩

/-- The function `escapeForHTML(in)`. -/
def escapeForHTML (s : String) : String :=
  let str := s
  let str := replaceAll str "&" "&amp;"
  let str := replaceAll str "<" "&lt;"
  let str := replaceAll str ">" "&gt;"
  let str := replaceAll str (String.singleton quoteChar) "&quot;"
  let str := replaceAll str (String.singleton aposChar) "&apos;"
  str

/-- The five entities that `escapeForHTML` writes, each with the char it stands for. -/
def htmlEntities : List (List Char × Char) :=
  [("&amp;".data, '&'), ("&lt;".data, '<'), ("&gt;".data, '>'), ("&quot;".data, quoteChar),
    ("&apos;".data, aposChar)]

/-- What a single char becomes under `escapeForHTML`: its entity if it is one of the five
chars, and itself otherwise. -/
def escapeChar (c : Char) : List Char :=
  if c = '&' then "&amp;".data
  else if c = '<' then "&lt;".data
  else if c = '>' then "&gt;".data
  else if c = quoteChar then "&quot;".data
  else if c = aposChar then "&apos;".data
  else [c]

/-- One pass from left to right that replaces each of the five entities by its char; `skip`
counts the chars of the entity just found that are still to be dropped. -/
def unescapeFrom : Nat → List Char → List Char
  | _, [] => []
  | skip + 1, _ :: rest => unescapeFrom skip rest
  | 0, c :: rest =>
    match htmlEntities.find? fun e => e.1.isPrefixOf (c :: rest) with
    | some e => e.2 :: unescapeFrom (e.1.length - 1) rest
    | none => c :: unescapeFrom 0 rest

/-- The inverse of `escapeForHTML`: each entity is replaced by its char. -/
def unescapeHTML (s : String) : String :=
  ⟨unescapeFrom 0 s.data⟩

/-! ## Strings (`std::string`) -/

/-- The number of bytes that the UTF-8 encoding of a char takes. -/
def utf8Len (c : Char) : Nat :=
  if c.toNat < 0x80 then 1
  else if c.toNat < 0x800 then 2
  else if c.toNat < 0x10000 then 3
  else 4

/-- The bytes of the UTF-8 encoding of a char. -/
def utf8Char (c : Char) : List Nat :=
  if c.toNat < 0x80 then [c.toNat]
  else if c.toNat < 0x800 then [0xC0 + c.toNat / 0x40, 0x80 + c.toNat % 0x40]
  else if c.toNat < 0x10000 then
    [0xE0 + c.toNat / 0x1000, 0x80 + c.toNat / 0x40 % 0x40, 0x80 + c.toNat % 0x40]
  else
    [0xF0 + c.toNat / 0x40000, 0x80 + c.toNat / 0x1000 % 0x40, 0x80 + c.toNat / 0x40 % 0x40,
      0x80 + c.toNat % 0x40]

/-- The bytes that a `std::string` holds for a text: its UTF-8 encoding. -/
def utf8 (s : String) : List Nat :=
  s.data.flatMap utf8Char

/-- The call `s.size()` of `std::string`: the number of bytes of the string. -/
def size (s : String) : Nat :=
  (utf8 s).length

/-- The bytes of the value of `s.substr(pos, count)`, for `pos` within the string: `count`
bytes from the byte at offset `pos` on, or those up to the end if there are fewer. -/
def substrBytes (s : String) (pos count : Nat) : List Nat :=
  ((utf8 s).drop pos).take count

/-- The chars of a text that have a byte at the byte offsets `[pos, stop)`; `i` is the byte
offset of the first char of the list. -/
def charsWithin (pos stop : Nat) : Nat → List Char → List Char
  | _, [] => []
  | i, c :: rest =>
    if max pos i < min stop (i + utf8Len c) then c :: charsWithin pos stop (i + utf8Len c) rest
    else charsWithin pos stop (i + utf8Len c) rest

/-- The call `s.substr(pos, count)` of `std::string`, for `pos` within the string, as a text:
the chars of `s` that have a byte at the byte offsets `[pos, pos + count)`. When both ends
of that range are at the first byte of a char or behind the string, as they are for the
offsets that `find` returns and for the offsets of the parts of a prototype, the bytes of
these chars are the value of the call (`substr_bytes`). A char that an end of the range cuts
through is given whole, while the value of the call has only the bytes of it that are in the
range (`substrBytes` has them); the text is empty exactly when the value of the call is
(`substr_eq_empty`). -/
def substr (s : String) (pos count : Nat) : String :=
  ⟨charsWithin pos (pos + count) 0 s.data⟩

/-- Whether the byte offset `k` is at the first byte of a char of a text or at or behind its
end; `i` is the byte offset of the first char of the list. -/
def atCharFrom : Nat → List Char → Nat → Bool
  | i, [], k => decide (i ≤ k)
  | i, c :: rest, k => decide (k = i) || atCharFrom (i + utf8Len c) rest k

/-- Whether the byte offset `k` cuts through no char of the text `s`. -/
def atChar (s : String) (k : Nat) : Bool :=
  atCharFrom 0 s.data k

/-- Whether `needle` occurs in a sequence, looked for from the front as `std::string::find`
does. -/
def hasSubstring {α : Type} [BEq α] (needle : List α) : List α → Bool
  | [] => needle.isEmpty
  | c :: rest => needle.isPrefixOf (c :: rest) || hasSubstring needle rest

/-- The test `s.find(needle) != std::string::npos` on a text; an occurrence of the bytes of
`needle` in the bytes of `s` is an occurrence of its chars in the chars of `s`. -/
def stringFinds (s needle : String) : Bool :=
  hasSubstring needle.data s.data

/-! ## Overview blurbs (`getSymbolBlurb`, lines 263-289) -/

/-- The function `getSymbolBlurb(const hdoc::types::Symbol& s)`. The result is given by the
bytes of the string returned, since `substr(0, 63)` cuts behind byte 63 of the comment, which
may lie inside a char. -/
def getSymbolBlurb (s : Symbol) : List Nat :=
  let ret := utf8 ""
  let ret :=
    if s.docComment ≠ "" then
      if size s.docComment > 64 then utf8 " - " ++ substrBytes s.docComment 0 63 ++ utf8 "..."
      else utf8 " - " ++ utf8 s.docComment
    else ret
  let ret :=
    if s.briefComment ≠ "" then
      if size s.briefComment > 64 then utf8 " - " ++ substrBytes s.briefComment 0 63 ++ utf8 "..."
      else utf8 " - " ++ utf8 s.briefComment
    else ret
  if hasSubstring (utf8 "$$") ret then utf8 "" else ret

/-- The comment text a blurb is made from: the brief comment if it is not empty, else the doc
comment. -/
def chosenComment (s : Symbol) : String :=
  if s.briefComment ≠ "" then s.briefComment else s.docComment

/-- The bytes of a comment text that a blurb shows: all of them when the text has at most 64
bytes, its first 63 bytes when it has more. -/
def shownPart (t : String) : List Nat :=
  if size t > 64 then substrBytes t 0 63 else utf8 t

/-! ## Ordering (`printFunctions`, lines 586-599; `printMemberVariables`, lines 789-795) -/

/-- The first loop of `printFunctions`: the keys of `index->freestandingFunctions`, in the
order the map is iterated. -/
def functionGroupKeys (index : Index) : List FreestandingFunctionID :=
  index.freestandingFunctions.map Prod.fst

/-- The comparison `a < b` of two `std::string`s: lexicographic on their chars. -/
def stringLess (a b : String) : Bool :=
  decide (a.data < b.data)

/-- The comparator that `printFunctions` passes to `std::sort`. Its two lookups `.at(a)`,
`.at(b)` are of keys of the map the vector was filled from; the last case stands for
`std::out_of_range` and is not reached on such keys. -/
def functionGroupLess (index : Index) (a b : FreestandingFunctionID) : Bool :=
  match index.groupAt a, index.groupAt b with
  | some fa, some fb => if fa.isDetail ≠ fb.isDetail then fb.isDetail else stringLess a.name b.name
  | _, _ => false

/-- Modelled from the spec: the contract of the library function `std::sort(first, last,
comp)`, whose algorithm is not fixed: the range is left holding a permutation of what it
held, in which no element is ordered by `comp` before an element that precedes it. -/
def StdSortOutcome {α : Type} (comp : α → α → Bool) (input output : List α) : Prop :=
  output.Perm input ∧ output.Pairwise fun a b => comp b a = false

/-- Whether a list is a possible outcome of `std::sort` can be computed. -/
instance StdSortOutcome.decidable {α : Type} [DecidableEq α] (comp : α → α → Bool)
    (input output : List α) : Decidable (StdSortOutcome comp input output) :=
  inferInstanceAs (Decidable (output.Perm input ∧ output.Pairwise fun a b => comp b a = false))

/-- The requirement of `std::sort` on its comparator, for the elements of the range: a
strict weak ordering (irreflexive, transitive, with a transitive "neither before the
other"). -/
structure StrictWeakOn {α : Type} (comp : α → α → Bool) (l : List α) : Prop where
  irrefl : ∀ a ∈ l, comp a a = false
  trans : ∀ a ∈ l, ∀ b ∈ l, ∀ c ∈ l, comp a b = true → comp b c = true → comp a c = true
  incomparable_trans : ∀ a ∈ l, ∀ b ∈ l, ∀ c ∈ l,
    comp a b = false → comp b a = false → comp b c = false → comp c b = false →
      comp a c = false ∧ comp c a = false

/-- Modelled from the spec: the library function `std::stable_sort(first, last, comp)`. Its
result is fixed by its contract (the sorted permutation that keeps elements, neither of
which is before the other, in their original order); it is computed here by insertion. -/
def stdStableSort {α : Type} (comp : α → α → Bool) (l : List α) : List α :=
  l.insertionSort fun a b => comp b a = false

/-- The comparator that `printMemberVariables` passes to `std::stable_sort`:
`a.access < b.access` on the values of the enumeration. -/
def memberVariableLess (a b : MemberVariable) : Bool :=
  decide (a.access.value < b.access.value)

/-- The vector `sortedVars` of `printMemberVariables`, which its loop visits from first to
last. -/
def sortedVars (c : RecordSymbol) : List MemberVariable :=
  stdStableSort memberVariableLess c.vars

/-! ## Library and utility functions of the page writer -/

/-- The string made of the one char `"`. -/
def dquote : String := String.singleton quoteChar

/-- The library and utility functions that the page writer calls and that are not part of
the sources at hand, taken as parameters: `reformat` is the clang-format library run with a
column limit (Chromium style, attached braces) and `defaultColumnLimit` the default argument
of `clangFormat`; `markdown` is `MarkdownConverter(comment).getHTMLString()`; `getSortedIDs`
is the helper of that name, which is given the IDs and the names of the symbols that a
collection stores under them; `replaceFirst`, `trim` and `rtrim` are the string utilities of
`hdoc::utils`, `replaceFirst(str, from, to, start)` giving the new value of `str` and the
position it returns; `stdTypeURL` is the table `StdTypeURLMap` and `cppreferenceURL` the
constant in front of its entries; the last two are the methods `relativeUrl()` of enums and
aliases. -/
structure Lib where
  reformat : Nat → String → String
  defaultColumnLimit : Nat
  markdown : String → String
  getSortedIDs : List SymbolID → (SymbolID → Option String) → List SymbolID
  replaceFirst : String → String → String → Nat → String × Nat
  trim : String → String
  rtrim : String → String
  stdTypeURL : String → Option String
  cppreferenceURL : String
  enumRelativeUrl : EnumSymbol → String
  aliasRelativeUrl : AliasSymbol → String

/-- The function `clangFormat(s, columnLimit)` (lines 304-313). -/
def clangFormat (lib : Lib) (s : String) (columnLimit : Nat) : String :=
  lib.reformat columnLimit s

/-- The value `std::string::npos`. -/
def npos : Nat := 2 ^ 64 - 1

/-- The search of `std::string::find` from the char at the byte offset `i` on; an occurrence
of the bytes of `needle` starts at the first byte of a char. -/
def findFrom (needle : List Char) : Nat → List Char → Option Nat
  | i, [] => if needle.isEmpty then some i else none
  | i, c :: rest =>
    if needle.isPrefixOf (c :: rest) then some i else findFrom needle (i + utf8Len c) rest

/-- The call `s.find(needle)`: the byte offset of the first occurrence, or `npos`. -/
def find (s needle : String) : Nat :=
  (findFrom needle.data 0 s.data).getD npos

/-- The function `getBareTypeName(typeName)` (lines 318-336). -/
def getBareTypeName (lib : Lib) (typeName : String) : String :=
  let str := typeName
  let str := (lib.replaceFirst str "const " "" 0).1
  let str := (lib.replaceFirst str "volatile " "" 0).1
  let str := (lib.replaceFirst str "restrict " "" 0).1
  let str := (lib.replaceFirst str "struct " "" 0).1
  let str := (lib.replaceFirst str "union " "" 0).1
  let str := substr str 0 (find str "<")
  let str := substr str 0 (find str "&")
  let str := substr str 0 (find str "*")
  let str := substr str 0 (find str "(")
  let str := substr str 0 (find str "[")
  lib.rtrim str

/-- The anchor `"<a href=\"" + url + "\">" + text + "</a>"` that the writer builds as raw
HTML. -/
def anchorHTML (url text : String) : String :=
  "<a href=" ++ dquote ++ url ++ dquote ++ ">" ++ text ++ "</a>"

/-- The method `HTMLWriter::getHyperlinkedTypeName(type)` (lines 389-416). -/
def getHyperlinkedTypeName (lib : Lib) (ext : Ext) (index : Index) (type : TypeRef) : String :=
  let fullTypeName := type.name
  let bareTypeName := getBareTypeName lib fullTypeName
  let fullTypeName := clangFormat lib fullTypeName lib.defaultColumnLimit
  let fullTypeName := escapeForHTML fullTypeName
  if type.id.raw = 0 then
    if substr bareTypeName 0 5 = "std::" ∧ (lib.stdTypeURL bareTypeName).isSome = true then
      let replacement :=
        anchorHTML (lib.cppreferenceURL ++ (lib.stdTypeURL bareTypeName).getD "") bareTypeName
      (lib.replaceFirst fullTypeName bareTypeName replacement 0).1
    else fullTypeName
  else
    let replacement := anchorHTML (getURLForSymbol ext index type.id true) bareTypeName
    (lib.replaceFirst fullTypeName bareTypeName replacement 0).1

/-! ## Pages (`printFunction`, `printMemberVariables`, `printRecord`, `printNamespace`) -/

/-- The call `node.AppendText(text)`. -/
def Node.AppendText (n : Node) (text : String) : Node :=
  match n with
  | Node.element name as cs => Node.element name as (cs ++ [Node.text text])
  | other => other

/-- The call `node.AppendRawHTML(html)`. -/
def Node.AppendRawHTML (n : Node) (html : String) : Node :=
  match n with
  | Node.element name as cs => Node.element name as (cs ++ [Node.raw html])
  | other => other

/-- The call `node.ToggleClass(className)`: the class is removed if the node has it and added
if not; a class set this way is kept as an entry `("class", className)` of the attributes. -/
def Node.ToggleClass (n : Node) (className : String) : Node :=
  match n with
  | Node.element name as cs =>
    if ("class", className) ∈ as then
      Node.element name (as.filter fun kv => kv ≠ ("class", className)) cs
    else Node.element name (as ++ [("class", className)]) cs
  | other => other

/-- Sequencing of two steps of which the first may raise `std::out_of_range` or run out of
fuel. -/
def Result.bind {α β : Type} (r : Result α) (f : α → Result β) : Result β :=
  match r with
  | Result.ok a => f a
  | Result.outOfRange => Result.outOfRange
  | Result.outOfFuel => Result.outOfFuel

/-- The throwing accessor `db.entries.at(id)` as a step. -/
def Database.atKey {T : Type} (db : Database T) (id : SymbolID) : Result T :=
  match db.entriesAt id with
  | some t => Result.ok t
  | none => Result.outOfRange

/-- Modelled from the spec: `hdoc::types::Config` (missing header), with the options that
the pages of symbols read; `pageTitleSuffix` is what `getPageTitleSuffix()` returns. -/
structure Config where
  gitRepoURL : String := ""
  gitDefaultBranch : String := ""
  pageTitleSuffix : String := ""

/-- What a page function hands to `printNewPage`: the node `main`, the path of the file
below the output directory, the title and the breadcrumbs. Writing the file is not part of
the model. -/
structure Page where
  main : Node
  path : String
  title : String
  breadcrumbs : Node

/-- The call `getSortedIDs(ids, db)`, the helper being given the names that `db` stores. -/
def getSortedIDs {T : Type} (lib : Lib) (ids : List SymbolID) (db : Database T)
    (nameOf : T → String) : List SymbolID :=
  lib.getSortedIDs ids fun id => (db.entriesAt id).map nameOf

/-- The call `s.substr(pos, count)` of `std::string`, which raises `std::out_of_range` when
`pos > s.size()`, both in bytes. -/
def substrAt (s : String) (pos count : Nat) : Result String :=
  if pos > size s then Result.outOfRange else Result.ok (substr s pos count)

/-- The function `appendAsMarkdown(comment, node)` (lines 496-506). -/
def appendAsMarkdown (lib : Lib) (comment : String) (node : Node) : Node :=
  if comment ≠ "" then
    let htmlstring := lib.markdown comment
    if htmlstring ≠ "" then node.AddChild ((Node.named "p").AppendRawHTML htmlstring)
    else node.AddChild (Node.withText "p" comment)
  else node

/-- The function `getDeclaredAtNode(s, gitRepoURL, gitDefaultBranch)` (lines 421-433). -/
def getDeclaredAtNode (s : Symbol) (gitRepoURL gitDefaultBranch : String) : Node :=
  let p := Node.withText "p" "Declared at: "
  if gitRepoURL = "" then
    p.AddChild (Node.withText "span.is-family-code" (s.file ++ ":" ++ toString s.line))
  else
    p.AddChild ((Node.withText "a.is-family-code" (s.file ++ ":" ++ toString s.line)).SetAttr
      "href" (gitRepoURL ++ "blob/" ++ gitDefaultBranch ++ "/" ++ s.file ++ "#L" ++
        toString s.line))

/-- The part of `getHyperlinkedFunctionProto` that is run for the return type and, in the
same words, for the type of each parameter: `state` is the pair of `str` and `index`. -/
def linkTypeInProto (lib : Lib) (ext : Ext) (index : Index) (type : TypeRef)
    (state : String × Nat) : String × Nat :=
  let bareTypeName := getBareTypeName lib type.name
  let state :=
    if type.id.hashValue ≠ 0 then
      let targetUrl := getURLForSymbol ext index type.id true
      if targetUrl ≠ "" then
        lib.replaceFirst state.1 bareTypeName (anchorHTML targetUrl bareTypeName) state.2
      else state
    else state
  if substr bareTypeName 0 5 = "std::" then
    if (lib.stdTypeURL bareTypeName).isSome = true then
      lib.replaceFirst state.1 bareTypeName
        (anchorHTML (lib.cppreferenceURL ++ (lib.stdTypeURL bareTypeName).getD "") bareTypeName)
        state.2
    else state
  else state

/-- The method `HTMLWriter::getHyperlinkedFunctionProto(proto, f)` (lines 340-384). -/
def getHyperlinkedFunctionProto (lib : Lib) (ext : Ext) (index : Index) (proto : String)
    (f : FunctionSymbol) : String :=
  let str := escapeForHTML proto
  let state := linkTypeInProto lib ext index f.returnType (str, 0)
  let state := f.params.foldl (fun st param => linkTypeInProto lib ext index param.type st) state
  state.1

/-- The loop over template parameters of `printFunction` and `printRecord`, which adds the
entries to `dl`; `shown` is what is made of the type of a parameter (escaped in
`printFunction`, as it is in `printRecord`). -/
def addTemplateParams (shown : String → String) (tparams : List TemplateParam) (dl : Node) :
    Node :=
  tparams.foldl (fun dl tparam =>
    let dt := (Node.named "dt.is-family-code").AppendRawHTML (shown tparam.type)
    let dt := dt.AddChild (Node.withText "b" (" " ++ tparam.name))
    let dt := if tparam.defaultValue ≠ "" then dt.AppendText (" = " ++ tparam.defaultValue) else dt
    let dl := dl.AddChild dt
    if tparam.docComment ≠ "" then dl.AddChild (Node.withText "dd" tparam.docComment) else dl) dl

/-- The loop over parameters of `printFunction`, which adds the entries to `dl`. -/
def addParams (lib : Lib) (ext : Ext) (index : Index) (params : List FunctionParam)
    (dl : Node) : Node :=
  params.foldl (fun dl param =>
    let dt := (Node.named "dt.is-family-code").AppendRawHTML
      (getHyperlinkedTypeName lib ext index param.type)
    let dt := dt.AddChild (Node.withText "b" (" " ++ param.name))
    let dt := if param.defaultValue ≠ "" then dt.AppendText (" = " ++ param.defaultValue) else dt
    let dl := dl.AddChild dt
    if param.docComment ≠ "" then dl.AddChild (Node.withText "dd" param.docComment) else dl) dl

/-- The method `HTMLWriter::printFunction(f, main, gitRepoURL, gitDefaultBranch)` (lines
509-579); the result is the new value of `main`. -/
def printFunction (lib : Lib) (ext : Ext) (index : Index) (f : FunctionSymbol) (main : Node)
    (gitRepoURL gitDefaultBranch : String) : Node :=
  let proto := getHyperlinkedFunctionProto lib ext index
    (clangFormat lib f.proto lib.defaultColumnLimit) f
  let inner := (Node.named "code.hdoc-function-code.language-cpp").AppendRawHTML proto
  let main := main.AddChild ((Node.named ("h3#" ++ ext.str f.ID)).AddChild
    (((Node.named "pre.p-0.hdoc-pre-parent").AddChild
      (((Node.withText "a.is-size-4" "¶").SetAttr "class" "hdoc-permalink-icon").SetAttr
        "href" ("#" ++ ext.str f.ID))).AddChild inner))
  let main :=
    if f.briefComment ≠ "" ∨ f.docComment ≠ "" then
      main.AddChild (Node.withText "h4" "Description")
    else main
  let main := appendAsMarkdown lib f.briefComment main
  let main := appendAsMarkdown lib f.docComment main
  let main := main.AddChild (getDeclaredAtNode f.toSymbol gitRepoURL gitDefaultBranch)
  let main :=
    if f.templateParams.length > 0 then
      let main := main.AddChild (Node.withText "h4" "Template Parameters")
      main.AddChild (addTemplateParams escapeForHTML f.templateParams (Node.named "dl"))
    else main
  let main :=
    if f.params.length > 0 then
      let main := main.AddChild (Node.withText "h4" "Parameters")
      main.AddChild (addParams lib ext index f.params (Node.named "dl"))
    else main
  let main :=
    if f.returnTypeDocComment ≠ "" then
      let main := main.AddChild (Node.withText "h4" "Returns")
      main.AddChild (Node.withText "p" f.returnTypeDocComment)
    else main
  main.AddChild (Node.named "hr.member-fun-separator")

/-- A `for` loop over a vector whose body may raise `std::out_of_range`: `step` is the body,
run on each element in turn with the state the earlier rounds left. -/
def forEach {α σ : Type} (step : α → σ → Result σ) : List α → σ → Result σ
  | [], s => Result.ok s
  | a :: rest, s => (step a s).bind (forEach step rest)

/-- The paragraph "Inherited from" with the link to the record `c`, which
`printMemberVariables` and `printInheritedMethods` put in front of their lists. -/
def inheritedFromParagraph (ext : Ext) (c : RecordSymbol) : Node :=
  ((Node.withText "p" "Inherited from ").AddChild
    ((Node.withText "a" c.name).SetAttr "href" (ext.recordRelativeUrl c))).AppendText ":"

/-- The entry `dt` that the loop of `printMemberVariables` builds for the variable `var`. -/
def memberVariableEntry (lib : Lib) (ext : Ext) (index : Index) (c : RecordSymbol)
    (isInherited : Bool) (var : MemberVariable) : Node :=
  let preamble := if var.isStatic then " static " else " "
  let dt :=
    if isInherited = false then
      let dt := (Node.named "dt.is-family-code").AppendRawHTML
        (preamble ++ " " ++ getHyperlinkedTypeName lib ext index var.type ++ " ")
      let dt := dt.AddChild (Node.withText "b" var.name)
      dt.SetAttr "id" ("var_" ++ var.name)
    else
      let dt := Node.named "dt.is-family-code"
      let a := ((Node.withText "a" preamble).SetAttr "href"
        (ext.recordRelativeUrl c ++ "#var_" ++ var.name)).AddChild (Node.withText "b" var.name)
      dt.AddChild a
  let dt := if var.defaultValue ≠ "" then dt.AppendText (" = " ++ var.defaultValue) else dt
  let dt := if var.access = AccessSpecifier.AS_protected then dt.ToggleClass "hdoc-protected" else dt
  if var.access = AccessSpecifier.AS_private then dt.ToggleClass "hdoc-private" else dt

/-- One round of the loop of `printMemberVariables`; the state is `dl` and `numVars`. -/
def memberVariableStep (lib : Lib) (ext : Ext) (index : Index) (c : RecordSymbol)
    (isInherited : Bool) (state : Node × Nat) (var : MemberVariable) : Node × Nat :=
  if isInherited = true ∧ var.access = AccessSpecifier.AS_private then state
  else
    let dl := state.1.AddChild (memberVariableEntry lib ext index c isInherited var)
    let dl :=
      if isInherited = false ∧ var.docComment ≠ "" then
        dl.AddChild (Node.withText "dd" var.docComment)
      else dl
    (dl, state.2 + 1)

/-- The method `HTMLWriter::printMemberVariables(c, main, isInherited)` (lines 783-841); the
result is the new value of `main`. -/
def printMemberVariables (lib : Lib) (ext : Ext) (index : Index) (c : RecordSymbol)
    (main : Node) (isInherited : Bool) : Node :=
  let state := (sortedVars c).foldl (memberVariableStep lib ext index c isInherited)
    (Node.named "dl", 0)
  if state.2 > 0 then
    let main := if isInherited then main.AddChild (inheritedFromParagraph ext c) else main
    main.AddChild state.1
  else main

/-- The list item that `printInheritedMethods` builds for the method `f` of the record
`c`. -/
def inheritedMethodEntry (ext : Ext) (c : RecordSymbol) (f : FunctionSymbol) : Node :=
  (Node.named "li.is-family-code").AddChild
    (((Node.withText "a" (to_string f.access ++ " ")).SetAttr "href"
      (ext.recordRelativeUrl c ++ "#" ++ ext.str f.ID)).AddChild (Node.withText "b" f.name))

/-- One round of the loop of `printInheritedMethods`; the state is `ul`. -/
def inheritedMethodStep (ext : Ext) (index : Index) (c : RecordSymbol) (methodID : SymbolID)
    (ul : Node) : Result Node :=
  (index.functions.atKey methodID).bind fun f =>
    if f.access = AccessSpecifier.AS_private ∨ f.isCtorOrDtor = true then Result.ok ul
    else Result.ok (ul.AddChild (inheritedMethodEntry ext c f))

/-- The function `printInheritedMethods(index, c, main)` (lines 844-867); the result is the
new value of `main`. -/
def printInheritedMethods (lib : Lib) (ext : Ext) (index : Index) (c : RecordSymbol)
    (main : Node) : Result Node :=
  (forEach (inheritedMethodStep ext index c)
    (getSortedIDs lib c.methodIDs index.functions fun f => f.name) (Node.named "ul")).bind
    fun ul =>
      if c.methodIDs.length > 0 then
        Result.ok ((main.AddChild (inheritedFromParagraph ext c)).AddChild ul)
      else Result.ok main

/-- The value of an expression of type `uint64_t`: the integer modulo `2 ^ 64`. -/
def wrap64 (n : Int) : Nat :=
  (n % 2 ^ 64).toNat

/-- The list item that `printFunctionOverview` builds for the function `m`; the sizes and
the offsets `postTemplate` and `nameStart` count bytes. -/
def functionOverviewEntry (lib : Lib) (ext : Ext) (m : FunctionSymbol) : Result Node :=
  let nameLen := size m.name
  (substrAt m.proto 0 m.postTemplate).bind fun templatePart =>
  (substrAt m.proto m.postTemplate (wrap64 (m.nameStart - m.postTemplate))).bind fun retTypePart =>
  let inlineMarker := "inline"
  let retTypePart :=
    if inlineMarker.data.isPrefixOf retTypePart.data then
      substr retTypePart (size inlineMarker) npos
    else retTypePart
  let retTypePart := lib.trim retTypePart
  (substrAt m.proto (wrap64 (m.nameStart + nameLen))
    (wrap64 (size m.proto - m.nameStart - nameLen))).bind fun postName =>
  let li := Node.named "li.is-family-code"
  let li :=
    if templatePart ≠ "" then
      (li.AddChild (Node.withText "span.hdoc-overview-template" templatePart)).AppendRawHTML "<br>"
    else li
  let li := li.AddChild (((Node.named "a").SetAttr "href" ("#" ++ ext.str m.ID)).AddChild
    (Node.withText "b" m.name))
  let li := li.AppendText postName
  let li := if retTypePart ≠ "" then (li.AppendRawHTML " &rarr; ").AppendText retTypePart else li
  let li := if m.access = AccessSpecifier.AS_private then li.ToggleClass "hdoc-private" else li
  let li := if m.access = AccessSpecifier.AS_protected then li.ToggleClass "hdoc-protected" else li
  Result.ok li

/-- The function `printFunctionOverview(ids, index)` (lines 869-898). -/
def printFunctionOverview (lib : Lib) (ext : Ext) (ids : List SymbolID) (index : Index) :
    Result Node :=
  forEach (fun fnID ul =>
    (index.functions.atKey fnID).bind fun m =>
      (functionOverviewEntry lib ext m).bind fun li => Result.ok (ul.AddChild li))
    ids (Node.named "ul")

/-- The function `getAliasHTML(a)` (lines 645-650). -/
def getAliasHTML (lib : Lib) (a : AliasSymbol) : String :=
  let str := a.proto ++ " = " ++ a.target.name ++ ";"
  let str := clangFormat lib str lib.defaultColumnLimit
  escapeForHTML str

/-- The start of `printRecord` (lines 902-919): title, declaration, description and place of
declaration. -/
def recordHeader (lib : Lib) (cfg : Config) (c : RecordSymbol) (main : Node) : Node :=
  let pageTitle := c.type ++ " " ++ c.name
  let main := main.AddChild (Node.withText "h1" pageTitle)
  let main := main.AddChild (Node.withText "h2" "Declaration")
  let main := main.AddChild ((Node.named "pre.p-0").AddChild
    (Node.withText "code.hdoc-record-code.language-cpp"
      (clangFormat lib c.proto 70 ++ " \x7b /* full declaration omitted */ \x7d;")))
  let main :=
    if c.briefComment ≠ "" ∨ c.docComment ≠ "" then
      main.AddChild (Node.withText "h2" "Description")
    else main
  let main := appendAsMarkdown lib c.briefComment main
  let main := appendAsMarkdown lib c.docComment main
  main.AddChild (getDeclaredAtNode c.toSymbol cfg.gitRepoURL cfg.gitDefaultBranch)

/-- The paragraph of base records of `printRecord` (lines 921-939); the state of its loop is
`baseP` and `count`. The test `contains(baseRecord.id) == false` and the lookup behind it are
one lookup here. -/
def recordBases (ext : Ext) (index : Index) (c : RecordSymbol) (main : Node) : Node :=
  if c.baseRecords.length > 0 then
    let state := c.baseRecords.foldl (fun (state : Node × Nat) baseRecord =>
      let baseP := if state.2 > 0 then state.1.AppendText ", " else state.1
      let baseP :=
        match index.records.entriesAt baseRecord.id with
        | none => baseP.AppendText baseRecord.name
        | some p => baseP.AddChild ((Node.withText "a" p.name).SetAttr "href"
            (ext.recordRelativeUrl p))
      (baseP, state.2 + 1)) (Node.withText "p" "Inherits from: ", 0)
    main.AddChild state.1
  else main

/-- The template parameters of `printRecord` (lines 941-959). -/
def recordTemplateParams (c : RecordSymbol) (main : Node) : Node :=
  if c.templateParams.length > 0 then
    let main := main.AddChild (Node.withText "h2" "Template Parameters")
    main.AddChild (addTemplateParams (fun type => type) c.templateParams (Node.named "dl"))
  else main

/-- The member variables of `printRecord` (lines 961-978): those of the record, then those
of the records of `inheritedRecords`. The state is `main` and
`hasMemberVariableHeading`. -/
def recordMemberVariables (lib : Lib) (ext : Ext) (index : Index) (c : RecordSymbol)
    (inheritedRecords : List BaseRecord) (main : Node) : Result Node :=
  let state : Node × Bool :=
    if c.vars.length > 0 then
      let main := main.AddChild (Node.withText "h2" "Member Variables")
      (printMemberVariables lib ext index c main false, true)
    else (main, false)
  (forEach (fun (base : BaseRecord) (state : Node × Bool) =>
    (index.records.atKey base.id).bind fun ic =>
      let state : Node × Bool :=
        if state.2 = false ∧ ic.vars.length > 0 then
          (state.1.AddChild (Node.withText "h2" "Member Variables"), true)
        else state
      Result.ok (printMemberVariables lib ext index ic state.1 true, state.2))
    inheritedRecords state).bind fun state => Result.ok state.1

/-- The type aliases of `printRecord` (lines 980-992). -/
def recordAliases (lib : Lib) (index : Index) (c : RecordSymbol) (main : Node) : Result Node :=
  if c.aliasIDs.length > 0 then
    let main := main.AddChild (Node.withText "h2" "Member Aliases")
    (forEach (fun aliasID ul =>
      (index.aliases.atKey aliasID).bind fun a =>
        let li := (Node.named "li.is-family-code").AppendRawHTML (getAliasHTML lib a)
        let li := if a.access = AccessSpecifier.AS_private then li.ToggleClass "hdoc-private" else li
        let li := if a.access = AccessSpecifier.AS_protected then li.ToggleClass "hdoc-protected" else li
        Result.ok (ul.AddChild li))
      (getSortedIDs lib c.aliasIDs index.aliases fun a => a.name) (Node.named "ul")).bind
      fun ul => Result.ok (main.AddChild ul)
  else Result.ok main

/-- The method overview of `printRecord` (lines 994-1011): the overview of the methods of the
record, then the inherited methods of the records of `inheritedRecords`. The state is `main`
and `hasMethodOverviewHeading`. -/
def recordMethodOverview (lib : Lib) (ext : Ext) (index : Index) (c : RecordSymbol)
    (inheritedRecords : List BaseRecord) (main : Node) : Result Node :=
  let sortedMethodIDs := getSortedIDs lib c.methodIDs index.functions fun f => f.name
  let first : Result (Node × Bool) :=
    if sortedMethodIDs.length > 0 then
      let main := main.AddChild (Node.withText "h2" "Member Function Overview")
      (printFunctionOverview lib ext sortedMethodIDs index).bind fun ul =>
        Result.ok (main.AddChild ul, true)
    else Result.ok (main, false)
  first.bind fun state =>
    (forEach (fun (base : BaseRecord) (state : Node × Bool) =>
      (index.records.atKey base.id).bind fun ic =>
        let state : Node × Bool :=
          if state.2 = false ∧ c.methodIDs.length > 0 then
            (state.1.AddChild (Node.withText "h2" "Member Function Overview"), true)
          else state
        (printInheritedMethods lib ext index ic state.1).bind fun main =>
          Result.ok (main, state.2))
      inheritedRecords state).bind fun state => Result.ok state.1

/-- The overview of hidden friends of `printRecord` (lines 1013-1018). -/
def recordFriendOverview (lib : Lib) (ext : Ext) (index : Index) (c : RecordSymbol)
    (main : Node) : Result Node :=
  let sortedHiddenFriendIDs := getSortedIDs lib c.hiddenFriendIDs index.functions fun f => f.name
  if sortedHiddenFriendIDs.length > 0 then
    let main := main.AddChild (Node.withText "h2" "Friend Function Overview")
    (printFunctionOverview lib ext sortedHiddenFriendIDs index).bind fun ul =>
      Result.ok (main.AddChild ul)
  else Result.ok main

/-- The methods with full information of `printRecord` (lines 1020-1032); an ID that is not
in `index.functions` is passed over. -/
def recordMemberFunctions (lib : Lib) (ext : Ext) (cfg : Config) (index : Index)
    (c : RecordSymbol) (main : Node) : Result Node :=
  let sortedMethodIDs := getSortedIDs lib c.methodIDs index.functions fun f => f.name
  if sortedMethodIDs.length > 0 then
    let main := main.AddChild (Node.withText "h2" "Member Functions")
    forEach (fun methodID main =>
      if index.functions.contains methodID = false then Result.ok main
      else
        (index.functions.atKey methodID).bind fun f =>
          Result.ok (printFunction lib ext index f main cfg.gitRepoURL cfg.gitDefaultBranch))
      sortedMethodIDs main
  else Result.ok main

/-- The hidden friends with full information of `printRecord` (lines 1034-1041). -/
def recordFriendFunctions (lib : Lib) (ext : Ext) (cfg : Config) (index : Index)
    (c : RecordSymbol) (main : Node) : Result Node :=
  let sortedHiddenFriendIDs := getSortedIDs lib c.hiddenFriendIDs index.functions fun f => f.name
  if sortedHiddenFriendIDs.length > 0 then
    let main := main.AddChild (Node.withText "h2" "Friend Functions")
    forEach (fun friendID main =>
      (index.functions.atKey friendID).bind fun f =>
        Result.ok (printFunction lib ext index f main cfg.gitRepoURL cfg.gitDefaultBranch))
      sortedHiddenFriendIDs main
  else Result.ok main

/-- The node `main` that `printRecord` builds (lines 902-1041); `fuel` bounds the loop of
`getInheritedSymbols`. -/
def recordMain (lib : Lib) (ext : Ext) (cfg : Config) (fuel : Nat) (index : Index)
    (c : RecordSymbol) : Result Node :=
  let main := Node.named "main"
  let main := recordHeader lib cfg c main
  let main := recordBases ext index c main
  let main := recordTemplateParams c main
  match getInheritedSymbols fuel index c with
  | none => Result.outOfFuel
  | some inheritedRecords =>
    (recordMemberVariables lib ext index c inheritedRecords main).bind fun main =>
    (recordAliases lib index c main).bind fun main =>
    (recordMethodOverview lib ext index c inheritedRecords main).bind fun main =>
    (recordFriendOverview lib ext index c main).bind fun main =>
    (recordMemberFunctions lib ext cfg index c main).bind fun main =>
    recordFriendFunctions lib ext cfg index c main

/-- The method `HTMLWriter::printRecord(c)` (lines 901-1048): what it hands to
`printNewPage`; `fuel` bounds each of the loops of `getInheritedSymbols` and
`getBreadcrumbNode`. -/
def printRecord (lib : Lib) (ext : Ext) (cfg : Config) (fuel : Nat) (index : Index)
    (c : RecordSymbol) : Result Page :=
  (recordMain lib ext cfg fuel index c).bind fun main =>
    match getBreadcrumbNode ext fuel c.type c.toSymbol index with
    | none => Result.outOfFuel
    | some breadcrumbs =>
      Result.ok
        { main := main
          path := ext.recordUrl c
          title := c.type ++ " " ++ c.name ++ ": " ++ cfg.pageTitleSuffix
          breadcrumbs := breadcrumbs }

/-- The argument of `contains` in the loops of `printNamespace`, `childID == false`: the
comparison of the ID with `false`, that is with the zero ID, gives a `bool`, and `contains`
is handed the ID made from it, 1 for `true` and 0 for `false`. -/
def comparedWithFalse (childID : SymbolID) : SymbolID :=
  ⟨if childID.raw = 0 then 1 else 0⟩

/-- The method `HTMLWriter::printNamespace(ns)` (lines 1081-1147); `fuel` bounds the nesting
of its calls and `urlFuel` the loop of `getNamespaceString`. -/
def printNamespace (lib : Lib) (ext : Ext) (urlFuel : Nat) (index : Index) :
    Nat → NamespaceSymbol → Result Node
  | 0, _ => Result.outOfFuel
  | fuel + 1, ns =>
    if ns.records.length = 0 ∧ ns.enums.length = 0 ∧ ns.namespaces.length = 0 ∧
        ns.usings.length = 0 then
      Result.ok (Node.named "")
    else
      let enclosingDetails := Node.named "details"
      let enclosingDetails := enclosingDetails.AddChild
        (Node.withText ("summary.is-family-code#" ++ ext.str ns.ID) ns.name)
      let enclosingDetails :=
        if ns.isDetail = false then enclosingDetails.SetAttr "open" "true" else enclosingDetails
      let subUL := Node.named "ul"
      let childNamespaces := getSortedIDs lib ns.namespaces index.namespaces fun s => s.name
      let childRecords := getSortedIDs lib ns.records index.records fun s => s.name
      let childEnums := getSortedIDs lib ns.enums index.enums fun s => s.name
      let childAliases := getSortedIDs lib ns.usings index.aliases fun s => s.name
      let childFunctions := getSortedIDs lib ns.functions index.functions fun s => s.name
      (forEach (fun childID subUL =>
        if index.namespaces.contains (comparedWithFalse childID) then Result.ok subUL
        else
          (index.namespaces.atKey childID).bind fun child =>
            (printNamespace lib ext urlFuel index fuel child).bind fun childNode =>
              Result.ok (subUL.AddChild childNode)) childNamespaces subUL).bind fun subUL =>
      (forEach (fun childID subUL =>
        if index.records.contains (comparedWithFalse childID) then Result.ok subUL
        else
          (index.records.atKey childID).bind fun s =>
            Result.ok (subUL.AddChild ((Node.named "li.is-family-code").AddChild
              ((Node.withText "a" (s.type ++ " " ++ s.name)).SetAttr "href"
                (ext.recordRelativeUrl s))))) childRecords subUL).bind fun subUL =>
      (forEach (fun childID subUL =>
        if index.enums.contains (comparedWithFalse childID) then Result.ok subUL
        else
          (index.enums.atKey childID).bind fun s =>
            Result.ok (subUL.AddChild ((Node.named "li.is-family-code").AddChild
              ((Node.withText "a" (s.type ++ " " ++ s.name)).SetAttr "href"
                (lib.enumRelativeUrl s))))) childEnums subUL).bind fun subUL =>
      (forEach (fun childID subUL =>
        if index.aliases.contains (comparedWithFalse childID) then Result.ok subUL
        else
          (index.aliases.atKey childID).bind fun s =>
            Result.ok (subUL.AddChild ((Node.named "li.is-family-code").AddChild
              ((Node.withText "a" ("using " ++ s.name)).SetAttr "href"
                (lib.aliasRelativeUrl s))))) childAliases subUL).bind fun subUL =>
      (forEach (fun childID (state : Node × List FreestandingFunctionID) =>
        if index.functions.contains (comparedWithFalse childID) then Result.ok state
        else
          (index.functions.atKey childID).bind fun s =>
            if s.freestandingID = ext.notFreeStanding ∨ s.freestandingID ∈ state.2 then
              Result.ok state
            else
              (getFunctionGroupURL urlFuel index s.freestandingID true).bind fun url =>
                Result.ok (state.1.AddChild ((Node.named "li.is-family-code").AddChild
                  ((Node.withText "a" ("function " ++ s.name)).SetAttr "href" url)),
                  s.freestandingID :: state.2)) childFunctions (subUL, [])).bind fun state =>
      Result.ok (enclosingDetails.AddChild state.1)

/-! ## Outline of a record page -/

/-- A child of `main` that structures the page of a record: a heading `h2` with its text, or
a paragraph "Inherited from" with the name of the record it names and the link to it. -/
inductive Mark where
  | heading (text : String)
  | inherited (name href : String)
  deriving DecidableEq, Repr

/-- The mark of a node, if it is a heading `h2` or a paragraph "Inherited from". -/
def Node.mark (n : Node) : Option Mark :=
  match n with
  | Node.element name _ [Node.text t] => if name = "h2" then some (Mark.heading t) else none
  | Node.element name _ [Node.text t, Node.element a as [Node.text recordName], Node.text _] =>
    if name = "p" ∧ t = "Inherited from " ∧ a = "a" then
      some (Mark.inherited recordName ((as.lookup "href").getD ""))
    else none
  | _ => none

/-- The outline of a page: the marks of the children of `main`, in their order. -/
def outline (main : Node) : List Mark :=
  main.children.filterMap Node.mark

/-- The node `n'` is the element `n` with more children, whose marks are `marks`. -/
def Grows (marks : List Mark) (n n' : Node) : Prop :=
  ∃ name as cs extra, n = Node.element name as cs ∧ n' = Node.element name as (cs ++ extra) ∧
    extra.filterMap Node.mark = marks

/-- The mark of the paragraph "Inherited from" that names the record `c`. -/
def inheritedMark (ext : Ext) (c : RecordSymbol) : Mark :=
  Mark.inherited c.name (ext.recordRelativeUrl c)

/-- The member variables of `c` that the list of inherited variables shows: those that are
not private, in the order of `sortedVars`. -/
def visibleVars (c : RecordSymbol) : List MemberVariable :=
  (sortedVars c).filter fun var => decide (var.access ≠ AccessSpecifier.AS_private)

/-- The marks that the loop over inherited member variables of `printRecord` adds for the
records `ics`, `flag` being the value of `hasMemberVariableHeading` before it. -/
def inheritedVariablesOutline (ext : Ext) : List RecordSymbol → Bool → List Mark
  | [], _ => []
  | ic :: rest, flag =>
    (if flag = false ∧ ic.vars.length > 0 then [Mark.heading "Member Variables"] else []) ++
      (if visibleVars ic ≠ [] then [inheritedMark ext ic] else []) ++
      inheritedVariablesOutline ext rest (flag || decide (ic.vars.length > 0))

/-- The marks that the loop over inherited methods of `printRecord` adds for the records
`ics`, `flag` being the value of `hasMethodOverviewHeading` before it and `own` whether
`c.methodIDs` is not empty. -/
def inheritedMethodsOutline (ext : Ext) (own : Bool) : List RecordSymbol → Bool → List Mark
  | [], _ => []
  | ic :: rest, flag =>
    (if flag = false ∧ own = true then [Mark.heading "Member Function Overview"] else []) ++
      (if ic.methodIDs.length > 0 then [inheritedMark ext ic] else []) ++
      inheritedMethodsOutline ext own rest (flag || own)

/-- The outline of the page of the record `c` whose flattened ancestors are the records
`ics`. -/
def recordOutline (lib : Lib) (ext : Ext) (index : Index) (c : RecordSymbol)
    (ics : List RecordSymbol) : List Mark :=
  let sortedMethodIDs := getSortedIDs lib c.methodIDs index.functions fun f => f.name
  let sortedHiddenFriendIDs := getSortedIDs lib c.hiddenFriendIDs index.functions fun f => f.name
  [Mark.heading "Declaration"] ++
    (if c.briefComment ≠ "" ∨ c.docComment ≠ "" then [Mark.heading "Description"] else []) ++
    (if c.templateParams.length > 0 then [Mark.heading "Template Parameters"] else []) ++
    (if c.vars.length > 0 then [Mark.heading "Member Variables"] else []) ++
    inheritedVariablesOutline ext ics (decide (c.vars.length > 0)) ++
    (if c.aliasIDs.length > 0 then [Mark.heading "Member Aliases"] else []) ++
    (if sortedMethodIDs.length > 0 then [Mark.heading "Member Function Overview"] else []) ++
    inheritedMethodsOutline ext (decide (c.methodIDs.length > 0)) ics
      (decide (sortedMethodIDs.length > 0)) ++
    (if sortedHiddenFriendIDs.length > 0 then [Mark.heading "Friend Function Overview"]
      else []) ++
    (if sortedMethodIDs.length > 0 then [Mark.heading "Member Functions"] else []) ++
    (if sortedHiddenFriendIDs.length > 0 then [Mark.heading "Friend Functions"] else [])

/-- The methods that the list of inherited methods shows for the IDs `ids`: the functions
that `index.functions` stores under them which are neither private nor constructors or
destructors, in the order of `ids`. -/
def listedMethods (index : Index) (ids : List SymbolID) : List FunctionSymbol :=
  (ids.filterMap index.functions.entriesAt).filter fun f =>
    decide (f.access ≠ AccessSpecifier.AS_private) && !f.isCtorOrDtor

/-- Whether the byte offsets of the function `m` lie within the bytes of its prototype, so
that the calls of `substr` in `printFunctionOverview` do not raise `std::out_of_range`. -/
def offsetsWithin (m : FunctionSymbol) : Bool :=
  decide (m.postTemplate ≤ size m.proto) &&
    decide (wrap64 (m.nameStart + size m.name) ≤ size m.proto)

/-- Whether every lookup that `printRecord` makes for a member ID of the record `c` without
a test before it finds its symbol: the sorted alias IDs are keys of `index.aliases`, the
sorted method IDs and hidden friend IDs are keys of `index.functions` whose offsets lie
within their prototypes, and the sorted method IDs of the flattened ancestors `ics` are keys
of `index.functions`. -/
def membersResolve (lib : Lib) (index : Index) (c : RecordSymbol) (ics : List RecordSymbol) :
    Bool :=
  (getSortedIDs lib c.aliasIDs index.aliases fun a => a.name).all index.aliases.contains &&
    (getSortedIDs lib c.methodIDs index.functions fun f => f.name).all (fun id =>
      (index.functions.entriesAt id).any offsetsWithin) &&
    (getSortedIDs lib c.hiddenFriendIDs index.functions fun f => f.name).all (fun id =>
      (index.functions.entriesAt id).any offsetsWithin) &&
    ics.all fun ic =>
      (getSortedIDs lib ic.methodIDs index.functions fun f => f.name).all
        index.functions.contains

/-! ## Search index (`printSearchPage`, lines 1272-1318) -/

/-- The chain of enclosing namespaces of `id` stays within `index.namespaces` until it
reaches the zero ID; `names` are the names met, innermost first. -/
def NamespaceChain (index : Index) : SymbolID → List String → Prop
  | id, [] => id.raw = 0
  | id, name :: names =>
    id.raw ≠ 0 ∧ ∃ ns, index.namespaces.entriesAt id = some ns ∧ ns.name = name ∧
      NamespaceChain index ns.parentNamespaceID names

/-- Whether a list of names is the namespace chain of an ID can be computed. -/
instance NamespaceChain.decidable (index : Index) :
    ∀ (id : SymbolID) (names : List String), Decidable (NamespaceChain index id names)
  | id, [] => inferInstanceAs (Decidable (id.raw = 0))
  | id, name :: names =>
    match h : index.namespaces.entriesAt id with
    | none =>
      isFalse (by
        rintro ⟨_, ns, hns, _⟩
        rw [h] at hns
        cases hns)
    | some ns =>
      have := NamespaceChain.decidable index ns.parentNamespaceID names
      decidable_of_iff
        (id.raw ≠ 0 ∧ ns.name = name ∧ NamespaceChain index ns.parentNamespaceID names)
        ⟨fun ⟨h₀, h₁, h₂⟩ => ⟨h₀, ns, h, h₁, h₂⟩,
          fun ⟨h₀, ns', hns', h₁, h₂⟩ => by
            rw [h] at hns'
            cases hns'
            exact ⟨h₀, h₁, h₂⟩⟩

/-- The chain of enclosing namespaces of `id` meets, before any zero ID, an ID that is not a
namespace of the index. -/
inductive NamespaceChainBreaks (index : Index) : SymbolID → Prop
  | here (id : SymbolID) :
      id.raw ≠ 0 → index.namespaces.entriesAt id = none → NamespaceChainBreaks index id
  | later (id : SymbolID) (ns : NamespaceSymbol) :
      id.raw ≠ 0 → index.namespaces.entriesAt id = some ns →
      NamespaceChainBreaks index ns.parentNamespaceID → NamespaceChainBreaks index id

/-- How the first loop of `getBreadcrumbNode` resolves a parent-container ID: to a namespace
of the index if it is one, else to a record of the index if it is one, else not at all. -/
def resolveParent (index : Index) (id : SymbolID) : Option ParentSymbol :=
  if index.namespaces.contains id then
    (index.namespaces.entriesAt id).map fun n => ⟨"namespace", n.toSymbol⟩
  else if index.records.contains id then
    (index.records.entriesAt id).map fun r => ⟨r.type, r.toSymbol⟩
  else none

/-- The parent-container chain that starts at `id` resolves to the containers `chain`
(innermost first), one after the other, and then reaches the zero ID. -/
def ParentChain (index : Index) : SymbolID → List ParentSymbol → Prop
  | id, [] => id.raw = 0
  | id, parent :: chain =>
    resolveParent index id = some parent ∧ ParentChain index parent.symbol.parentNamespaceID chain

/-- Whether a list of containers is the parent-container chain of an ID can be computed. -/
instance ParentChain.decidable (index : Index) :
    ∀ (id : SymbolID) (chain : List ParentSymbol), Decidable (ParentChain index id chain)
  | id, [] => inferInstanceAs (Decidable (id.raw = 0))
  | id, parent :: chain =>
    have := ParentChain.decidable index parent.symbol.parentNamespaceID chain
    inferInstanceAs
      (Decidable (resolveParent index id = some parent ∧
        ParentChain index parent.symbol.parentNamespaceID chain))

/-- The label of a breadcrumb entry: the text of the `span` in the anchor of the list
item. -/
def entryLabel (li : Node) : Option String :=
  match li.children with
  | [a] =>
    match a.children with
    | [span] =>
      match span.children with
      | [Node.text label] => some label
      | _ => none
    | _ => none
  | _ => none

/-- The link target of a breadcrumb entry: the `href` attribute of the anchor of the list
item, if it has one. -/
def entryHref (li : Node) : Option String :=
  match li.children with
  | [a] => a.attr? "href"
  | _ => none

/-- The list entries of a breadcrumb node: the children of the `ul` of the `nav`. -/
def breadcrumbEntries (nav : Node) : List Node :=
  match nav.children with
  | [ul] => ul.children
  | _ => []

/-- Modelled from the spec: a sample of the missing declarations of `types/Symbols.hpp`, an
identifier printed as its decimal value, the directory `"records"` for records (and the
like for the other kinds), and record pages at `{directory}/{id}.html`. -/
def sampleExt : Ext :=
  { str := fun id => toString id.hashValue
    namespaceDirectory := "namespaces"
    recordDirectory := "records"
    enumDirectory := "enums"
    aliasDirectory := "aliases"
    functionDirectory := "functions"
    notFreeStanding := ⟨⟨0⟩, ""⟩
    recordUrl := fun r => "records/" ++ toString r.ID.hashValue ++ ".html"
    recordRelativeUrl := fun r => "../records/" ++ toString r.ID.hashValue ++ ".html" }

/-- The namespace `outer` (id 10), at the root. -/
def nsOuter : NamespaceSymbol := { ID := ⟨10⟩, name := "outer" }

/-- The namespace `inner` (id 11), in `outer`. -/
def nsInner : NamespaceSymbol := { ID := ⟨11⟩, name := "inner", parentNamespaceID := ⟨10⟩ }

/-- The class `Widget` (id 20), in `inner`. -/
def recWidget : RecordSymbol :=
  { ID := ⟨20⟩, name := "Widget", type := "class", parentNamespaceID := ⟨11⟩ }

/-- The enum `Mode` (id 30), nested in `Widget`. -/
def enumMode : EnumSymbol := { ID := ⟨30⟩, name := "Mode", parentNamespaceID := ⟨20⟩ }

/-- The alias `Handle` (id 40), at the root. -/
def aliasHandle : AliasSymbol := { ID := ⟨40⟩, name := "Handle" }

/-- The method `Widget::draw` (id 50), not in a group. -/
def fnDraw : FunctionSymbol :=
  { ID := ⟨50⟩, name := "draw", parentNamespaceID := ⟨20⟩, isRecordMember := true }

/-- The free function `inner::make` (id 51), in the group `(inner, make)`. -/
def fnMake : FunctionSymbol :=
  { ID := ⟨51⟩, name := "make", parentNamespaceID := ⟨11⟩, freestandingID := ⟨⟨11⟩, "make"⟩ }

/-- A function (id 52) that is in no group and whose parent (id 77) is no record. -/
def fnOrphan : FunctionSymbol := { ID := ⟨52⟩, name := "orphan", parentNamespaceID := ⟨77⟩ }

/-- A function (id 53) in a group whose namespace (id 78) is not in the index. -/
def fnLost : FunctionSymbol :=
  { ID := ⟨53⟩, name := "lost", parentNamespaceID := ⟨78⟩, freestandingID := ⟨⟨78⟩, "lost"⟩ }

/-- A small index: `outer::inner::Widget` with a nested enum and a method, a root alias and
some free functions. -/
def siteIndex : Index :=
  { namespaces := { entries := [(⟨10⟩, nsOuter), (⟨11⟩, nsInner)] }
    records := { entries := [(⟨20⟩, recWidget)] }
    enums := { entries := [(⟨30⟩, enumMode)] }
    aliases := { entries := [(⟨40⟩, aliasHandle)] }
    functions := { entries := [(⟨50⟩, fnDraw), (⟨51⟩, fnMake), (⟨52⟩, fnOrphan), (⟨53⟩, fnLost)] } }

/-- A usual `replaceFirst` on chars: the first occurrence of `pat` that starts at or behind
the byte offset `start` is replaced by `sub`; `i` is the byte offset of the head of the list.
The result is the new list and the byte offset behind the replacement, if there is an
occurrence. -/
def replaceFirstAt (pat sub : List Char) : Nat → Nat → List Char → Option (List Char × Nat)
  | start, i, [] => if start ≤ i ∧ pat = [] then some (sub, i + size ⟨sub⟩) else none
  | start, i, c :: rest =>
    if start ≤ i ∧ pat.isPrefixOf (c :: rest) = true then
      some (sub ++ (c :: rest).drop pat.length, i + size ⟨sub⟩)
    else (replaceFirstAt pat sub start (i + utf8Len c) rest).map fun r => (c :: r.1, r.2)

/-- A usual `replaceFirst` on strings; without an occurrence the string is left as it is and
`npos` is the position. -/
def sampleReplaceFirst (str pat sub : String) (start : Nat) : String × Nat :=
  match replaceFirstAt pat.data sub.data start 0 str.data with
  | some r => (⟨r.1⟩, r.2)
  | none => (str, npos)

/-- A sorting of IDs by the names stored under them (an ID without a name counting as the
empty name), stable. -/
def sampleSortedIDs (ids : List SymbolID) (nameOf : SymbolID → Option String) : List SymbolID :=
  stdStableSort (fun a b => stringLess ((nameOf a).getD "") ((nameOf b).getD "")) ids

/-- A sample of the library functions: formatting and Markdown conversion that leave the text
as it is, the usual string utilities, and a table of two `std::` types. -/
def sampleLib : Lib :=
  { reformat := fun _ s => s
    defaultColumnLimit := 50
    markdown := fun s => s
    getSortedIDs := sampleSortedIDs
    replaceFirst := sampleReplaceFirst
    trim := fun s => ⟨((s.data.dropWhile Char.isWhitespace).reverse.dropWhile
      Char.isWhitespace).reverse⟩
    rtrim := fun s => ⟨(s.data.reverse.dropWhile Char.isWhitespace).reverse⟩
    stdTypeURL := fun n =>
      [("std::string", "string/basic_string"), ("std::vector", "container/vector")].lookup n
    cppreferenceURL := "https://en.cppreference.com/w/cpp/"
    enumRelativeUrl := fun e => "../enums/" ++ toString e.ID.hashValue ++ ".html"
    aliasRelativeUrl := fun a => "../aliases/" ++ toString a.ID.hashValue ++ ".html" }

/-- The method `Foo::run` (id 201). -/
def fnRun : FunctionSymbol :=
  { ID := ⟨201⟩, name := "run", parentNamespaceID := ⟨101⟩, isRecordMember := true,
    proto := "void run()", nameStart := 5 }

/-- The method `Bar::start` (id 202), public. -/
def fnStart : FunctionSymbol :=
  { ID := ⟨202⟩, name := "start", parentNamespaceID := ⟨102⟩, isRecordMember := true,
    proto := "int start()", nameStart := 4 }

/-- The method `Bar::secret` (id 203), private. -/
def fnSecret : FunctionSymbol :=
  { ID := ⟨203⟩, name := "secret", parentNamespaceID := ⟨102⟩, isRecordMember := true,
    access := AccessSpecifier.AS_private, proto := "void secret()", nameStart := 5 }

/-- The constructor of `Bar` (id 204). -/
def fnBarCtor : FunctionSymbol :=
  { ID := ⟨204⟩, name := "Bar", parentNamespaceID := ⟨102⟩, isRecordMember := true,
    isCtorOrDtor := true, proto := "Bar()" }

/-- The method `Baz::hidden` (id 205), public. -/
def fnHidden : FunctionSymbol :=
  { ID := ⟨205⟩, name := "hidden", parentNamespaceID := ⟨103⟩, isRecordMember := true,
    proto := "void hidden()", nameStart := 5 }

/-- The member variables of `Bar`: `limit` (public), `cache` (private), `scale`
(protected). -/
def barVars : List MemberVariable :=
  [{ name := "limit" }, { name := "cache", access := AccessSpecifier.AS_private },
    { name := "scale", access := AccessSpecifier.AS_protected }]

/-- The record `Baz` (id 103), with a public variable and a public method. -/
def recBaz : RecordSymbol :=
  { ID := ⟨103⟩, name := "Baz", parentNamespaceID := ⟨100⟩, vars := [{ name := "raw" }],
    methodIDs := [⟨205⟩] }

/-- The record `Bar` (id 102), whose one base is `Baz`, private. -/
def recBar : RecordSymbol :=
  { ID := ⟨102⟩, name := "Bar", parentNamespaceID := ⟨100⟩, vars := barVars,
    methodIDs := [⟨202⟩, ⟨203⟩, ⟨204⟩],
    baseRecords := [⟨⟨103⟩, AccessSpecifier.AS_private, "Baz"⟩] }

/-- The record `Foo` (id 101), whose one base is `Bar`, public. -/
def recFoo : RecordSymbol :=
  { ID := ⟨101⟩, name := "Foo", parentNamespaceID := ⟨100⟩, vars := [{ name := "count" }],
    methodIDs := [⟨201⟩], baseRecords := [⟨⟨102⟩, AccessSpecifier.AS_public, "Bar"⟩] }

/-- The root namespace `app` (id 100) of the three records. -/
def nsApp : NamespaceSymbol :=
  { ID := ⟨100⟩, name := "app", records := [⟨101⟩, ⟨102⟩, ⟨103⟩] }

/-- The functions of the sample pages. -/
def pageFunctions : Database FunctionSymbol :=
  { entries := [(⟨201⟩, fnRun), (⟨202⟩, fnStart), (⟨203⟩, fnSecret), (⟨204⟩, fnBarCtor),
      (⟨205⟩, fnHidden)] }

/-- An index of one root namespace with `Foo`, its public base `Bar` and the private base
`Baz` of `Bar`. -/
def pageIndex : Index :=
  { namespaces := { entries := [(⟨100⟩, nsApp)] }
    records := { entries := [(⟨101⟩, recFoo), (⟨102⟩, recBar), (⟨103⟩, recBaz)] }
    functions := pageFunctions }

/-- The record `Bar` without members of its own. -/
def recBarEmpty : RecordSymbol :=
  { ID := ⟨102⟩, name := "Bar", parentNamespaceID := ⟨100⟩,
    baseRecords := [⟨⟨103⟩, AccessSpecifier.AS_private, "Baz"⟩] }

/-- The index `pageIndex` in which `Bar` declares no members. -/
def bareIndex : Index :=
  { namespaces := { entries := [(⟨100⟩, nsApp)] }
    records := { entries := [(⟨101⟩, recFoo), (⟨102⟩, recBarEmpty), (⟨103⟩, recBaz)] }
    functions := pageFunctions }

/-- The record `Foo` without members of its own. -/
def recFooPlain : RecordSymbol :=
  { ID := ⟨101⟩, name := "Foo", parentNamespaceID := ⟨100⟩,
    baseRecords := [⟨⟨102⟩, AccessSpecifier.AS_public, "Bar"⟩] }

/-- A record (id 104) one of whose method IDs, 999, is not in the index. -/
def recLoose : RecordSymbol :=
  { ID := ⟨104⟩, name := "Loose", parentNamespaceID := ⟨100⟩, methodIDs := [⟨999⟩] }

/-- A root namespace (id 110) one of whose record IDs, 999, is not in the index. -/
def nsLoose : NamespaceSymbol :=
  { ID := ⟨110⟩, name := "loose", records := [⟨101⟩, ⟨999⟩] }

/-- The method `f` (id 206) with the prototype `ééé f()`, in which each `é` takes two bytes:
the name starts at the byte offset 7, and the prototype has 7 chars and 10 bytes. -/
def fnAccent : FunctionSymbol :=
  { ID := ⟨206⟩, name := "f", parentNamespaceID := ⟨105⟩, isRecordMember := true,
    proto := "ééé f()", nameStart := 7 }

/-- The record `Accent` (id 105), whose one method is `f`. -/
def recAccent : RecordSymbol :=
  { ID := ⟨105⟩, name := "Accent", parentNamespaceID := ⟨100⟩, methodIDs := [⟨206⟩] }

/-- An index with the record `Accent` and its method. -/
def accentIndex : Index :=
  { namespaces := { entries := [(⟨100⟩, nsApp)] }
    records := { entries := [(⟨105⟩, recAccent)] }
    functions := { entries := [(⟨206⟩, fnAccent)] } }

/-- A namespace stored under the zero ID, whose own parent (id 9) is not in the index. -/
def nsZero : NamespaceSymbol := { ID := ⟨0⟩, name := "zero", parentNamespaceID := ⟨9⟩ }

/-- An index that stores a namespace under the zero ID, next to the root namespace
`outer`. -/
def zeroKeyIndex : Index :=
  { namespaces := { entries := [(⟨10⟩, nsOuter), (⟨0⟩, nsZero)] } }

/-- A symbol (id 60) declared in the namespace `outer`. -/
def symInOuter : Symbol := { ID := ⟨60⟩, name := "thing", parentNamespaceID := ⟨10⟩ }

/-! ### Sample indexes for the inheritance flattener -/

/-- Edge to the record `Left` (id 2), public. -/
def exLeft : BaseRecord := ⟨⟨2⟩, AccessSpecifier.AS_public, "Left"⟩

/-- Edge to the record `Right` (id 3), protected. -/
def exRight : BaseRecord := ⟨⟨3⟩, AccessSpecifier.AS_protected, "Right"⟩

/-- Edge to the record `Top` (id 4), public. -/
def exTop : BaseRecord := ⟨⟨4⟩, AccessSpecifier.AS_public, "Top"⟩

/-- Edge to a library type (id 9) that is not a record of the index. -/
def exExt : BaseRecord := ⟨⟨9⟩, AccessSpecifier.AS_public, "std::exception"⟩

/-- The record `Derived` (id 1): a diamond over `Top` through `Left` and `Right`, plus a
library base. -/
def exRoot : RecordSymbol :=
  { ID := ⟨1⟩, name := "Derived", baseRecords := [exLeft, exRight, exExt] }

/-- The index of the diamond: `Derived`, `Left`, `Right` (which also has a library base) and
`Top`. -/
def exIndex : Index :=
  { records := { entries :=
      [ (⟨1⟩, exRoot),
        (⟨2⟩, { ID := ⟨2⟩, name := "Left", baseRecords := [exTop] }),
        (⟨3⟩, { ID := ⟨3⟩, name := "Right", baseRecords := [exTop, exExt] }),
        (⟨4⟩, { ID := ⟨4⟩, name := "Top" }) ] } }

/-- What `getInheritedSymbols` returns for `Derived`. -/
def exResult : List BaseRecord := [exRight, exTop, exLeft, exTop]

/-- A rank for `exIndex`: the height of each record in the diamond. -/
def exRank (id : SymbolID) : Nat :=
  match id.hashValue with
  | 1 => 3
  | 2 => 2
  | 3 => 2
  | 4 => 1
  | _ => 0

/-- Edge to the record `Hidden` (id 5), private. -/
def exHidden : BaseRecord := ⟨⟨5⟩, AccessSpecifier.AS_private, "Hidden"⟩

/-- Edge to the record `Secret` (id 6), public. -/
def exSecret : BaseRecord := ⟨⟨6⟩, AccessSpecifier.AS_public, "Secret"⟩

/-- Edge to the record `Plain` (id 7), public. -/
def exPlain : BaseRecord := ⟨⟨7⟩, AccessSpecifier.AS_public, "Plain"⟩

/-- A record (id 1) with a private base `Hidden` and a public base `Plain`. -/
def exPrivateRoot : RecordSymbol :=
  { ID := ⟨1⟩, name := "Derived", baseRecords := [exHidden, exPlain] }

/-- An index in which `Secret` is reachable only through the private base `Hidden`. -/
def exPrivateIndex : Index :=
  { records := { entries :=
      [ (⟨1⟩, exPrivateRoot),
        (⟨5⟩, { ID := ⟨5⟩, name := "Hidden", baseRecords := [exSecret] }),
        (⟨6⟩, { ID := ⟨6⟩, name := "Secret" }),
        (⟨7⟩, { ID := ⟨7⟩, name := "Plain" }) ] } }

/-- Edge to the record `B1` (id 2), public. -/
def cycB₁ : BaseRecord := ⟨⟨2⟩, AccessSpecifier.AS_public, "B1"⟩

/-- Edge to the record `B2` (id 3), public. -/
def cycB₂ : BaseRecord := ⟨⟨3⟩, AccessSpecifier.AS_public, "B2"⟩

/-- The record `B1`, whose base is `B2`. -/
def cycRecord₁ : RecordSymbol := { ID := ⟨2⟩, name := "B1", baseRecords := [cycB₂] }

/-- The record `B2`, whose base is `B1`. -/
def cycRecord₂ : RecordSymbol := { ID := ⟨3⟩, name := "B2", baseRecords := [cycB₁] }

/-- A record (id 1) whose base is `B1`. -/
def cycRoot : RecordSymbol := { ID := ⟨1⟩, name := "R", baseRecords := [cycB₁] }

/-- An index whose base relation has a cycle: `B1` and `B2` are each the base of the
other. -/
def cycIndex : Index :=
  { records := { entries := [(⟨1⟩, cycRoot), (⟨2⟩, cycRecord₁), (⟨3⟩, cycRecord₂)] } }

/-- An index of namespaces whose names make group URLs clash: `a_b` and `a::b`, a namespace
without a name, and `x-y` next to `x`. -/
def clashIndex : Index :=
  { namespaces := { entries :=
      [ (⟨1⟩, { ID := ⟨1⟩, name := "a_b" }),
        (⟨2⟩, { ID := ⟨2⟩, name := "a" }),
        (⟨3⟩, { ID := ⟨3⟩, name := "b", parentNamespaceID := ⟨2⟩ }),
        (⟨4⟩, { ID := ⟨4⟩, name := "" }),
        (⟨5⟩, { ID := ⟨5⟩, name := "x-y" }),
        (⟨6⟩, { ID := ⟨6⟩, name := "x" }) ] } }

/-- An index with four function groups: `zeta`, `impl` (an implementation detail), `alpha`
and `Beta`. -/
def groupIndex : Index :=
  { freestandingFunctions :=
      [ (⟨⟨11⟩, "zeta"⟩, {}),
        (⟨⟨10⟩, "impl"⟩, { isDetail := true }),
        (⟨⟨11⟩, "alpha"⟩, {}),
        (⟨⟨10⟩, "Beta"⟩, {}) ] }

/-- An index with two function groups of the same name `f`, in two namespaces. -/
def tieIndex : Index :=
  { freestandingFunctions := [(⟨⟨10⟩, "f"⟩, {}), (⟨⟨11⟩, "f"⟩, {})] }

end hdoc

/-! # Theorems -/

namespace hdoc

/-! ## Inheritance flattener -/

theorem pushAll_eq (bases stack : List BaseRecord) :
    pushAll bases stack = bases.reverse ++ stack := by
  unfold pushAll
  induction bases generalizing stack with
  | nil => rfl
  | cons b l ih => simp [ih]

theorem admissible_iff (index : Index) (b : BaseRecord) :
    admissible index b = true ↔
      index.records.contains b.id = true ∧ b.access ≠ AccessSpecifier.AS_private := by
  simp [admissible]

theorem loop_skip (index : Index) (fuel : Nat) (b : BaseRecord) (s vec : List BaseRecord)
    (h : admissible index b = false) :
    getInheritedSymbolsLoop index (fuel + 1) (b :: s) vec = getInheritedSymbolsLoop index fuel s vec := by
  rw [getInheritedSymbolsLoop]
  by_cases hc : index.records.contains b.id = false
  · simp [hc]
  · have hp : b.access = AccessSpecifier.AS_private := by
      simp [admissible] at h
      simp at hc
      exact h hc
    simp [hc, hp]

theorem loop_take (index : Index) (fuel : Nat) (b : BaseRecord) (c : RecordSymbol)
    (s vec : List BaseRecord) (h : admissible index b = true)
    (hc : index.records.entriesAt b.id = some c) :
    getInheritedSymbolsLoop index (fuel + 1) (b :: s) vec =
      getInheritedSymbolsLoop index fuel (pushAll c.baseRecords s) (vec ++ [b]) := by
  rw [getInheritedSymbolsLoop]
  obtain ⟨h1, h2⟩ := (admissible_iff index b).1 h
  simp [h1, h2, hc]

theorem contains_iff_entriesAt {T : Type} (db : Database T) (id : SymbolID) :
    db.contains id = true ↔ ∃ c, db.entriesAt id = some c := by
  simp [Database.contains, Database.entriesAt, Option.isSome_iff_exists]

theorem flat_append (index : Index) {s₁ o₁ : List BaseRecord} (h₁ : Flat index s₁ o₁)
    {s₂ o₂ : List BaseRecord} (h₂ : Flat index s₂ o₂) : Flat index (s₁ ++ s₂) (o₁ ++ o₂) := by
  induction h₁ with
  | nil => simpa using h₂
  | skip b s out hb _ ih => exact Flat.skip b _ _ hb ih
  | take b c s p q hb hc hp _ _ ih =>
    have := Flat.take b c _ p _ hb hc hp ih
    simpa [List.append_assoc] using this

theorem flat_append_split (index : Index) (s₁ s₂ : List BaseRecord) :
    ∀ out, Flat index (s₁ ++ s₂) out →
      ∃ o₁ o₂, Flat index s₁ o₁ ∧ Flat index s₂ o₂ ∧ out = o₁ ++ o₂ := by
  induction s₁ with
  | nil => intro out h; exact ⟨[], out, Flat.nil, h, rfl⟩
  | cons b s ih =>
    intro out h
    cases h with
    | skip _ _ _ hb hs =>
      obtain ⟨o₁, o₂, h₁, h₂, rfl⟩ := ih _ hs
      exact ⟨o₁, o₂, Flat.skip b _ _ hb h₁, h₂, rfl⟩
    | take _ c _ p q hb hc hp hs =>
      obtain ⟨o₁, o₂, h₁, h₂, rfl⟩ := ih _ hs
      exact ⟨b :: (p ++ o₁), o₂, Flat.take b c _ p o₁ hb hc hp h₁, h₂, by simp⟩

theorem flat_det (index : Index) {s o : List BaseRecord} (h : Flat index s o) :
    ∀ o', Flat index s o' → o' = o := by
  induction h with
  | nil => intro o' h'; cases h'; rfl
  | skip b s out hb _ ih =>
    intro o' h'
    cases h' with
    | skip _ _ _ _ hs => exact ih _ hs
    | take _ c _ p q hb' _ _ _ => rw [hb] at hb'; cases hb'
  | take b c s p q hb hc _ _ ih₁ ih₂ =>
    intro o' h'
    cases h' with
    | skip _ _ _ hb' _ => rw [hb] at hb'; cases hb'
    | take _ c' _ p' q' _ hc' hp' hs' =>
      rw [hc] at hc'
      cases hc'
      rw [ih₁ _ hp', ih₂ _ hs']

/-- A derivation of `Flat` is a terminating run of the loop: with enough fuel the loop
consumes `s` from the top of any stack, appending `out`, and carries on with what is left. -/
theorem flat_run (index : Index) {s out : List BaseRecord} (h : Flat index s out) :
    ∃ n, ∀ m rest vec,
      getInheritedSymbolsLoop index (n + m) (s ++ rest) vec =
        getInheritedSymbolsLoop index m rest (vec ++ out) := by
  induction h with
  | nil => exact ⟨0, fun m rest vec => by simp⟩
  | skip b s out hb _ ih =>
    obtain ⟨n, hn⟩ := ih
    refine ⟨n + 1, fun m rest vec => ?_⟩
    have e : n + 1 + m = (n + m) + 1 := by omega
    rw [e, List.cons_append, loop_skip index _ b _ _ hb, hn]
  | take b c s p q hb hc _ _ ih₁ ih₂ =>
    obtain ⟨n₁, h₁⟩ := ih₁
    obtain ⟨n₂, h₂⟩ := ih₂
    refine ⟨n₁ + n₂ + 1, fun m rest vec => ?_⟩
    have e : n₁ + n₂ + 1 + m = (n₁ + (n₂ + m)) + 1 := by omega
    rw [e, List.cons_append, loop_take index _ b c _ _ hb hc, pushAll_eq]
    have e₂ : c.baseRecords.reverse ++ (s ++ rest) = pushAll c.baseRecords [] ++ (s ++ rest) := by
      rw [pushAll_eq]; simp
    rw [e₂, h₁, h₂]
    simp [List.append_assoc]

/-- A terminating run of the loop is a derivation of `Flat`. -/
theorem loop_flat (index : Index) :
    ∀ (fuel : Nat) (s vec res : List BaseRecord),
      getInheritedSymbolsLoop index fuel s vec = some res →
        ∃ out, Flat index s out ∧ res = vec ++ out := by
  intro fuel
  induction fuel with
  | zero =>
    intro s vec res h
    cases s with
    | nil => simp [getInheritedSymbolsLoop] at h; exact ⟨[], Flat.nil, by simp [h]⟩
    | cons b s => simp [getInheritedSymbolsLoop] at h
  | succ fuel ih =>
    intro s vec res h
    cases s with
    | nil => simp [getInheritedSymbolsLoop] at h; exact ⟨[], Flat.nil, by simp [h]⟩
    | cons b s =>
      cases hb : admissible index b with
      | false =>
        rw [loop_skip index _ b _ _ hb] at h
        obtain ⟨out, ho, rfl⟩ := ih _ _ _ h
        exact ⟨out, Flat.skip b _ _ hb ho, rfl⟩
      | true =>
        obtain ⟨c, hc⟩ := (contains_iff_entriesAt _ _).1 ((admissible_iff index b).1 hb).1
        rw [loop_take index _ b c _ _ hb hc, pushAll_eq] at h
        obtain ⟨out, ho, rfl⟩ := ih _ _ _ h
        obtain ⟨o₁, o₂, h₁, h₂, rfl⟩ := flat_append_split index _ _ _ ho
        refine ⟨b :: (o₁ ++ o₂), Flat.take b c _ _ _ hb hc ?_ h₂, by simp⟩
        rw [pushAll_eq]; simpa using h₁

/-- The outcomes of `getInheritedSymbols` are exactly the derivations of `Flat` from the
reversed base list of the root. -/
theorem getInheritedSymbols_iff_flat (index : Index) (root : RecordSymbol) (res : List BaseRecord) :
    (∃ fuel, getInheritedSymbols fuel index root = some res) ↔
      Flat index root.baseRecords.reverse res := by
  constructor
  · rintro ⟨fuel, h⟩
    obtain ⟨out, ho, rfl⟩ := loop_flat index fuel _ _ _ h
    rw [pushAll_eq] at ho
    simpa using ho
  · intro h
    obtain ⟨n, hn⟩ := flat_run index h
    refine ⟨n, ?_⟩
    have := hn 0 [] []
    simp only [List.append_nil, Nat.add_zero, List.nil_append] at this
    rw [getInheritedSymbols, pushAll_eq, List.append_nil, this]
    simp [getInheritedSymbolsLoop]

theorem mem_keys_of_entriesAt {T : Type} (db : Database T) (id : SymbolID) (c : T)
    (h : db.entriesAt id = some c) : (id, c) ∈ db.entries := by
  unfold Database.entriesAt at h
  generalize db.entries = l at h
  induction l with
  | nil => simp [List.lookup] at h
  | cons kc l ih =>
    obtain ⟨k, v⟩ := kc
    by_cases hk : id = k
    · subst hk
      simp [List.lookup] at h
      simp [h]
    · have : (id == k) = false := by simpa using hk
      simp [List.lookup, this] at h
      exact List.mem_cons_of_mem _ (ih h)

theorem inheritsFrom_contains (index : Index) {x y : SymbolID} (h : InheritsFrom index x y) :
    index.records.contains x = true ∧ index.records.contains y = true := by
  obtain ⟨c, hc, b, _, rfl, hb⟩ := h
  exact ⟨(contains_iff_entriesAt _ _).2 ⟨c, hc⟩, ((admissible_iff index b).1 hb).1⟩

theorem finite_keys (index : Index) : Finite {x : SymbolID // index.records.contains x = true} := by
  have hfin : Set.Finite {x : SymbolID | x ∈ index.records.entries.map Prod.fst} :=
    List.finite_toSet _
  have hsub : {x : SymbolID | index.records.contains x = true} ⊆
      {x : SymbolID | x ∈ index.records.entries.map Prod.fst} := by
    intro x hx
    obtain ⟨c, hc⟩ := (contains_iff_entriesAt _ _).1 hx
    exact List.mem_map.2 ⟨(x, c), mem_keys_of_entriesAt _ _ _ hc, rfl⟩
  exact (hfin.subset hsub).to_subtype

/-- Stacks all of whose admissible edges lead to records with a terminating base list
terminate themselves. -/
theorem flat_exists_of_forall (index : Index) (s : List BaseRecord)
    (h : ∀ b ∈ s, admissible index b = true → ∀ c, index.records.entriesAt b.id = some c →
      ∃ out, Flat index (pushAll c.baseRecords []) out) :
    ∃ out, Flat index s out := by
  induction s with
  | nil => exact ⟨[], Flat.nil⟩
  | cons b s ih =>
    obtain ⟨o₂, h₂⟩ := ih fun b' hb' => h b' (List.mem_cons_of_mem _ hb')
    cases hb : admissible index b with
    | false => exact ⟨o₂, Flat.skip b _ _ hb h₂⟩
    | true =>
      obtain ⟨c, hc⟩ := (contains_iff_entriesAt _ _).1 ((admissible_iff index b).1 hb).1
      obtain ⟨o₁, h₁⟩ := h b (List.mem_cons_self _ _) hb c hc
      exact ⟨_, Flat.take b c _ _ _ hb hc h₁ h₂⟩

/-- In an index with acyclic inheritance the base list of every record terminates. -/
theorem acyclic_flat_record (index : Index) (hacyc : Acyclic index) :
    ∀ (x : SymbolID) (c : RecordSymbol), index.records.entriesAt x = some c →
      ∃ out, Flat index (pushAll c.baseRecords []) out := by
  haveI := finite_keys index
  let r : {x : SymbolID // index.records.contains x = true} →
      {x : SymbolID // index.records.contains x = true} → Prop :=
    fun s t => Relation.TransGen (InheritsFrom index) t.1 s.1
  haveI : IsTrans _ r := ⟨fun a b c hab hbc => Relation.TransGen.trans hbc hab⟩
  haveI : IsIrrefl _ r := ⟨fun a ha => hacyc a.1 ha⟩
  have wf : WellFounded r := Finite.wellFounded_of_trans_of_irrefl r
  have key : ∀ t : {x : SymbolID // index.records.contains x = true},
      ∀ c, index.records.entriesAt t.1 = some c →
        ∃ out, Flat index (pushAll c.baseRecords []) out := by
    intro t
    induction t using wf.induction with
    | _ t ih =>
      intro c hc
      apply flat_exists_of_forall
      intro b hb hadm c' hc'
      rw [pushAll_eq, List.append_nil, List.mem_reverse] at hb
      have hstep : InheritsFrom index t.1 b.id := ⟨c, hc, b, hb, rfl, hadm⟩
      exact ih ⟨b.id, (inheritsFrom_contains index hstep).2⟩ (Relation.TransGen.single hstep) c' hc'
  intro x c hc
  exact key ⟨x, (contains_iff_entriesAt _ _).2 ⟨c, hc⟩⟩ c hc

/-- In an index with acyclic inheritance every stack terminates. -/
theorem acyclic_flat (index : Index) (hacyc : Acyclic index) (s : List BaseRecord) :
    ∃ out, Flat index s out :=
  flat_exists_of_forall index s fun b _ _ c hc => acyclic_flat_record index hacyc b.id c hc

/-- In an index with acyclic inheritance `getInheritedSymbols` returns. -/
theorem acyclic_returns (index : Index) (hacyc : Acyclic index) (root : RecordSymbol) :
    ∃ fuel res, getInheritedSymbols fuel index root = some res := by
  obtain ⟨out, h⟩ := acyclic_flat index hacyc root.baseRecords.reverse
  obtain ⟨fuel, hf⟩ := (getInheritedSymbols_iff_flat index root out).2 h
  exact ⟨fuel, out, hf⟩

theorem transGen_rank (index : Index) (rank : SymbolID → Nat)
    (h : ∀ x y, InheritsFrom index x y → rank y < rank x) {x y : SymbolID}
    (hxy : Relation.TransGen (InheritsFrom index) x y) : rank y < rank x := by
  induction hxy with
  | single h₁ => exact h _ _ h₁
  | tail _ h₂ ih => exact lt_trans (h _ _ h₂) ih

/-- A rank that decreases along every admissible edge certifies acyclicity. -/
theorem acyclic_of_rankDecreases (index : Index) (rank : SymbolID → Nat)
    (h : rankDecreases index rank = true) : Acyclic index := by
  intro x hx
  refine lt_irrefl _ (transGen_rank index rank ?_ hx)
  rintro a b ⟨c, hc, e, he, rfl, hadm⟩
  have hmem := mem_keys_of_entriesAt _ _ _ hc
  simp only [rankDecreases, List.all_eq_true] at h
  have := h _ hmem _ he
  simpa [hadm] using this

/-- Whatever the fuel, `getInheritedSymbols` returns at most one list. -/
theorem getInheritedSymbols_det (index : Index) (root : RecordSymbol) (fuel fuel' : Nat)
    (res res' : List BaseRecord) (h : getInheritedSymbols fuel index root = some res)
    (h' : getInheritedSymbols fuel' index root = some res') : res' = res :=
  flat_det index ((getInheritedSymbols_iff_flat index root res).1 ⟨fuel, h⟩) res'
    ((getInheritedSymbols_iff_flat index root res').1 ⟨fuel', h'⟩)

/-! ### Chains of base edges -/

theorem getLast?_cons_of_ne {α : Type} (a : α) (l : List α) (h : l ≠ []) :
    (a :: l).getLast? = l.getLast? := by
  cases l with
  | nil => exact absurd rfl h
  | cons b l => simp [List.getLast?_cons_cons]

theorem walk_single (index : Index) (src : SymbolID) (bases : List BaseRecord) (i : Nat)
    (b : BaseRecord) (hb : bases[i]? = some b) :
    walk index src bases [i] = some [⟨src, i, b⟩] := by
  simp [walk, hb]

theorem walk_cons_cons (index : Index) (src : SymbolID) (bases : List BaseRecord) (i j : Nat)
    (q : List Nat) (b : BaseRecord) (c : RecordSymbol) (hb : bases[i]? = some b)
    (hc : index.records.entriesAt b.id = some c) :
    walk index src bases (i :: j :: q) =
      (walk index b.id c.baseRecords (j :: q)).map (fun steps => ⟨src, i, b⟩ :: steps) := by
  rw [walk]
  simp only [hb, hc]

theorem walk_ne_nil (index : Index) (src : SymbolID) (bases : List BaseRecord) (i : Nat)
    (q : List Nat) (steps : List Step) (h : walk index src bases (i :: q) = some steps) :
    steps ≠ [] := by
  unfold walk at h
  cases hb : bases[i]? with
  | none => simp [hb] at h
  | some b =>
    cases q with
    | nil => simp [hb] at h; simp [← h]
    | cons j q =>
      simp only [hb] at h
      cases hc : index.records.entriesAt b.id with
      | none => simp [hc] at h
      | some c =>
        simp only [hc, Option.map_eq_some'] at h
        obtain ⟨st, _, rfl⟩ := h
        simp

theorem not_admissibleChainTo_nil (index : Index) (src : SymbolID) (bases : List BaseRecord)
    (a : SymbolID) : ¬ AdmissibleChainTo index src bases [] a := by
  rintro ⟨steps, ⟨hw, hl⟩, _⟩
  simp [walk] at hw
  subst hw
  simp at hl

theorem admissibleChainTo_cons (index : Index) (src : SymbolID) (bases : List BaseRecord)
    (i : Nat) (q : List Nat) (a : SymbolID) :
    AdmissibleChainTo index src bases (i :: q) a ↔
      ∃ b, bases[i]? = some b ∧ Through index b q a := by
  constructor
  · rintro ⟨steps, ⟨hw, hl⟩, hadm⟩
    unfold walk at hw
    cases hb : bases[i]? with
    | none => simp [hb] at hw
    | some b =>
      refine ⟨b, rfl, ?_⟩
      cases q with
      | nil =>
        simp only [hb, Option.some.injEq] at hw
        subst hw
        simp at hl
        exact ⟨hadm _ (List.mem_singleton_self _), Or.inl ⟨rfl, hl⟩⟩
      | cons j q =>
        simp only [hb] at hw
        cases hc : index.records.entriesAt b.id with
        | none => simp [hc] at hw
        | some c =>
          simp only [hc, Option.map_eq_some'] at hw
          obtain ⟨st, hst, rfl⟩ := hw
          have hne := walk_ne_nil index _ _ _ _ _ hst
          refine ⟨hadm _ (List.mem_cons_self _ _), Or.inr ⟨by simp, c, hc, st, ⟨hst, ?_⟩, ?_⟩⟩
          · rw [getLast?_cons_of_ne _ _ hne] at hl
            exact hl
          · intro s hs
            exact hadm s (List.mem_cons_of_mem _ hs)
  · rintro ⟨b, hb, hadm, h⟩
    rcases h with ⟨rfl, rfl⟩ | ⟨hq, c, hc, st, ⟨hst, hl⟩, hall⟩
    · refine ⟨[⟨src, i, b⟩], ⟨by simp [walk, hb], by simp⟩, ?_⟩
      intro s hs
      rw [List.mem_singleton] at hs
      subst hs
      exact hadm
    · cases q with
      | nil => exact absurd rfl hq
      | cons j q =>
        have hne := walk_ne_nil index _ _ _ _ _ hst
        refine ⟨⟨src, i, b⟩ :: st, ⟨?_, ?_⟩, ?_⟩
        · rw [walk_cons_cons index src bases i j q b c hb hc, hst]
          rfl
        · rw [getLast?_cons_of_ne _ _ hne]
          exact hl
        · intro s hs
          rcases List.mem_cons.1 hs with rfl | hs
          · exact hadm
          · exact hall s hs

theorem getElem?_snoc_eq_some {α : Type} (l : List α) (b b' : α) (i : Nat) :
    (l ++ [b])[i]? = some b' ↔ l[i]? = some b' ∨ (i = l.length ∧ b = b') := by
  rcases Nat.lt_trichotomy i l.length with h | h | h
  · rw [List.getElem?_append_left h]
    constructor
    · exact Or.inl
    · rintro (h' | ⟨h', _⟩)
      · exact h'
      · omega
  · subst h
    simp
  · have h₁ : (l ++ [b])[i]? = none := by
      apply List.getElem?_eq_none
      simp; omega
    have h₂ : l[i]? = none := List.getElem?_eq_none (by omega)
    rw [h₁, h₂]
    constructor
    · intro h'; cases h'
    · rintro (h' | ⟨h', _⟩)
      · cases h'
      · omega

/-- Chains from a base list extended by one edge at the end: those of the shorter list, and
those through the new edge, which sits at position `l.length`. -/
theorem admissibleChainTo_snoc (index : Index) (src : SymbolID) (l : List BaseRecord)
    (b : BaseRecord) (p : List Nat) (a : SymbolID) :
    AdmissibleChainTo index src (l ++ [b]) p a ↔
      AdmissibleChainTo index src l p a ∨ ∃ q, p = l.length :: q ∧ Through index b q a := by
  cases p with
  | nil =>
    constructor
    · intro h; exact absurd h (not_admissibleChainTo_nil _ _ _ _)
    · rintro (h | ⟨q, hq, _⟩)
      · exact absurd h (not_admissibleChainTo_nil _ _ _ _)
      · cases hq
  | cons i q =>
    rw [admissibleChainTo_cons, admissibleChainTo_cons]
    constructor
    · rintro ⟨b', hb', ht⟩
      rcases (getElem?_snoc_eq_some l b b' i).1 hb' with h | ⟨rfl, rfl⟩
      · exact Or.inl ⟨b', h, ht⟩
      · exact Or.inr ⟨q, rfl, ht⟩
    · rintro (⟨b', hb', ht⟩ | ⟨q', hq, ht⟩)
      · exact ⟨b', (getElem?_snoc_eq_some l b b' i).2 (Or.inl hb'), ht⟩
      · cases hq
        exact ⟨b, (getElem?_snoc_eq_some l b b l.length).2 (Or.inr ⟨rfl, rfl⟩), ht⟩

theorem admissibleChainTo_head_lt (index : Index) (src : SymbolID) (l : List BaseRecord)
    (i : Nat) (q : List Nat) (a : SymbolID) (h : AdmissibleChainTo index src l (i :: q) a) :
    i < l.length := by
  obtain ⟨b, hb, _⟩ := (admissibleChainTo_cons _ _ _ _ _ _).1 h
  by_contra hlt
  rw [List.getElem?_eq_none (by omega)] at hb
  cases hb

theorem countID_cons (a : SymbolID) (b : BaseRecord) (l : List BaseRecord) :
    countID a (b :: l) = (if b.id = a then 1 else 0) + countID a l := by
  unfold countID
  rw [List.countP_cons]
  by_cases h : b.id = a <;> simp [h, Nat.add_comm]

theorem countID_append (a : SymbolID) (l₁ l₂ : List BaseRecord) :
    countID a (l₁ ++ l₂) = countID a l₁ + countID a l₂ := by
  unfold countID
  rw [List.countP_append]

/-- The entries with a given id that a terminating traversal appends are in bijection with
the admissible chains from the base list (the reversed stack) to that id. -/
theorem flat_paths (index : Index) {s out : List BaseRecord} (h : Flat index s out) :
    ∀ (src a : SymbolID), ∃ L : List (List Nat), L.Nodup ∧
      (∀ p, p ∈ L ↔ AdmissibleChainTo index src s.reverse p a) ∧ L.length = countID a out := by
  induction h with
  | nil =>
    intro src a
    refine ⟨[], List.nodup_nil, fun p => ?_, rfl⟩
    constructor
    · intro hp; cases hp
    · intro hp
      cases p with
      | nil => exact absurd hp (not_admissibleChainTo_nil _ _ _ _)
      | cons i q => exact absurd (admissibleChainTo_head_lt _ _ _ _ _ _ hp) (by simp)
  | skip b s out hb _ ih =>
    intro src a
    obtain ⟨L, hnd, hmem, hlen⟩ := ih src a
    refine ⟨L, hnd, fun p => ?_, hlen⟩
    rw [List.reverse_cons, admissibleChainTo_snoc, hmem]
    constructor
    · exact Or.inl
    · rintro (h' | ⟨q, _, hadm, _⟩)
      · exact h'
      · rw [hb] at hadm; cases hadm
  | take b c s o₁ o₂ hb hc _ _ ih₁ ih₂ =>
    intro src a
    obtain ⟨L₁, hnd₁, hmem₁, hlen₁⟩ := ih₁ b.id a
    obtain ⟨L₂, hnd₂, hmem₂, hlen₂⟩ := ih₂ src a
    have hrev : (pushAll c.baseRecords []).reverse = c.baseRecords := by
      rw [pushAll_eq]; simp
    rw [hrev] at hmem₁
    have hne₁ : ∀ q ∈ L₁, q ≠ [] := by
      intro q hq hnil
      subst hnil
      exact not_admissibleChainTo_nil _ _ _ _ ((hmem₁ _).1 hq)
    have hthrough : ∀ q, Through index b q a ↔ (q = [] ∧ b.id = a) ∨ q ∈ L₁ := by
      intro q
      constructor
      · rintro ⟨_, h' | ⟨_, c', hc', hq⟩⟩
        · exact Or.inl h'
        · rw [hc] at hc'
          cases hc'
          exact Or.inr ((hmem₁ q).2 hq)
      · rintro (h' | hq)
        · exact ⟨hb, Or.inl h'⟩
        · exact ⟨hb, Or.inr ⟨hne₁ q hq, c, hc, (hmem₁ q).1 hq⟩⟩
    let n := s.reverse.length
    let H : List (List Nat) := if b.id = a then [[]] else []
    have hH : ∀ q, q ∈ H ↔ (q = [] ∧ b.id = a) := by
      intro q
      by_cases hba : b.id = a <;> simp [H, hba]
    have hHnd : H.Nodup := by
      by_cases hba : b.id = a <;> simp [H, hba]
    have hHlen : H.length = if b.id = a then 1 else 0 := by
      by_cases hba : b.id = a <;> simp [H, hba]
    have hdisj : ∀ q, q ∈ H → q ∈ L₁ → False := by
      intro q hq hq₁
      exact hne₁ q hq₁ ((hH q).1 hq).1
    have hnd₃ : (H ++ L₁).Nodup := List.Nodup.append hHnd hnd₁ (fun q h₁ h₂ => hdisj q h₁ h₂)
    refine ⟨L₂ ++ (H ++ L₁).map (fun q => n :: q), ?_, fun p => ?_, ?_⟩
    · refine List.Nodup.append hnd₂ ?_ ?_
      · exact hnd₃.map (fun q₁ q₂ hq => by simpa using hq)
      · intro p hp₂ hp₃
        obtain ⟨q, _, rfl⟩ := List.mem_map.1 hp₃
        have := admissibleChainTo_head_lt _ _ _ _ _ _ ((hmem₂ _).1 hp₂)
        exact lt_irrefl _ this
    · rw [List.reverse_cons, admissibleChainTo_snoc, List.mem_append, hmem₂, List.mem_map]
      constructor
      · rintro (h' | ⟨q, hq, rfl⟩)
        · exact Or.inl h'
        · refine Or.inr ⟨q, rfl, (hthrough q).2 ?_⟩
          rcases List.mem_append.1 hq with h' | h'
          · exact Or.inl ((hH q).1 h')
          · exact Or.inr h'
      · rintro (h' | ⟨q, rfl, hq⟩)
        · exact Or.inl h'
        · refine Or.inr ⟨q, ?_, rfl⟩
          rcases (hthrough q).1 hq with h' | h'
          · exact List.mem_append.2 (Or.inl ((hH q).2 h'))
          · exact List.mem_append.2 (Or.inr h')
    · rw [List.length_append, List.length_map, List.length_append, hHlen, hlen₁, hlen₂,
        countID_cons, countID_append]
      omega

/-! ### Deleting edges to records outside the index -/

theorem dropsDangling_refl (index : Index) (s : List BaseRecord) : DropsDangling index s s := by
  induction s with
  | nil => exact DropsDangling.nil
  | cons b s ih => exact DropsDangling.keep b _ _ ih

theorem dropsDangling_append (index : Index) {s s' : List BaseRecord}
    (h : DropsDangling index s s') {t t' : List BaseRecord} (ht : DropsDangling index t t') :
    DropsDangling index (s ++ t) (s' ++ t') := by
  induction h with
  | nil => simpa using ht
  | keep b s s' _ ih => exact DropsDangling.keep b _ _ ih
  | drop b s s' hb _ ih => exact DropsDangling.drop b _ _ hb ih

theorem dropsDangling_reverse (index : Index) {s s' : List BaseRecord}
    (h : DropsDangling index s s') : DropsDangling index s.reverse s'.reverse := by
  induction h with
  | nil => exact DropsDangling.nil
  | keep b s s' _ ih =>
    rw [List.reverse_cons, List.reverse_cons]
    exact dropsDangling_append index ih (dropsDangling_refl index [b])
  | drop b s s' hb _ ih =>
    rw [List.reverse_cons]
    have := dropsDangling_append index ih (DropsDangling.drop b [] [] hb DropsDangling.nil)
    simpa using this

theorem dropsDangling_eraseIdx (index : Index) (l : List BaseRecord) (i : Nat) (b : BaseRecord)
    (hb : l[i]? = some b) (hd : index.records.contains b.id = false) :
    DropsDangling index l (l.eraseIdx i) := by
  induction l generalizing i with
  | nil => simp at hb
  | cons a l ih =>
    cases i with
    | zero =>
      simp at hb
      subst hb
      exact DropsDangling.drop a _ _ hd (dropsDangling_refl index l)
    | succ i =>
      simp at hb
      exact DropsDangling.keep a _ _ (ih i hb)

theorem dropsDangling_pushAll (index : Index) {l l' : List BaseRecord}
    (h : DropsDangling index l l') : DropsDangling index (pushAll l []) (pushAll l' []) := by
  rw [pushAll_eq, pushAll_eq, List.append_nil, List.append_nil]
  exact dropsDangling_reverse index h

theorem admissible_congr (index index' : Index)
    (h : ∀ id, index'.records.contains id = index.records.contains id) (b : BaseRecord) :
    admissible index' b = admissible index b := by
  simp [admissible, h]

theorem not_admissible_of_dangling (index : Index) (b : BaseRecord)
    (h : index.records.contains b.id = false) : admissible index b = false := by
  simp [admissible, h]

theorem flat_of_all_dangling (index : Index) {s : List BaseRecord}
    (h : DropsDangling index s []) : Flat index s [] := by
  generalize ht : ([] : List BaseRecord) = t at h
  induction h with
  | nil => exact Flat.nil
  | keep b s s' _ _ => cases ht
  | drop b s s' hb _ ih => exact Flat.skip b _ _ (not_admissible_of_dangling index b hb) (ih ht)

/-- Deleting dangling edges, from the stack and from the base lists of the index, keeps every
terminating traversal and what it appends. -/
theorem flat_dropsDangling (index index' : Index) (hidx : IndexDropsDangling index index')
    {s out : List BaseRecord} (h : Flat index s out) :
    ∀ s', DropsDangling index s s' → Flat index' s' out := by
  induction h with
  | nil =>
    intro s' hs
    cases hs
    exact Flat.nil
  | skip b s out hb _ ih =>
    intro s' hs
    cases hs with
    | keep _ _ t ht =>
      exact Flat.skip b _ _ (by rw [admissible_congr index index' hidx.1, hb]) (ih _ ht)
    | drop _ _ _ _ ht => exact ih _ ht
  | take b c s o₁ o₂ hb hc _ _ ih₁ ih₂ =>
    intro s' hs
    cases hs with
    | keep _ _ t ht =>
      obtain ⟨c', hc', hdd⟩ := hidx.2 _ _ hc
      exact Flat.take b c' _ _ _ (by rw [admissible_congr index index' hidx.1, hb]) hc'
        (ih₁ _ (dropsDangling_pushAll index hdd)) (ih₂ _ ht)
    | drop _ _ _ hd _ =>
      rw [not_admissible_of_dangling index b hd] at hb
      cases hb

/-- Conversely, putting dangling edges back keeps every terminating traversal and what it
appends. -/
theorem flat_of_dropsDangling (index index' : Index) (hidx : IndexDropsDangling index index')
    {s' out : List BaseRecord} (h : Flat index' s' out) :
    ∀ s, DropsDangling index s s' → Flat index s out := by
  induction h with
  | nil =>
    intro s hs
    exact flat_of_all_dangling index hs
  | skip b s' out hb _ ih =>
    intro s hs
    generalize ht : b :: s' = t at hs
    induction hs with
    | nil => cases ht
    | keep a u u' hu _ =>
      cases ht
      exact Flat.skip b _ _ (by rw [← admissible_congr index index' hidx.1, hb]) (ih _ hu)
    | drop a u u' ha _ ihu =>
      exact Flat.skip a _ _ (not_admissible_of_dangling index a ha) (ihu ht)
  | take b c' s' o₁ o₂ hb hc' _ _ ih₁ ih₂ =>
    intro s hs
    generalize ht : b :: s' = t at hs
    induction hs with
    | nil => cases ht
    | keep a u u' hu _ =>
      cases ht
      have hb' : admissible index b = true := by
        rw [← admissible_congr index index' hidx.1, hb]
      obtain ⟨c, hc⟩ := (contains_iff_entriesAt _ _).1 ((admissible_iff index b).1 hb').1
      obtain ⟨c'', hc'', hdd⟩ := hidx.2 _ _ hc
      rw [hc'] at hc''
      cases hc''
      exact Flat.take b c _ _ _ hb' hc (ih₁ _ (dropsDangling_pushAll index hdd)) (ih₂ _ hu)
    | drop a u u' ha _ ihu =>
      exact Flat.skip a _ _ (not_admissible_of_dangling index a ha) (ihu ht)

theorem flat_dropsDangling_iff (index index' : Index) (hidx : IndexDropsDangling index index')
    {s s' : List BaseRecord} (hs : DropsDangling index s s') (out : List BaseRecord) :
    Flat index s out ↔ Flat index' s' out :=
  ⟨fun h => flat_dropsDangling index index' hidx h s' hs,
   fun h => flat_of_dropsDangling index index' hidx h s hs⟩

theorem indexDropsDangling_refl (index : Index) : IndexDropsDangling index index :=
  ⟨fun _ => rfl, fun _ c hc => ⟨c, hc, dropsDangling_refl index _⟩⟩

theorem lookup_map_snd {T : Type} (f : SymbolID → T → T) (l : List (SymbolID × T))
    (id : SymbolID) :
    (l.map fun kc => (kc.1, f kc.1 kc.2)).lookup id = (l.lookup id).map (f id) := by
  induction l with
  | nil => rfl
  | cons kc l ih =>
    obtain ⟨k', v⟩ := kc
    by_cases hk : id = k'
    · subst hk
      simp [List.lookup]
    · have hne : (id == k') = false := by simpa using hk
      simp only [List.map_cons, List.lookup, hne]
      exact ih

theorem indexDropsDangling_eraseBase (index : Index) (k : SymbolID) (c : RecordSymbol) (i : Nat)
    (b : BaseRecord) (hc : index.records.entriesAt k = some c) (hb : c.baseRecords[i]? = some b)
    (hd : index.records.contains b.id = false) :
    IndexDropsDangling index (index.eraseBase k i) := by
  have hl : ∀ id, (index.eraseBase k i).records.entriesAt id =
      (index.records.entriesAt id).map fun c => if id = k then c.eraseBase i else c := by
    intro id
    exact lookup_map_snd (fun k' c => if k' = k then c.eraseBase i else c) index.records.entries id
  refine ⟨fun id => ?_, fun id c' hc' => ?_⟩
  · have := hl id
    simp only [Database.entriesAt] at this
    simp [Database.contains, this]
  · rw [hl id, hc']
    refine ⟨_, rfl, ?_⟩
    by_cases hk : id = k
    · subst hk
      rw [hc] at hc'
      cases hc'
      simp only [if_true, RecordSymbol.eraseBase]
      exact dropsDangling_eraseIdx index _ i b hb hd
    · simp only [hk, if_false]
      exact dropsDangling_refl index _

theorem flat_admissible (index : Index) {s out : List BaseRecord} (h : Flat index s out) :
    ∀ e ∈ out, admissible index e = true := by
  induction h with
  | nil => intro e he; cases he
  | skip b s out _ _ ih => exact ih
  | take b c s o₁ o₂ hb _ _ _ ih₁ ih₂ =>
    intro e he
    rcases List.mem_cons.1 he with rfl | he
    · exact hb
    · rcases List.mem_append.1 he with he | he
      · exact ih₁ e he
      · exact ih₂ e he

/-! ### The claims about the inheritance flattener -/

theorem flat_mem_chain (index : Index) {s out : List BaseRecord} (h : Flat index s out)
    (src : SymbolID) (e : BaseRecord) (he : e ∈ out) :
    ∃ p, AdmissibleChainTo index src s.reverse p e.id := by
  obtain ⟨L, _, hmem, hlen⟩ := flat_paths index h src e.id
  have hpos : 0 < countID e.id out := by
    unfold countID
    exact List.countP_pos_iff.2 ⟨e, he, by simp⟩
  rw [← hlen] at hpos
  obtain ⟨p, hp⟩ := List.exists_mem_of_length_pos hpos
  exact ⟨p, (hmem p).1 hp⟩

/-- Every admissible edge of a stack is appended, immediately followed by what its own base
list gives. -/
theorem flat_mem_split (index : Index) {s out : List BaseRecord} (h : Flat index s out)
    (b : BaseRecord) (hb : b ∈ s) (hadm : admissible index b = true) (c : RecordSymbol)
    (hc : index.records.entriesAt b.id = some c) :
    ∃ o pre post, Flat index (pushAll c.baseRecords []) o ∧ out = pre ++ b :: (o ++ post) := by
  induction h with
  | nil => cases hb
  | skip a s out ha _ ih =>
    rcases List.mem_cons.1 hb with rfl | hb
    · rw [hadm] at ha; cases ha
    · exact ih hb
  | take a c' s o₁ o₂ ha hc' h₁ _ _ ih₂ =>
    rcases List.mem_cons.1 hb with rfl | hb
    · rw [hc] at hc'
      cases hc'
      exact ⟨o₁, [], o₂, h₁, rfl⟩
    · obtain ⟨o, pre, post, ho, rfl⟩ := ih₂ hb
      exact ⟨o, a :: (o₁ ++ pre), post, ho, by simp⟩

/-- C1: for a record R with a private base edge (at position `i`, to B) such that B is
reachable from R by no other chain of base edges, the list returned by
`getInheritedSymbols(index, R)` has no entry whose id is B, and no entry for any ancestor A
all of whose chains of base edges from R pass through that private edge. -/
theorem getInheritedSymbols_private_base (index : Index) (R : RecordSymbol) (i : Nat)
    (b₀ : BaseRecord) (hedge : R.baseRecords[i]? = some b₀)
    (hprivate : b₀.access = AccessSpecifier.AS_private)
    (honly : ∀ p steps, ChainTo index R.ID R.baseRecords p steps b₀.id → p = [i])
    (fuel : Nat) (res : List BaseRecord) (hres : getInheritedSymbols fuel index R = some res) :
    (∀ e ∈ res, e.id ≠ b₀.id) ∧
      ∀ a, (∀ p steps, ChainTo index R.ID R.baseRecords p steps a → ⟨R.ID, i, b₀⟩ ∈ steps) →
        ∀ e ∈ res, e.id ≠ a := by
  have hflat := (getInheritedSymbols_iff_flat index R res).1 ⟨fuel, hres⟩
  have key : ∀ a, (∀ p steps, ChainTo index R.ID R.baseRecords p steps a →
      (⟨R.ID, i, b₀⟩ : Step) ∈ steps) → ∀ e ∈ res, e.id ≠ a := by
    intro a hall e he hea
    obtain ⟨p, steps, hchain, hadm⟩ := flat_mem_chain index hflat R.ID e he
    rw [List.reverse_reverse, hea] at hchain
    have := hadm _ (hall p steps hchain)
    simp [admissible, hprivate] at this
  refine ⟨key b₀.id ?_, key⟩
  intro p steps hchain
  have hp := honly p steps hchain
  subst hp
  have hw := hchain.1
  rw [walk_single index R.ID R.baseRecords i b₀ hedge] at hw
  cases hw
  simp

/-- C2, as amended: in an index with acyclic inheritance, for a record R with a direct base
B1 (public or protected edge, B1 a record of the index) that has a direct base B2 (public or
protected edge, B2 a record of the index), `getInheritedSymbols(index, R)` returns a list, and
the list it returns contains the edge to B1 and, after it, the edge to B2 reached through
it. -/
theorem getInheritedSymbols_base_chain (index : Index) (hacyclic : Acyclic index)
    (R : RecordSymbol) (b₁ b₂ : BaseRecord) (c₁ : RecordSymbol)
    (h₁ : b₁ ∈ R.baseRecords)
    (ha₁ : b₁.access = AccessSpecifier.AS_public ∨ b₁.access = AccessSpecifier.AS_protected)
    (hc₁ : index.records.entriesAt b₁.id = some c₁)
    (h₂ : b₂ ∈ c₁.baseRecords)
    (ha₂ : b₂.access = AccessSpecifier.AS_public ∨ b₂.access = AccessSpecifier.AS_protected)
    (hc₂ : index.records.contains b₂.id = true) :
    (∃ fuel res, getInheritedSymbols fuel index R = some res) ∧
      ∀ fuel res, getInheritedSymbols fuel index R = some res →
        ∃ pre mid post, res = pre ++ b₁ :: (mid ++ b₂ :: post) := by
  refine ⟨acyclic_returns index hacyclic R, fun fuel res hres => ?_⟩
  have hflat := (getInheritedSymbols_iff_flat index R res).1 ⟨fuel, hres⟩
  have hadm₁ : admissible index b₁ = true := by
    rw [admissible_iff]
    refine ⟨(contains_iff_entriesAt _ _).2 ⟨c₁, hc₁⟩, ?_⟩
    rcases ha₁ with h | h <;> simp [h]
  have hadm₂ : admissible index b₂ = true := by
    rw [admissible_iff]
    refine ⟨hc₂, ?_⟩
    rcases ha₂ with h | h <;> simp [h]
  obtain ⟨c₂, hc₂'⟩ := (contains_iff_entriesAt _ _).1 hc₂
  obtain ⟨o, pre, post, ho, rfl⟩ :=
    flat_mem_split index hflat b₁ (List.mem_reverse.2 h₁) hadm₁ c₁ hc₁
  have hb₂ : b₂ ∈ pushAll c₁.baseRecords [] := by
    rw [pushAll_eq, List.append_nil]
    exact List.mem_reverse.2 h₂
  obtain ⟨o', pre', post', _, rfl⟩ := flat_mem_split index ho b₂ hb₂ hadm₂ c₂ hc₂'
  exact ⟨pre, pre', o' ++ post' ++ post, by simp⟩

/-- C3: a base edge `b` whose target is not a key of `index.records` contributes nothing to
`getInheritedSymbols(index, R)`: no entry of the result has its id, and the outcome (whether
the traversal returns, and the list it returns) is the same as when the edge is deleted from
the base list it belongs to, be that the base list of the root (first part), of a record of
the index (second part), or of the root stored in the index (third part). -/
theorem getInheritedSymbols_dangling_edge (index : Index) (R : RecordSymbol)
    (res : List BaseRecord) (i : Nat) (b : BaseRecord)
    (hdangling : index.records.contains b.id = false) :
    ((∃ fuel, getInheritedSymbols fuel index R = some res) → ∀ e ∈ res, e.id ≠ b.id) ∧
    (R.baseRecords[i]? = some b →
      ((∃ fuel, getInheritedSymbols fuel index R = some res) ↔
        ∃ fuel, getInheritedSymbols fuel index (R.eraseBase i) = some res)) ∧
    (∀ k c, index.records.entriesAt k = some c → c.baseRecords[i]? = some b →
      ((∃ fuel, getInheritedSymbols fuel index R = some res) ↔
        ∃ fuel, getInheritedSymbols fuel (index.eraseBase k i) R = some res)) ∧
    (∀ k, index.records.entriesAt k = some R → R.baseRecords[i]? = some b →
      ((∃ fuel, getInheritedSymbols fuel index R = some res) ↔
        ∃ fuel, getInheritedSymbols fuel (index.eraseBase k i) (R.eraseBase i) = some res)) := by
  have root : ∀ index' : Index, IndexDropsDangling index index' →
      R.baseRecords[i]? = some b →
      ((∃ fuel, getInheritedSymbols fuel index R = some res) ↔
        ∃ fuel, getInheritedSymbols fuel index' (R.eraseBase i) = some res) := by
    intro index' hidx hb
    rw [getInheritedSymbols_iff_flat, getInheritedSymbols_iff_flat]
    exact flat_dropsDangling_iff index index' hidx
      (dropsDangling_reverse index (dropsDangling_eraseIdx index _ i b hb hdangling)) res
  refine ⟨?_, root index (indexDropsDangling_refl index), ?_, ?_⟩
  · rintro hres e he heq
    have hflat := (getInheritedSymbols_iff_flat index R res).1 hres
    have := ((admissible_iff index e).1 (flat_admissible index hflat e he)).1
    rw [heq, hdangling] at this
    cases this
  · intro k c hc hb
    rw [getInheritedSymbols_iff_flat, getInheritedSymbols_iff_flat]
    exact flat_dropsDangling_iff index _ (indexDropsDangling_eraseBase index k c i b hc hb hdangling)
      (dropsDangling_refl index _) res
  · intro k hc hb
    exact root _ (indexDropsDangling_eraseBase index k R i b hc hb hdangling) hb

/-- C4: in an index with acyclic inheritance `getInheritedSymbols(index, R)` returns a list,
and for every id A the number of entries with id A in the list it returns is the number of
distinct chains of base edges from R to A along which every edge is non-private and every
target is a record of the index; there is no de-duplication. -/
theorem getInheritedSymbols_count_paths (index : Index) (hacyclic : Acyclic index)
    (R : RecordSymbol) :
    (∃ fuel res, getInheritedSymbols fuel index R = some res) ∧
      ∀ fuel res, getInheritedSymbols fuel index R = some res →
        ∀ a, countID a res =
          Set.ncard {p : List Nat | AdmissibleChainTo index R.ID R.baseRecords p a} := by
  refine ⟨acyclic_returns index hacyclic R, fun fuel res hres a => ?_⟩
  have hflat := (getInheritedSymbols_iff_flat index R res).1 ⟨fuel, hres⟩
  obtain ⟨L, hnd, hmem, hlen⟩ := flat_paths index hflat R.ID a
  rw [List.reverse_reverse] at hmem
  have hset : {p : List Nat | AdmissibleChainTo index R.ID R.baseRecords p a} = ↑L.toFinset := by
    ext p
    simp [hmem]
  rw [hset, Set.ncard_coe_Finset, List.toFinset_card_of_nodup hnd, hlen]

/-! ### The claims on the sample indexes -/

theorem exIndex_acyclic : Acyclic exIndex :=
  acyclic_of_rankDecreases exIndex exRank (by decide)

theorem exIndex_result : getInheritedSymbols 8 exIndex exRoot = some exResult := by decide

theorem exPrivateIndex_result :
    getInheritedSymbols 8 exPrivateIndex exPrivateRoot = some [exPlain] := by decide

theorem exPrivate_chains (p : List Nat) (steps : List Step) (a : SymbolID)
    (h : ChainTo exPrivateIndex exPrivateRoot.ID exPrivateRoot.baseRecords p steps a) :
    (p = [0] ∧ steps = [⟨⟨1⟩, 0, exHidden⟩] ∧ a = ⟨5⟩) ∨
    (p = [0, 0] ∧ steps = [⟨⟨1⟩, 0, exHidden⟩, ⟨⟨5⟩, 0, exSecret⟩] ∧ a = ⟨6⟩) ∨
    (p = [1] ∧ steps = [⟨⟨1⟩, 1, exPlain⟩] ∧ a = ⟨7⟩) := by
  obtain ⟨hw, hl⟩ := h
  match p, hw with
  | [], hw =>
    simp [walk] at hw
    subst hw
    simp at hl
  | [0], hw =>
    simp [walk, exPrivateRoot] at hw
    subst hw
    simp [exHidden] at hl
    exact Or.inl ⟨rfl, rfl, hl.symm⟩
  | [1], hw =>
    simp [walk, exPrivateRoot] at hw
    subst hw
    simp [exPlain] at hl
    exact Or.inr (Or.inr ⟨rfl, rfl, hl.symm⟩)
  | [k + 2], hw =>
    simp [walk, exPrivateRoot] at hw
  | [0, 0], hw =>
    simp [walk, exPrivateRoot, exPrivateIndex, Database.entriesAt, List.lookup, beq_eq_decide, exHidden] at hw
    subst hw
    simp [exSecret] at hl
    exact Or.inr (Or.inl ⟨rfl, rfl, hl.symm⟩)
  | 0 :: 0 :: _ :: _, hw =>
    simp [walk, exPrivateRoot, exPrivateIndex, Database.entriesAt, List.lookup, beq_eq_decide, exHidden, exSecret] at hw
  | 0 :: (j + 1) :: _, hw =>
    simp [walk, exPrivateRoot, exPrivateIndex, Database.entriesAt, List.lookup, beq_eq_decide, exHidden] at hw
  | 1 :: _ :: _, hw =>
    simp [walk, exPrivateRoot, exPrivateIndex, Database.entriesAt, List.lookup, beq_eq_decide, exPlain] at hw
  | (k + 2) :: _ :: _, hw =>
    simp [walk, exPrivateRoot] at hw

/-- C1 on a sample index: `Derived` has the private base `Hidden` (whose base is `Secret`) and
the public base `Plain`; neither `Hidden` nor `Secret` is in the list returned, which is
`[Plain]`. -/
theorem getInheritedSymbols_private_base_witness :
    getInheritedSymbols 8 exPrivateIndex exPrivateRoot = some [exPlain] ∧
      (∀ e ∈ [exPlain], e.id ≠ exHidden.id) ∧ (∀ e ∈ [exPlain], e.id ≠ exSecret.id) :=
  have h := getInheritedSymbols_private_base exPrivateIndex exPrivateRoot 0 exHidden rfl rfl
    (fun p steps hc => by
      rcases exPrivate_chains p steps _ hc with ⟨hp, _, _⟩ | ⟨_, _, ha⟩ | ⟨_, _, ha⟩
      · exact hp
      · exact absurd ha (by decide)
      · exact absurd ha (by decide))
    8 [exPlain] exPrivateIndex_result
  ⟨exPrivateIndex_result, h.1, h.2 exSecret.id (fun p steps hc => by
      rcases exPrivate_chains p steps _ hc with ⟨_, _, ha⟩ | ⟨_, hs, _⟩ | ⟨_, _, ha⟩
      · exact absurd ha (by decide)
      · rw [hs]; exact List.mem_cons_self _ _
      · exact absurd ha (by decide))⟩

theorem cycIndex_loop (fuel : Nat) :
    ∀ vec, getInheritedSymbolsLoop cycIndex fuel [cycB₁] vec = none ∧
      getInheritedSymbolsLoop cycIndex fuel [cycB₂] vec = none := by
  induction fuel with
  | zero => intro vec; exact ⟨rfl, rfl⟩
  | succ n ih =>
    intro vec
    constructor
    · rw [loop_take cycIndex n cycB₁ cycRecord₁ [] vec (by decide) (by decide)]
      exact (ih _).2
    · rw [loop_take cycIndex n cycB₂ cycRecord₂ [] vec (by decide) (by decide)]
      exact (ih _).1

/-- C2 fails as stated on an index with cyclic inheritance: the record `R` has the public
base `B1`, a record of the index, which has the public base `B2`, a record of the index; as
`B2` in turn has the base `B1`, the traversal never empties its stack and
`getInheritedSymbols` returns no list, whatever the number of iterations allowed. -/
theorem getInheritedSymbols_base_chain_counterexample :
    cycB₁ ∈ cycRoot.baseRecords ∧ cycB₁.access = AccessSpecifier.AS_public ∧
      cycIndex.records.entriesAt cycB₁.id = some cycRecord₁ ∧
      cycB₂ ∈ cycRecord₁.baseRecords ∧ cycB₂.access = AccessSpecifier.AS_public ∧
      cycIndex.records.contains cycB₂.id = true ∧
      ¬ ∃ fuel res, getInheritedSymbols fuel cycIndex cycRoot = some res := by
  refine ⟨by decide, rfl, by decide, by decide, rfl, by decide, ?_⟩
  rintro ⟨fuel, res, h⟩
  have := (cycIndex_loop fuel []).1
  rw [getInheritedSymbols] at h
  have e : pushAll cycRoot.baseRecords [] = [cycB₁] := rfl
  rw [e, this] at h
  cases h

/-- C2 (amended) on the diamond: `Derived` has the public base `Left`, whose public base is
`Top`; the list returned has `Left` and, after it, `Top`. -/
theorem getInheritedSymbols_base_chain_witness :
    Acyclic exIndex ∧
      (∃ fuel res, getInheritedSymbols fuel exIndex exRoot = some res) ∧
      ∃ pre mid post, exResult = pre ++ exLeft :: (mid ++ exTop :: post) :=
  have h := getInheritedSymbols_base_chain exIndex exIndex_acyclic exRoot exLeft exTop
    { ID := ⟨2⟩, name := "Left", baseRecords := [exTop] }
    (by decide) (Or.inl rfl) (by decide) (by decide) (Or.inl rfl) (by decide)
  ⟨exIndex_acyclic, h.1, h.2 8 exResult exIndex_result⟩

/-- C3 on the diamond: the library base of `Derived` and the library base of `Right` are not
records of the index; no entry of the list returned has their id, and deleting either edge
leaves the list returned unchanged. -/
theorem getInheritedSymbols_dangling_edge_witness :
    exIndex.records.contains exExt.id = false ∧
      (∀ e ∈ exResult, e.id ≠ exExt.id) ∧
      ((∃ fuel, getInheritedSymbols fuel exIndex exRoot = some exResult) ↔
        ∃ fuel, getInheritedSymbols fuel exIndex (exRoot.eraseBase 2) = some exResult) ∧
      ((∃ fuel, getInheritedSymbols fuel exIndex exRoot = some exResult) ↔
        ∃ fuel, getInheritedSymbols fuel (exIndex.eraseBase ⟨3⟩ 1) exRoot = some exResult) ∧
      ((∃ fuel, getInheritedSymbols fuel exIndex exRoot = some exResult) ↔
        ∃ fuel, getInheritedSymbols fuel (exIndex.eraseBase ⟨1⟩ 2) (exRoot.eraseBase 2) =
          some exResult) :=
  have h₂ := getInheritedSymbols_dangling_edge exIndex exRoot exResult 2 exExt (by decide)
  have h₁ := getInheritedSymbols_dangling_edge exIndex exRoot exResult 1 exExt (by decide)
  ⟨by decide, h₂.1 ⟨8, exIndex_result⟩, h₂.2.1 rfl,
    h₁.2.2.1 ⟨3⟩ { ID := ⟨3⟩, name := "Right", baseRecords := [exTop, exExt] } (by decide) rfl,
    h₂.2.2.2 ⟨1⟩ (by decide) rfl⟩

/-- C4 on the diamond: `Top` is reached from `Derived` by two admissible chains, through
`Left` and through `Right`, and is listed twice. -/
theorem getInheritedSymbols_count_paths_witness :
    Acyclic exIndex ∧ getInheritedSymbols 8 exIndex exRoot = some exResult ∧
      countID exTop.id exResult = 2 ∧
      countID exTop.id exResult =
        Set.ncard {p : List Nat | AdmissibleChainTo exIndex exRoot.ID exRoot.baseRecords p exTop.id} :=
  ⟨exIndex_acyclic, exIndex_result, by decide,
    (getInheritedSymbols_count_paths exIndex exIndex_acyclic exRoot).2 8 exResult exIndex_result
      exTop.id⟩


/-! ## Breadcrumb builder -/

/-- C5: for a symbol whose parent-container ID is zero, `getBreadcrumbNode` returns the empty
node `CTML::Node()`, whatever the index (and without entering its loops): no `nav` element,
no list entry, not even the entry for the symbol itself. -/
theorem getBreadcrumbNode_root (ext : Ext) (fuel : Nat) (pfx : String) (s : Symbol)
    (index : Index) (h : s.parentNamespaceID.raw = 0) :
    getBreadcrumbNode ext fuel pfx s index = some Node.empty ∧
      breadcrumbEntries Node.empty = [] ∧ Node.empty.name = "" := by
  refine ⟨?_, rfl, rfl⟩
  unfold getBreadcrumbNode
  simp [h]

/-- C5 on a sample: the alias `Handle` is declared at the root. -/
theorem getBreadcrumbNode_root_witness :
    aliasHandle.parentNamespaceID.raw = 0 ∧
      getBreadcrumbNode sampleExt 0 "alias" aliasHandle.toSymbol siteIndex = some Node.empty :=
  ⟨rfl, (getBreadcrumbNode_root sampleExt 0 "alias" aliasHandle.toSymbol siteIndex rfl).1⟩

theorem resolveParent_eq_none (index : Index) (id : SymbolID) :
    resolveParent index id = none ↔
      index.namespaces.contains id = false ∧ index.records.contains id = false := by
  unfold resolveParent
  cases hn : index.namespaces.contains id with
  | true =>
    obtain ⟨n, hn'⟩ := (contains_iff_entriesAt _ _).1 hn
    simp [hn']
  | false =>
    cases hr : index.records.contains id with
    | true =>
      obtain ⟨r, hr'⟩ := (contains_iff_entriesAt _ _).1 hr
      simp [hr']
    | false => simp

theorem parentStackLoop_stop (index : Index) (fuel : Nat) (parent : Symbol)
    (stack : List ParentSymbol) (h : resolveParent index parent.parentNamespaceID = none) :
    parentStackLoop index (fuel + 1) parent stack = some stack := by
  obtain ⟨h₁, h₂⟩ := (resolveParent_eq_none index _).1 h
  simp [parentStackLoop, h₁, h₂]

theorem parentStackLoop_step (index : Index) (fuel : Nat) (parent : Symbol)
    (stack : List ParentSymbol) (p : ParentSymbol)
    (h : resolveParent index parent.parentNamespaceID = some p) :
    parentStackLoop index (fuel + 1) parent stack =
      parentStackLoop index fuel p.symbol (p :: stack) := by
  unfold resolveParent at h
  rw [parentStackLoop]
  cases hn : index.namespaces.contains parent.parentNamespaceID with
  | true =>
    simp only [hn, if_true, Option.map_eq_some'] at h
    obtain ⟨n, hn', rfl⟩ := h
    simp [hn']
  | false =>
    cases hr : index.records.contains parent.parentNamespaceID with
    | true =>
      simp only [hn, hr, if_true, Bool.false_eq_true, if_false, Option.map_eq_some'] at h
      obtain ⟨r, hr', rfl⟩ := h
      simp [hr']
    | false => simp [hn, hr] at h

/-- With the zero ID unresolvable, the first loop stacks exactly the containers of the
chain, outermost on top. -/
theorem parentStackLoop_chain (index : Index) (hzero : resolveParent index ⟨0⟩ = none)
    (chain : List ParentSymbol) :
    ∀ (parent : Symbol) (stack : List ParentSymbol) (fuel : Nat),
      ParentChain index parent.parentNamespaceID chain → chain.length < fuel →
        parentStackLoop index fuel parent stack = some (chain.reverse ++ stack) := by
  induction chain with
  | nil =>
    intro parent stack fuel hchain hfuel
    have hid : parent.parentNamespaceID = ⟨0⟩ := by
      cases hp : parent.parentNamespaceID
      simp only [ParentChain, SymbolID.raw, hp] at hchain
      simp [hchain]
    obtain ⟨n, rfl⟩ : ∃ n, fuel = n + 1 := ⟨fuel - 1, by simp at hfuel; omega⟩
    rw [parentStackLoop_stop index n parent stack (by rw [hid]; exact hzero)]
    simp
  | cons p chain ih =>
    intro parent stack fuel hchain hfuel
    obtain ⟨hp, hrest⟩ := hchain
    obtain ⟨n, rfl⟩ : ∃ n, fuel = n + 1 := ⟨fuel - 1, by simp at hfuel; omega⟩
    rw [parentStackLoop_step index n parent stack p hp,
      ih p.symbol (p :: stack) n hrest (by simp at hfuel; omega)]
    simp

theorem parentEntry_eq (ext : Ext) (index : Index) (p : ParentSymbol) :
    parentEntry ext index p =
      Node.element "li" []
        [Node.element "a"
          [("href",
            if p.symbolType = "namespace" then
              entryPageUrl ext.namespaceDirectory false ++ "#" ++ ext.str p.symbol.ID
            else getURLForSymbol ext index p.symbol.ID true)]
          [Node.element "span" [] [Node.text (p.symbolType ++ " " ++ p.symbol.name)]]] := by
  unfold parentEntry
  by_cases h : p.symbolType = "namespace" <;>
    simp [h, Node.named, Node.SetAttr, Node.withText, Node.AddChild]

theorem activeEntry_eq (ext : Ext) (pfx : String) (s : Symbol) :
    activeEntry ext pfx s =
      Node.element "li.is-active" []
        [Node.element "a" [("aria-current", "page" ++ ext.str s.ID)]
          [Node.element "span" [] [Node.text (pfx ++ " " ++ s.name)]]] := by
  simp [activeEntry, Node.named, Node.SetAttr, Node.withText, Node.AddChild]

theorem addParentEntries_eq (ext : Ext) (index : Index) (stack : List ParentSymbol) :
    ∀ cs, addParentEntries ext index stack (Node.element "ul" [] cs) =
      Node.element "ul" [] (cs ++ stack.map (parentEntry ext index)) := by
  induction stack with
  | nil => intro cs; simp [addParentEntries]
  | cons p stack ih =>
    intro cs
    rw [addParentEntries]
    have : (Node.element "ul" [] cs).AddChild (parentEntry ext index p) =
        Node.element "ul" [] (cs ++ [parentEntry ext index p]) := by
      rw [parentEntry_eq]
      simp [Node.AddChild]
    rw [this, ih]
    simp

/-- C6: on an index of the data model, in which the zero ID identifies no symbol (`hzero`:
it is a key of neither `index.namespaces` nor `index.records`), for a symbol S whose
parent-container chain resolves N >= 1 times (to the containers `chain`, innermost first)
before reaching the zero ID, `getBreadcrumbNode` returns (given more than N loop iterations)
a `nav` holding one list of exactly N+1 entries: the N containers outermost first, then the
entry for S, labelled `prefix + " " + S.name`, whose anchor has no `href` attribute. -/
theorem getBreadcrumbNode_chain (ext : Ext) (index : Index) (pfx : String) (s : Symbol)
    (chain : List ParentSymbol)
    (hzero : index.namespaces.contains ⟨0⟩ = false ∧ index.records.contains ⟨0⟩ = false)
    (hchain : ParentChain index s.parentNamespaceID chain) (hN : 1 ≤ chain.length)
    (fuel : Nat) (hfuel : chain.length < fuel) :
    ∃ nav, getBreadcrumbNode ext fuel pfx s index = some nav ∧
      nav.name = "nav.breadcrumb has-arrow-separator" ∧
      breadcrumbEntries nav =
        chain.reverse.map (parentEntry ext index) ++ [activeEntry ext pfx s] ∧
      (breadcrumbEntries nav).length = chain.length + 1 ∧
      (breadcrumbEntries nav).map entryLabel =
        chain.reverse.map (fun p => some (p.symbolType ++ " " ++ p.symbol.name)) ++
          [some (pfx ++ " " ++ s.name)] ∧
      entryHref (activeEntry ext pfx s) = none := by
  have hz : resolveParent index ⟨0⟩ = none := (resolveParent_eq_none index _).2 hzero
  have hne : ¬ s.parentNamespaceID.raw = 0 := by
    intro h0
    cases chain with
    | nil => simp at hN
    | cons p chain =>
      have hid : s.parentNamespaceID = ⟨0⟩ := by
        cases hp : s.parentNamespaceID
        simp only [SymbolID.raw, hp] at h0
        simp [h0]
      have := hchain.1
      rw [hid, hz] at this
      cases this
  have hstack := parentStackLoop_chain index hz chain s [] fuel hchain hfuel
  have hlabel : ∀ l : List ParentSymbol, (l.map (parentEntry ext index)).map entryLabel =
      l.map (fun p => some (p.symbolType ++ " " ++ p.symbol.name)) := by
    intro l
    rw [List.map_map]
    apply List.map_congr_left
    intro p _
    simp [parentEntry_eq, entryLabel, Node.children]
  refine ⟨Node.element "nav.breadcrumb has-arrow-separator" [("aria-label", "breadcrumbs")]
    [Node.element "ul" [] (chain.reverse.map (parentEntry ext index) ++ [activeEntry ext pfx s])],
    ?_, rfl, rfl, by simp [breadcrumbEntries, Node.children], ?_, ?_⟩
  · unfold getBreadcrumbNode
    rw [if_neg hne]
    simp only [hstack, List.append_nil]
    have h₁ : addParentEntries ext index chain.reverse (Node.named "ul") =
        Node.element "ul" [] (chain.reverse.map (parentEntry ext index)) := by
      have := addParentEntries_eq ext index chain.reverse []
      simpa [Node.named] using this
    rw [h₁]
    have h₂ : (Node.element "ul" [] (chain.reverse.map (parentEntry ext index))).AddChild
        (activeEntry ext pfx s) =
        Node.element "ul" []
          (chain.reverse.map (parentEntry ext index) ++ [activeEntry ext pfx s]) := by
      rw [activeEntry_eq]
      simp [Node.AddChild]
    rw [h₂]
    simp [Node.named, Node.SetAttr, Node.AddChild]
  · simp only [breadcrumbEntries, Node.children, List.map_append, hlabel]
    simp [activeEntry_eq, entryLabel, Node.children]
  · simp [activeEntry_eq, entryHref, Node.children, Node.attr?, Node.attrs, List.lookup]

/-- What the invariant on the zero ID is for: the first loop of `getBreadcrumbNode` has no
test for the zero ID, so on an index that stores a namespace under the zero ID, which the
data model excludes, it resolves the zero ID as well: the parent chain of `thing` resolves
once (to the namespace `outer`) before reaching the zero ID, and `getBreadcrumbNode` returns
three entries. -/
theorem getBreadcrumbNode_zero_key :
    ParentChain zeroKeyIndex symInOuter.parentNamespaceID [⟨"namespace", nsOuter.toSymbol⟩] ∧
      (∃ fuel nav, getBreadcrumbNode sampleExt fuel "enum" symInOuter zeroKeyIndex = some nav) ∧
      ∀ fuel nav, getBreadcrumbNode sampleExt fuel "enum" symInOuter zeroKeyIndex = some nav →
        (breadcrumbEntries nav).length = 3 := by
  refine ⟨by decide, ⟨3, _, rfl⟩, ?_⟩
  intro fuel nav h
  have hlen : ∀ n, (getBreadcrumbNode sampleExt (n + 3) "enum" symInOuter zeroKeyIndex).map
      (fun nav => (breadcrumbEntries nav).length) = some 3 := by
    intro n
    have hs : parentStackLoop zeroKeyIndex (n + 3) symInOuter [] =
        some [⟨"namespace", nsZero.toSymbol⟩, ⟨"namespace", nsOuter.toSymbol⟩] := by
      rw [parentStackLoop_step zeroKeyIndex (n + 2) symInOuter [] ⟨"namespace", nsOuter.toSymbol⟩
          (by decide),
        parentStackLoop_step zeroKeyIndex (n + 1) nsOuter.toSymbol _ ⟨"namespace", nsZero.toSymbol⟩
          (by decide),
        parentStackLoop_stop zeroKeyIndex n nsZero.toSymbol _ (by decide)]
    have h3 : getBreadcrumbNode sampleExt (n + 3) "enum" symInOuter zeroKeyIndex =
        getBreadcrumbNode sampleExt 3 "enum" symInOuter zeroKeyIndex := by
      unfold getBreadcrumbNode
      rw [hs]
      rfl
    rw [h3]
    decide
  match fuel, h with
  | 0, h =>
    have h0 : getBreadcrumbNode sampleExt 0 "enum" symInOuter zeroKeyIndex = none := rfl
    rw [h0] at h
    cases h
  | 1, h =>
    have h0 : getBreadcrumbNode sampleExt 1 "enum" symInOuter zeroKeyIndex = none := rfl
    rw [h0] at h
    cases h
  | 2, h =>
    have h0 : getBreadcrumbNode sampleExt 2 "enum" symInOuter zeroKeyIndex = none := rfl
    rw [h0] at h
    cases h
  | n + 3, h =>
    have := hlen n
    rw [h] at this
    simpa using this

/-- C6 on a sample: the enum `Mode` is nested in the class `Widget` of the
namespace `inner` of the namespace `outer`; its breadcrumbs are those three containers,
outermost first, and the entry for `Mode`. -/
theorem getBreadcrumbNode_chain_witness :
    ParentChain siteIndex enumMode.parentNamespaceID
        [⟨"class", recWidget.toSymbol⟩, ⟨"namespace", nsInner.toSymbol⟩,
          ⟨"namespace", nsOuter.toSymbol⟩] ∧
      ∃ nav, getBreadcrumbNode sampleExt 4 "enum" enumMode.toSymbol siteIndex = some nav ∧
        (breadcrumbEntries nav).map entryLabel =
          [some "namespace outer", some "namespace inner", some "class Widget",
            some "enum Mode"] :=
  have hchain : ParentChain siteIndex enumMode.parentNamespaceID
      [⟨"class", recWidget.toSymbol⟩, ⟨"namespace", nsInner.toSymbol⟩,
        ⟨"namespace", nsOuter.toSymbol⟩] := by decide
  have h := getBreadcrumbNode_chain sampleExt siteIndex "enum" enumMode.toSymbol _
    ⟨by decide, by decide⟩ hchain (by decide) 4 (by decide)
  ⟨hchain, h.choose, h.choose_spec.1, h.choose_spec.2.2.2.2.1⟩

/-! ## URL resolver -/

/-- C7: an ID that is a key of none of `index.records`, `index.enums` and `index.aliases`
(be it zero, or the ID of a namespace or of a function of the index) resolves to the empty
string, for both values of `relative`. -/
theorem getURLForSymbol_unknown (ext : Ext) (index : Index) (id : SymbolID) (relative : Bool)
    (hr : index.records.contains id = false) (he : index.enums.contains id = false)
    (ha : index.aliases.contains id = false) :
    getURLForSymbol ext index id relative = "" := by
  simp [getURLForSymbol, hr, he, ha]

/-- C7 on a sample: the zero ID, the ID of the namespace `outer` and the ID of the method
`draw` resolve to the empty string. -/
theorem getURLForSymbol_unknown_witness :
    siteIndex.namespaces.contains ⟨10⟩ = true ∧ siteIndex.functions.contains ⟨50⟩ = true ∧
      getURLForSymbol sampleExt siteIndex ⟨0⟩ true = "" ∧
      getURLForSymbol sampleExt siteIndex ⟨10⟩ false = "" ∧
      getURLForSymbol sampleExt siteIndex ⟨50⟩ true = "" :=
  ⟨by decide, by decide,
    getURLForSymbol_unknown sampleExt siteIndex ⟨0⟩ true (by decide) (by decide) (by decide),
    getURLForSymbol_unknown sampleExt siteIndex ⟨10⟩ false (by decide) (by decide) (by decide),
    getURLForSymbol_unknown sampleExt siteIndex ⟨50⟩ true (by decide) (by decide) (by decide)⟩

/-- C8: an ID found in records, enums or aliases resolves to
`prefix + kindDirectory + "/" + id.str() + ".html"`, the directory being that of the first
collection that has the ID in the order records, enums, aliases, and the prefix being `"../"`
when `relative` is true and empty otherwise; so the relative URL is `"../"` followed by the
absolute one. -/
theorem getURLForSymbol_found (ext : Ext) (index : Index) (id : SymbolID) (relative : Bool) :
    (index.records.contains id = true →
      getURLForSymbol ext index id relative =
        (if relative then "../" else "") ++ ext.recordDirectory ++ "/" ++ ext.str id ++ ".html") ∧
    (index.records.contains id = false → index.enums.contains id = true →
      getURLForSymbol ext index id relative =
        (if relative then "../" else "") ++ ext.enumDirectory ++ "/" ++ ext.str id ++ ".html") ∧
    (index.records.contains id = false → index.enums.contains id = false →
      index.aliases.contains id = true →
      getURLForSymbol ext index id relative =
        (if relative then "../" else "") ++ ext.aliasDirectory ++ "/" ++ ext.str id ++ ".html") ∧
    (index.records.contains id = true ∨ index.enums.contains id = true ∨
        index.aliases.contains id = true →
      getURLForSymbol ext index id true = "../" ++ getURLForSymbol ext index id false) := by
  refine ⟨fun hr => ?_, fun hr he => ?_, fun hr he ha => ?_, fun h => ?_⟩
  · simp [getURLForSymbol, hr, getRecordUrl]
  · simp [getURLForSymbol, hr, he, getEnumURL]
  · simp [getURLForSymbol, hr, he, ha, getAliasURL]
  · cases hr : index.records.contains id with
    | true => simp [getURLForSymbol, hr, getRecordUrl, String.append_assoc]
    | false =>
      cases he : index.enums.contains id with
      | true => simp [getURLForSymbol, hr, he, getEnumURL, String.append_assoc]
      | false =>
        cases ha : index.aliases.contains id with
        | true => simp [getURLForSymbol, hr, he, ha, getAliasURL, String.append_assoc]
        | false => simp [hr, he, ha] at h

/-- C8 on a sample: the class `Widget`, the enum `Mode` and the alias `Handle`. -/
theorem getURLForSymbol_found_witness :
    getURLForSymbol sampleExt siteIndex ⟨20⟩ false = "records/20.html" ∧
      getURLForSymbol sampleExt siteIndex ⟨30⟩ true = "../enums/30.html" ∧
      getURLForSymbol sampleExt siteIndex ⟨40⟩ false = "aliases/40.html" ∧
      getURLForSymbol sampleExt siteIndex ⟨20⟩ true =
        "../" ++ getURLForSymbol sampleExt siteIndex ⟨20⟩ false :=
  ⟨(getURLForSymbol_found sampleExt siteIndex ⟨20⟩ false).1 (by decide),
    (getURLForSymbol_found sampleExt siteIndex ⟨30⟩ true).2.1 (by decide) (by decide),
    (getURLForSymbol_found sampleExt siteIndex ⟨40⟩ false).2.2.1 (by decide) (by decide)
      (by decide),
    (getURLForSymbol_found sampleExt siteIndex ⟨20⟩ true).2.2.2 (Or.inl (by decide))⟩

theorem namespaceLoop_zero (index : Index) (fuel : Nat) (id : SymbolID) (acc : List String)
    (h : id.raw = 0) : getNamespaceStringLoop index fuel id acc = Result.ok acc := by
  cases fuel <;> simp [getNamespaceStringLoop, h]

theorem namespaceLoop_no_fuel (index : Index) (id : SymbolID) (acc : List String)
    (h : id.raw ≠ 0) : getNamespaceStringLoop index 0 id acc = Result.outOfFuel := by
  simp [getNamespaceStringLoop, h]

theorem namespaceLoop_absent (index : Index) (fuel : Nat) (id : SymbolID) (acc : List String)
    (h : id.raw ≠ 0) (ha : index.namespaces.entriesAt id = none) :
    getNamespaceStringLoop index (fuel + 1) id acc = Result.outOfRange := by
  simp [getNamespaceStringLoop, h, ha]

theorem namespaceLoop_step (index : Index) (fuel : Nat) (id : SymbolID) (acc : List String)
    (ns : NamespaceSymbol) (h : id.raw ≠ 0) (ha : index.namespaces.entriesAt id = some ns) :
    getNamespaceStringLoop index (fuel + 1) id acc =
      getNamespaceStringLoop index fuel ns.parentNamespaceID (acc ++ [ns.name]) := by
  rw [getNamespaceStringLoop]
  simp [h, ha]

theorem namespaceLoop_of_chain (index : Index) (names : List String) :
    ∀ (id : SymbolID) (acc : List String) (fuel : Nat), NamespaceChain index id names →
      names.length ≤ fuel → getNamespaceStringLoop index fuel id acc = Result.ok (acc ++ names) := by
  induction names with
  | nil =>
    intro id acc fuel h _
    rw [namespaceLoop_zero index fuel id acc h]
    simp
  | cons name names ih =>
    intro id acc fuel h hfuel
    obtain ⟨h0, ns, hns, rfl, hrest⟩ := h
    obtain ⟨n, rfl⟩ : ∃ n, fuel = n + 1 := ⟨fuel - 1, by simp at hfuel; omega⟩
    rw [namespaceLoop_step index n id acc ns h0 hns,
      ih _ _ n hrest (by simp at hfuel; omega)]
    simp

theorem namespaceLoop_ok (index : Index) (fuel : Nat) :
    ∀ (id : SymbolID) (acc res : List String),
      getNamespaceStringLoop index fuel id acc = Result.ok res →
        ∃ names, NamespaceChain index id names ∧ res = acc ++ names := by
  induction fuel with
  | zero =>
    intro id acc res h
    by_cases h0 : id.raw = 0
    · rw [namespaceLoop_zero index 0 id acc h0] at h
      cases h
      exact ⟨[], h0, by simp⟩
    · rw [namespaceLoop_no_fuel index id acc h0] at h
      cases h
  | succ n ih =>
    intro id acc res h
    by_cases h0 : id.raw = 0
    · rw [namespaceLoop_zero index _ id acc h0] at h
      cases h
      exact ⟨[], h0, by simp⟩
    · cases hns : index.namespaces.entriesAt id with
      | none =>
        rw [namespaceLoop_absent index n id acc h0 hns] at h
        cases h
      | some ns =>
        rw [namespaceLoop_step index n id acc ns h0 hns] at h
        obtain ⟨names, hchain, rfl⟩ := ih _ _ _ h
        exact ⟨ns.name :: names, ⟨h0, ns, hns, rfl, hchain⟩, by simp⟩

theorem namespaceLoop_raises (index : Index) (fuel : Nat) :
    ∀ (id : SymbolID) (acc : List String),
      getNamespaceStringLoop index fuel id acc = Result.outOfRange →
        NamespaceChainBreaks index id := by
  induction fuel with
  | zero =>
    intro id acc h
    by_cases h0 : id.raw = 0
    · rw [namespaceLoop_zero index 0 id acc h0] at h
      cases h
    · rw [namespaceLoop_no_fuel index id acc h0] at h
      cases h
  | succ n ih =>
    intro id acc h
    by_cases h0 : id.raw = 0
    · rw [namespaceLoop_zero index _ id acc h0] at h
      cases h
    · cases hns : index.namespaces.entriesAt id with
      | none => exact NamespaceChainBreaks.here id h0 hns
      | some ns =>
        rw [namespaceLoop_step index n id acc ns h0 hns] at h
        exact NamespaceChainBreaks.later id ns h0 hns (ih _ _ h)

theorem namespaceLoop_of_breaks (index : Index) {id : SymbolID}
    (h : NamespaceChainBreaks index id) :
    ∃ fuel, ∀ acc, getNamespaceStringLoop index fuel id acc = Result.outOfRange := by
  induction h with
  | here id h0 ha => exact ⟨1, fun acc => namespaceLoop_absent index 0 id acc h0 ha⟩
  | later id ns h0 ha _ ih =>
    obtain ⟨n, hn⟩ := ih
    exact ⟨n + 1, fun acc => by rw [namespaceLoop_step index n id acc ns h0 ha, hn]⟩

theorem result_map_ok {α β : Type} (f : α → β) (r : Result α) (b : β) :
    r.map f = Result.ok b ↔ ∃ a, r = Result.ok a ∧ f a = b := by
  cases r <;> simp [Result.map]

theorem result_map_outOfRange {α β : Type} (f : α → β) (r : Result α) :
    r.map f = Result.outOfRange ↔ r = Result.outOfRange := by
  cases r <;> simp [Result.map]

theorem getFunctionGroupURL_returns (index : Index) (g : FreestandingFunctionID)
    (relative : Bool) :
    (∃ fuel url, getFunctionGroupURL fuel index g relative = Result.ok url) ↔
      ∃ names, NamespaceChain index g.parentNamespaceID names := by
  constructor
  · rintro ⟨fuel, url, h⟩
    simp only [getFunctionGroupURL, getNamespaceString, result_map_ok] at h
    obtain ⟨_, ⟨res, hres, _⟩, _⟩ := h
    obtain ⟨names, hchain, _⟩ := namespaceLoop_ok index fuel _ _ _ hres
    exact ⟨names, hchain⟩
  · rintro ⟨names, hchain⟩
    refine ⟨names.length, ?_⟩
    simp only [getFunctionGroupURL, getNamespaceString,
      namespaceLoop_of_chain index names _ [] _ hchain (le_refl _), Result.map]
    exact ⟨_, rfl⟩

theorem getFunctionGroupURL_raises (index : Index) (g : FreestandingFunctionID)
    (relative : Bool) :
    (∃ fuel, getFunctionGroupURL fuel index g relative = Result.outOfRange) ↔
      NamespaceChainBreaks index g.parentNamespaceID := by
  constructor
  · rintro ⟨fuel, h⟩
    simp only [getFunctionGroupURL, getNamespaceString, result_map_outOfRange] at h
    exact namespaceLoop_raises index fuel _ _ h
  · intro h
    obtain ⟨fuel, hf⟩ := namespaceLoop_of_breaks index h
    exact ⟨fuel, by simp [getFunctionGroupURL, getNamespaceString, hf, Result.map]⟩

theorem getFunctionURL_absent (ext : Ext) (fuel : Nat) (index : Index) (f : SymbolID)
    (relative : Bool) (h : index.functions.entriesAt f = none) :
    getFunctionURL ext fuel index f relative = Result.outOfRange := by
  simp [getFunctionURL, h]

theorem getFunctionURL_grouped (ext : Ext) (fuel : Nat) (index : Index) (f : SymbolID)
    (func : FunctionSymbol) (relative : Bool) (h : index.functions.entriesAt f = some func)
    (hg : func.freestandingID ≠ ext.notFreeStanding) :
    getFunctionURL ext fuel index f relative =
      (getFunctionGroupURL fuel index func.freestandingID relative).map
        (fun url => url ++ "#" ++ ext.str func.ID) := by
  simp [getFunctionURL, h, hg]

theorem getFunctionURL_member (ext : Ext) (fuel : Nat) (index : Index) (f : SymbolID)
    (func : FunctionSymbol) (relative : Bool) (h : index.functions.entriesAt f = some func)
    (hg : func.freestandingID = ext.notFreeStanding) (r : RecordSymbol)
    (hr : index.records.entriesAt func.parentNamespaceID = some r) :
    getFunctionURL ext fuel index f relative =
      Result.ok ((if relative then ext.recordRelativeUrl r else ext.recordUrl r) ++ "#" ++
        ext.str func.ID) := by
  cases relative <;> simp [getFunctionURL, h, hg, hr]

theorem getFunctionURL_orphan (ext : Ext) (fuel : Nat) (index : Index) (f : SymbolID)
    (func : FunctionSymbol) (relative : Bool) (h : index.functions.entriesAt f = some func)
    (hg : func.freestandingID = ext.notFreeStanding)
    (hr : index.records.contains func.parentNamespaceID = false) :
    getFunctionURL ext fuel index f relative = Result.outOfRange := by
  have hr' : index.records.entriesAt func.parentNamespaceID = none := by
    cases hc : index.records.entriesAt func.parentNamespaceID with
    | none => rfl
    | some c =>
      rw [(contains_iff_entriesAt _ _).2 ⟨c, hc⟩] at hr
      cases hr
  simp [getFunctionURL, h, hg, hr']

/-- C9, as amended: `getFunctionGroupURL` returns a string exactly when the chain of enclosing
namespaces of the group stays within `index.namespaces` until it reaches the zero ID, and
raises `std::out_of_range` exactly when that chain meets an ID that is not a namespace of the
index; `getFunctionURL` returns a string exactly when the function ID is a key of
`index.functions` and the function is either in a group whose chain is as above, or in no
group with a parent that is a record of the index; it raises for a function ID absent from
`index.functions` and for a function in no group whose parent is not a record.
(`getURLForSymbol` makes no unchecked lookup and is a total function in this embedding.) -/
theorem url_resolution_outcomes (ext : Ext) (index : Index) (relative : Bool) :
    (∀ g, (∃ fuel url, getFunctionGroupURL fuel index g relative = Result.ok url) ↔
      ∃ names, NamespaceChain index g.parentNamespaceID names) ∧
    (∀ g, (∃ fuel, getFunctionGroupURL fuel index g relative = Result.outOfRange) ↔
      NamespaceChainBreaks index g.parentNamespaceID) ∧
    (∀ f, (∃ fuel url, getFunctionURL ext fuel index f relative = Result.ok url) ↔
      ∃ func, index.functions.entriesAt f = some func ∧
        ((func.freestandingID ≠ ext.notFreeStanding ∧
            ∃ names, NamespaceChain index func.freestandingID.parentNamespaceID names) ∨
          (func.freestandingID = ext.notFreeStanding ∧
            index.records.contains func.parentNamespaceID = true))) ∧
    (∀ f fuel, index.functions.entriesAt f = none →
      getFunctionURL ext fuel index f relative = Result.outOfRange) ∧
    (∀ f func fuel, index.functions.entriesAt f = some func →
      func.freestandingID = ext.notFreeStanding →
      index.records.contains func.parentNamespaceID = false →
      getFunctionURL ext fuel index f relative = Result.outOfRange) := by
  refine ⟨fun g => getFunctionGroupURL_returns index g relative,
    fun g => getFunctionGroupURL_raises index g relative, fun f => ?_,
    fun f fuel h => getFunctionURL_absent ext fuel index f relative h,
    fun f func fuel h hg hr => getFunctionURL_orphan ext fuel index f func relative h hg hr⟩
  constructor
  · rintro ⟨fuel, url, h⟩
    cases hf : index.functions.entriesAt f with
    | none =>
      rw [getFunctionURL_absent ext fuel index f relative hf] at h
      cases h
    | some func =>
      refine ⟨func, rfl, ?_⟩
      by_cases hg : func.freestandingID = ext.notFreeStanding
      · right
        refine ⟨hg, ?_⟩
        cases hr : index.records.contains func.parentNamespaceID with
        | true => rfl
        | false =>
          rw [getFunctionURL_orphan ext fuel index f func relative hf hg hr] at h
          cases h
      · left
        refine ⟨hg, ?_⟩
        rw [getFunctionURL_grouped ext fuel index f func relative hf hg, result_map_ok] at h
        obtain ⟨u, hu, _⟩ := h
        exact (getFunctionGroupURL_returns index _ relative).1 ⟨fuel, u, hu⟩
  · rintro ⟨func, hf, ⟨hg, hchain⟩ | ⟨hg, hr⟩⟩
    · obtain ⟨fuel, u, hu⟩ := (getFunctionGroupURL_returns index _ relative).2 hchain
      refine ⟨fuel, u ++ "#" ++ ext.str func.ID, ?_⟩
      rw [getFunctionURL_grouped ext fuel index f func relative hf hg, hu]
      rfl
    · obtain ⟨r, hr'⟩ := (contains_iff_entriesAt _ _).1 hr
      exact ⟨0, _, getFunctionURL_member ext 0 index f func relative hf hg r hr'⟩

/-- C9 fails as stated: on the sample index `getFunctionURL` raises `std::out_of_range` for
the ID 99, which is no function of the index, and for the function `orphan`, which is in no
group and whose parent is no record; `getFunctionGroupURL` raises for a group whose
namespace (id 78) is not in the index. -/
theorem url_resolution_counterexample :
    (siteIndex.functions.contains ⟨99⟩ = false ∧
      ∀ fuel relative, getFunctionURL sampleExt fuel siteIndex ⟨99⟩ relative = Result.outOfRange) ∧
    (siteIndex.functions.entriesAt ⟨52⟩ = some fnOrphan ∧
      fnOrphan.freestandingID = sampleExt.notFreeStanding ∧
      siteIndex.records.contains fnOrphan.parentNamespaceID = false ∧
      ∀ fuel relative, getFunctionURL sampleExt fuel siteIndex ⟨52⟩ relative = Result.outOfRange) ∧
    (siteIndex.namespaces.contains ⟨78⟩ = false ∧
      ∀ fuel relative,
        getFunctionGroupURL (fuel + 1) siteIndex ⟨⟨78⟩, "lost"⟩ relative = Result.outOfRange) := by
  refine ⟨⟨by decide, fun fuel relative => ?_⟩, ⟨by decide, rfl, by decide, fun fuel relative => ?_⟩,
    ⟨by decide, fun fuel relative => ?_⟩⟩
  · exact getFunctionURL_absent sampleExt fuel siteIndex ⟨99⟩ relative (by decide)
  · exact getFunctionURL_orphan sampleExt fuel siteIndex ⟨52⟩ fnOrphan relative (by decide) rfl
      (by decide)
  · simp only [getFunctionGroupURL, getNamespaceString]
    rw [namespaceLoop_absent siteIndex fuel ⟨78⟩ [] (by decide) (by decide)]
    rfl

/-- C9 (amended) on the sample index: the URL of the group `(inner, make)` and of the method
`draw` are returned, the lookups of the ID 99 and of `orphan` raise. -/
theorem url_resolution_outcomes_witness :
    (∃ fuel url, getFunctionGroupURL fuel siteIndex ⟨⟨11⟩, "make"⟩ true = Result.ok url) ∧
      (∃ fuel url, getFunctionURL sampleExt fuel siteIndex ⟨50⟩ true = Result.ok url) ∧
      getFunctionURL sampleExt 3 siteIndex ⟨99⟩ true = Result.outOfRange ∧
      getFunctionURL sampleExt 3 siteIndex ⟨52⟩ true = Result.outOfRange :=
  have h := url_resolution_outcomes sampleExt siteIndex true
  ⟨(h.1 ⟨⟨11⟩, "make"⟩).2 ⟨["inner", "outer"], by decide, nsInner, by decide, rfl, by decide,
      nsOuter, by decide, rfl, rfl⟩,
    (h.2.2.1 ⟨50⟩).2 ⟨fnDraw, by decide, Or.inr ⟨rfl, by decide⟩⟩,
    h.2.2.2.1 ⟨99⟩ 3 (by decide),
    h.2.2.2.2 ⟨52⟩ fnOrphan 3 (by decide) rfl (by decide)⟩

/-- C10: for a function `func` stored in `index.functions`: if it belongs to a freestanding
group, its URL is the URL of the group followed by `"#"` and the function's ID (and is not
returned when the URL of the group is not); otherwise, if its parent is a record `r` of the
index, its URL is `r.relativeUrl()` (when `relative`) or `r.url()` (when not) followed by
`"#"` and the function's ID. -/
theorem getFunctionURL_eq (ext : Ext) (fuel : Nat) (index : Index) (f : SymbolID)
    (func : FunctionSymbol) (relative : Bool) (hf : index.functions.entriesAt f = some func) :
    (func.freestandingID ≠ ext.notFreeStanding →
      getFunctionURL ext fuel index f relative =
        (getFunctionGroupURL fuel index func.freestandingID relative).map
          (fun url => url ++ "#" ++ ext.str func.ID)) ∧
    (func.freestandingID = ext.notFreeStanding →
      ∀ r, index.records.entriesAt func.parentNamespaceID = some r →
        getFunctionURL ext fuel index f relative =
          Result.ok ((if relative then ext.recordRelativeUrl r else ext.recordUrl r) ++ "#" ++
            ext.str func.ID)) :=
  ⟨fun hg => getFunctionURL_grouped ext fuel index f func relative hf hg,
    fun hg r hr => getFunctionURL_member ext fuel index f func relative hf hg r hr⟩

/-- C10 on the sample index: the free function `make` of the group `(inner, make)` and the
method `draw` of the class `Widget`. -/
theorem getFunctionURL_eq_witness :
    getFunctionGroupURL 2 siteIndex ⟨⟨11⟩, "make"⟩ true =
        Result.ok "../functions/outer_inner-make.html" ∧
      getFunctionURL sampleExt 2 siteIndex ⟨51⟩ true =
        Result.ok "../functions/outer_inner-make.html#51" ∧
      getFunctionURL sampleExt 2 siteIndex ⟨50⟩ true = Result.ok "../records/20.html#50" ∧
      getFunctionURL sampleExt 2 siteIndex ⟨50⟩ false = Result.ok "records/20.html#50" :=
  ⟨by decide,
    (getFunctionURL_eq sampleExt 2 siteIndex ⟨51⟩ fnMake true (by decide)).1 (by decide),
    (getFunctionURL_eq sampleExt 2 siteIndex ⟨50⟩ fnDraw true (by decide)).2 rfl recWidget
      (by decide),
    (getFunctionURL_eq sampleExt 2 siteIndex ⟨50⟩ fnDraw false (by decide)).2 rfl recWidget
      (by decide)⟩

/-! ## Freestanding-group URLs -/

theorem intercalate_go_append (x s : String) (l : List String) :
    ∀ acc, String.intercalate.go (x ++ acc) s l = x ++ String.intercalate.go acc s l := by
  induction l with
  | nil => intro acc; rfl
  | cons a l ih =>
    intro acc
    simp only [String.intercalate.go]
    rw [← ih]
    simp [String.append_assoc]

theorem intercalate_cons_cons (s a b : String) (l : List String) :
    s.intercalate (a :: b :: l) = a ++ s ++ s.intercalate (b :: l) := by
  simp only [String.intercalate, String.intercalate.go]
  rw [String.append_assoc, intercalate_go_append, intercalate_go_append, String.append_assoc]

/-- The `for` loop of `getNamespaceString` joins the names with single underscores. -/
theorem joinNamesLoop_eq (rest : List String) :
    ∀ (i : Nat) (ret : String),
      joinNamesLoop (i + rest.length) i rest ret = ret ++ "_".intercalate rest := by
  induction rest with
  | nil => intro i ret; simp [joinNamesLoop, String.intercalate]
  | cons a rest ih =>
    intro i ret
    cases rest with
    | nil =>
      simp [joinNamesLoop, String.intercalate, String.intercalate.go]
    | cons b rest =>
      rw [joinNamesLoop]
      have hne : i ≠ i + (a :: b :: rest).length - 1 := by simp
      rw [if_pos hne]
      have hlen : i + (a :: b :: rest).length = (i + 1) + (b :: rest).length := by
        simp only [List.length_cons]; omega
      rw [hlen, ih (i + 1), intercalate_cons_cons]
      simp [String.append_assoc]

theorem getNamespaceString_of_chain (index : Index) (n : SymbolID) (names : List String)
    (fuel : Nat) (hchain : NamespaceChain index n names) (hfuel : names.length ≤ fuel) :
    getNamespaceString fuel index n = Result.ok ("_".intercalate names.reverse) := by
  unfold getNamespaceString
  rw [namespaceLoop_of_chain index names n [] fuel hchain hfuel]
  simp only [List.nil_append, Result.map]
  have := joinNamesLoop_eq names.reverse 0 ""
  simp only [Nat.zero_add, String.empty_append] at this
  rw [this]

theorem getFunctionGroupURL_of_chain (index : Index) (g : FreestandingFunctionID)
    (rootFirst : List String) (fuel : Nat) (relative : Bool)
    (hchain : NamespaceChain index g.parentNamespaceID rootFirst.reverse)
    (hfuel : rootFirst.length ≤ fuel) :
    getFunctionGroupURL fuel index g relative =
      Result.ok ((if relative then "../functions/" else "functions/") ++
        "_".intercalate rootFirst ++ "-" ++ g.name ++ ".html") := by
  have hns := getNamespaceString_of_chain index g.parentNamespaceID rootFirst.reverse fuel hchain
    (by simpa using hfuel)
  rw [List.reverse_reverse] at hns
  cases relative <;> simp [getFunctionGroupURL, hns, Result.map]

/-- C11: for a group ID `(parentNamespaceID, name)` whose enclosing namespaces, listed
root-first, are named `n1..nk` (every link of the chain in `index.namespaces`, the chain
ending at the zero ID), `getFunctionGroupURL(id, false)` is
`"functions/" + n1 + "_" + ... + "_" + nk + "-" + name + ".html"`, the names being joined by
single underscores (`"functions/" + "-" + name + ".html"` when no namespace encloses it),
and `getFunctionGroupURL(id, true)` is that string after `"../"`. -/
theorem getFunctionGroupURL_eq (index : Index) (g : FreestandingFunctionID)
    (rootFirst : List String) (fuel : Nat)
    (hchain : NamespaceChain index g.parentNamespaceID rootFirst.reverse)
    (hfuel : rootFirst.length ≤ fuel) :
    getFunctionGroupURL fuel index g false =
        Result.ok ("functions/" ++ "_".intercalate rootFirst ++ "-" ++ g.name ++ ".html") ∧
      getFunctionGroupURL fuel index g true =
        Result.ok ("../" ++
          ("functions/" ++ "_".intercalate rootFirst ++ "-" ++ g.name ++ ".html")) ∧
      (rootFirst = [] →
        getFunctionGroupURL fuel index g false = Result.ok ("functions/-" ++ g.name ++ ".html")) := by
  have hns := getNamespaceString_of_chain index g.parentNamespaceID rootFirst.reverse fuel hchain
    (by simpa using hfuel)
  rw [List.reverse_reverse] at hns
  have hfalse : getFunctionGroupURL fuel index g false =
      Result.ok ("functions/" ++ "_".intercalate rootFirst ++ "-" ++ g.name ++ ".html") := by
    simp [getFunctionGroupURL, hns, Result.map]
  refine ⟨hfalse, ?_, ?_⟩
  · have h : ("../functions/" : String) = "../" ++ "functions/" := by decide
    simp only [getFunctionGroupURL, hns, Result.map, if_true, String.append_assoc]
    rw [h, String.append_assoc]
  · intro hnil
    rw [hfalse, hnil]
    have h : ("functions/-" : String) = "functions/" ++ "-" := by decide
    have e : "_".intercalate [] = "" := rfl
    rw [h, e, String.append_empty]

/-- C11 on the sample index: the group `make` of the namespace `outer::inner`, and a group
`main` outside every namespace. -/
theorem getFunctionGroupURL_eq_witness :
    NamespaceChain siteIndex ⟨11⟩ ["inner", "outer"] ∧
      getFunctionGroupURL 2 siteIndex ⟨⟨11⟩, "make"⟩ false =
        Result.ok "functions/outer_inner-make.html" ∧
      getFunctionGroupURL 2 siteIndex ⟨⟨11⟩, "make"⟩ true =
        Result.ok "../functions/outer_inner-make.html" ∧
      getFunctionGroupURL 0 siteIndex ⟨⟨0⟩, "main"⟩ false = Result.ok "functions/-main.html" :=
  have hchain : NamespaceChain siteIndex ⟨11⟩ ["inner", "outer"] :=
    ⟨by decide, nsInner, by decide, rfl, by decide, nsOuter, by decide, rfl, rfl⟩
  have h := getFunctionGroupURL_eq siteIndex ⟨⟨11⟩, "make"⟩ ["outer", "inner"] 2 hchain (by decide)
  ⟨hchain, h.1, h.2.1,
    (getFunctionGroupURL_eq siteIndex ⟨⟨0⟩, "main"⟩ [] 0 rfl (by decide)).2.2 rfl⟩

theorem split_unique {α : Type} (c : α) :
    ∀ (x₁ x₂ z₁ z₂ : List α), c ∉ x₁ → c ∉ x₂ → x₁ ++ c :: z₁ = x₂ ++ c :: z₂ →
      x₁ = x₂ ∧ z₁ = z₂ := by
  intro x₁
  induction x₁ with
  | nil =>
    intro x₂ z₁ z₂ _ h₂ h
    cases x₂ with
    | nil => simpa using h
    | cons a x₂ =>
      simp only [List.nil_append, List.cons_append, List.cons.injEq] at h
      exact absurd (h.1 ▸ List.mem_cons_self _ _) h₂
  | cons a x₁ ih =>
    intro x₂ z₁ z₂ h₁ h₂ h
    cases x₂ with
    | nil =>
      simp only [List.nil_append, List.cons_append, List.cons.injEq] at h
      exact absurd (h.1 ▸ List.mem_cons_self _ _) h₁
    | cons b x₂ =>
      simp only [List.cons_append, List.cons.injEq] at h
      obtain ⟨hx, hz⟩ := ih x₂ z₁ z₂ (fun hm => h₁ (List.mem_cons_of_mem _ hm))
        (fun hm => h₂ (List.mem_cons_of_mem _ hm)) h.2
      exact ⟨by rw [h.1, hx], hz⟩

theorem intercalate_data_cons_cons (a b : String) (l : List String) :
    ("_".intercalate (a :: b :: l)).data = a.data ++ '_' :: ("_".intercalate (b :: l)).data := by
  rw [intercalate_cons_cons]
  simp [String.data_append]

theorem intercalate_singleton (s a : String) : s.intercalate [a] = a := rfl

theorem not_mem_intercalate (c : Char) (hc : c ≠ '_') (l : List String)
    (h : ∀ n ∈ l, c ∉ n.data) : c ∉ ("_".intercalate l).data := by
  induction l with
  | nil => simp [String.intercalate]
  | cons a l ih =>
    cases l with
    | nil => simpa [intercalate_singleton] using h a (List.mem_cons_self _ _)
    | cons b l =>
      rw [intercalate_data_cons_cons]
      simp only [List.mem_append, List.mem_cons, not_or]
      exact ⟨h a (List.mem_cons_self _ _), hc,
        ih fun n hn => h n (List.mem_cons_of_mem _ hn)⟩

/-- Names that are not empty and have no underscore can be read back from their join. -/
theorem intercalate_injective :
    ∀ (l₁ l₂ : List String), (∀ n ∈ l₁, n ≠ "" ∧ '_' ∉ n.data) →
      (∀ n ∈ l₂, n ≠ "" ∧ '_' ∉ n.data) → "_".intercalate l₁ = "_".intercalate l₂ → l₁ = l₂ := by
  have hne : ∀ (a : String) (l : List String), a ≠ "" → ("_".intercalate (a :: l)).data ≠ [] := by
    intro a l ha
    cases l with
    | nil =>
      intro h
      apply ha
      cases a
      simp [intercalate_singleton] at h
      simp [h]
    | cons b l =>
      rw [intercalate_data_cons_cons]
      simp
  intro l₁
  induction l₁ with
  | nil =>
    intro l₂ _ h₂ h
    cases l₂ with
    | nil => rfl
    | cons b l₂ =>
      exfalso
      apply hne b l₂ (h₂ b (List.mem_cons_self _ _)).1
      rw [← h]
      rfl
  | cons a l₁ ih =>
    intro l₂ h₁ h₂ h
    cases l₂ with
    | nil =>
      exfalso
      apply hne a l₁ (h₁ a (List.mem_cons_self _ _)).1
      rw [h]
      rfl
    | cons b l₂ =>
      have ha := (h₁ a (List.mem_cons_self _ _)).2
      have hb := (h₂ b (List.mem_cons_self _ _)).2
      have hd := congrArg String.data h
      cases l₁ with
      | nil =>
        cases l₂ with
        | nil =>
          simp only [intercalate_singleton] at h
          rw [h]
        | cons b' l₂ =>
          rw [intercalate_data_cons_cons] at hd
          simp only [intercalate_singleton] at hd
          exfalso
          apply ha
          rw [hd]
          simp
      | cons a' l₁ =>
        cases l₂ with
        | nil =>
          rw [intercalate_data_cons_cons] at hd
          simp only [intercalate_singleton] at hd
          exfalso
          apply hb
          rw [← hd]
          simp
        | cons b' l₂ =>
          rw [intercalate_data_cons_cons, intercalate_data_cons_cons] at hd
          obtain ⟨hab, hrest⟩ := split_unique '_' _ _ _ _ ha hb hd
          have hab' : a = b := String.ext hab
          have hrest' : "_".intercalate (a' :: l₁) = "_".intercalate (b' :: l₂) :=
            String.ext hrest
          rw [hab', ih (b' :: l₂) (fun n hn => h₁ n (List.mem_cons_of_mem _ hn))
            (fun n hn => h₂ n (List.mem_cons_of_mem _ hn)) hrest']

/-- The page name `{joined namespaces}-{name}.html` determines the joined namespaces when
no namespace name has a hyphen. -/
theorem groupPage_injective (pre : String) (l₁ l₂ : List String) (n₁ n₂ : String)
    (h₁ : ∀ n ∈ l₁, '-' ∉ n.data) (h₂ : ∀ n ∈ l₂, '-' ∉ n.data)
    (h : pre ++ "_".intercalate l₁ ++ "-" ++ n₁ ++ ".html" =
      pre ++ "_".intercalate l₂ ++ "-" ++ n₂ ++ ".html") :
    "_".intercalate l₁ = "_".intercalate l₂ := by
  have hd := congrArg String.data h
  simp only [String.data_append, List.append_assoc] at hd
  have hd' := List.append_cancel_left hd
  simp only [List.singleton_append] at hd'
  exact String.ext (split_unique '-' _ _ _ _ (not_mem_intercalate '-' (by decide) l₁ h₁)
    (not_mem_intercalate '-' (by decide) l₂ h₂) hd').1

/-- C12, as amended: two group IDs with the same chain of namespace names and the same group
name get the same URL; two group IDs whose root-first chains of namespace names differ get
different URLs provided every namespace name of both chains is non-empty and has neither an
underscore nor a hyphen. -/
theorem getFunctionGroupURL_collisions (index : Index) (g₁ g₂ : FreestandingFunctionID)
    (r₁ r₂ : List String) (fuel : Nat) (relative : Bool)
    (hc₁ : NamespaceChain index g₁.parentNamespaceID r₁.reverse)
    (hc₂ : NamespaceChain index g₂.parentNamespaceID r₂.reverse)
    (hf₁ : r₁.length ≤ fuel) (hf₂ : r₂.length ≤ fuel) :
    (r₁ = r₂ → g₁.name = g₂.name →
      getFunctionGroupURL fuel index g₁ relative = getFunctionGroupURL fuel index g₂ relative) ∧
    ((∀ n ∈ r₁ ++ r₂, n ≠ "" ∧ '_' ∉ n.data ∧ '-' ∉ n.data) → r₁ ≠ r₂ →
      getFunctionGroupURL fuel index g₁ relative ≠ getFunctionGroupURL fuel index g₂ relative) := by
  rw [getFunctionGroupURL_of_chain index g₁ r₁ fuel relative hc₁ hf₁,
    getFunctionGroupURL_of_chain index g₂ r₂ fuel relative hc₂ hf₂]
  refine ⟨fun hr hn => by rw [hr, hn], fun hnames hne heq => hne ?_⟩
  have hurl := Result.ok.inj heq
  have hj := groupPage_injective _ r₁ r₂ g₁.name g₂.name
    (fun n hn => (hnames n (List.mem_append_left _ hn)).2.2)
    (fun n hn => (hnames n (List.mem_append_right _ hn)).2.2) hurl
  exact intercalate_injective r₁ r₂
    (fun n hn => ⟨(hnames n (List.mem_append_left _ hn)).1,
      (hnames n (List.mem_append_left _ hn)).2.1⟩)
    (fun n hn => ⟨(hnames n (List.mem_append_right _ hn)).1,
      (hnames n (List.mem_append_right _ hn)).2.1⟩) hj

/-- C12 fails as stated: the group `f` of the root namespace `a_b` and the group `f` of the
namespace `a::b` have different chains of namespace names and the same URL; so have the
group `f` of a namespace without a name and the group `f` outside every namespace, and the
group `z` of a namespace `x-y` and the group `y-z` of the namespace `x`. -/
theorem getFunctionGroupURL_collisions_counterexample :
    (NamespaceChain clashIndex ⟨1⟩ ["a_b"] ∧ NamespaceChain clashIndex ⟨3⟩ ["b", "a"] ∧
      getFunctionGroupURL 2 clashIndex ⟨⟨1⟩, "f"⟩ false = Result.ok "functions/a_b-f.html" ∧
      getFunctionGroupURL 2 clashIndex ⟨⟨3⟩, "f"⟩ false = Result.ok "functions/a_b-f.html") ∧
    (NamespaceChain clashIndex ⟨4⟩ [""] ∧ NamespaceChain clashIndex ⟨0⟩ [] ∧
      getFunctionGroupURL 2 clashIndex ⟨⟨4⟩, "f"⟩ false =
        getFunctionGroupURL 2 clashIndex ⟨⟨0⟩, "f"⟩ false) ∧
    (NamespaceChain clashIndex ⟨5⟩ ["x-y"] ∧ NamespaceChain clashIndex ⟨6⟩ ["x"] ∧
      getFunctionGroupURL 2 clashIndex ⟨⟨5⟩, "z"⟩ false =
        getFunctionGroupURL 2 clashIndex ⟨⟨6⟩, "y-z"⟩ false) := by
  refine ⟨⟨by decide, by decide, by decide, by decide⟩, ⟨by decide, by decide, by decide⟩,
    ⟨by decide, by decide, by decide⟩⟩

/-- C12 (amended) on the sample index: the groups `make` of `outer::inner` and `make` of
`outer` have different URLs. -/
theorem getFunctionGroupURL_collisions_witness :
    getFunctionGroupURL 2 siteIndex ⟨⟨11⟩, "make"⟩ true ≠
      getFunctionGroupURL 2 siteIndex ⟨⟨10⟩, "make"⟩ true :=
  (getFunctionGroupURL_collisions siteIndex ⟨⟨11⟩, "make"⟩ ⟨⟨10⟩, "make"⟩ ["outer", "inner"]
    ["outer"] 2 true
    (by decide) (by decide) (by decide) (by decide)).2 (by decide) (by decide)

/-! ## Ordering of overview lists -/

theorem groupAt_of_mem_keys (index : Index) (a : FreestandingFunctionID)
    (h : a ∈ functionGroupKeys index) : ∃ fa, index.groupAt a = some fa := by
  unfold functionGroupKeys at h
  unfold Index.groupAt
  generalize index.freestandingFunctions = l at h
  induction l with
  | nil => simp at h
  | cons kv l ih =>
    obtain ⟨k, v⟩ := kv
    by_cases hk : a = k
    · subst hk
      exact ⟨v, by simp [List.lookup]⟩
    · have hne : (a == k) = false := by simpa using hk
      simp only [List.map_cons, List.mem_cons, hk, false_or] at h
      obtain ⟨fa, hfa⟩ := ih h
      exact ⟨fa, by simp [List.lookup, hne, hfa]⟩

theorem functionGroupLess_eq (index : Index) (a b : FreestandingFunctionID)
    (fa fb : FreestandingFunction) (ha : index.groupAt a = some fa)
    (hb : index.groupAt b = some fb) :
    functionGroupLess index a b =
      if fa.isDetail ≠ fb.isDetail then fb.isDetail else decide (a.name < b.name) := by
  have h : stringLess a.name b.name = decide (a.name < b.name) :=
    decide_eq_decide.2 String.lt_iff_toList_lt.symm
  simp only [functionGroupLess, ha, hb, h]

/-- The comparator leaves two groups unordered exactly when they have the same detail flag
and the same name. -/
theorem functionGroupLess_incomparable (index : Index) (a b : FreestandingFunctionID)
    (fa fb : FreestandingFunction) (ha : index.groupAt a = some fa)
    (hb : index.groupAt b = some fb) :
    (functionGroupLess index a b = false ∧ functionGroupLess index b a = false) ↔
      (fa.isDetail = fb.isDetail ∧ a.name = b.name) := by
  rw [functionGroupLess_eq index a b fa fb ha hb, functionGroupLess_eq index b a fb fa hb ha]
  by_cases hd : fa.isDetail = fb.isDetail
  · rw [if_neg (not_not.2 hd), if_neg (not_not.2 hd.symm), decide_eq_false_iff_not,
      decide_eq_false_iff_not]
    constructor
    · rintro ⟨h₁, h₂⟩
      exact ⟨hd, le_antisymm (not_lt.1 h₂) (not_lt.1 h₁)⟩
    · rintro ⟨_, h⟩
      rw [h]
      exact ⟨lt_irrefl _, lt_irrefl _⟩
  · rw [if_pos hd, if_pos (Ne.symm hd)]
    constructor
    · rintro ⟨h₁, h₂⟩
      exact absurd (h₂.trans h₁.symm) hd
    · rintro ⟨h, _⟩
      exact absurd h hd

theorem functionGroupLess_asymm (index : Index) (a b : FreestandingFunctionID)
    (fa fb : FreestandingFunction) (ha : index.groupAt a = some fa)
    (hb : index.groupAt b = some fb) (h : functionGroupLess index a b = true) :
    functionGroupLess index b a = false := by
  rw [functionGroupLess_eq index a b fa fb ha hb] at h
  rw [functionGroupLess_eq index b a fb fa hb ha]
  by_cases hd : fa.isDetail = fb.isDetail
  · rw [if_neg (not_not.2 hd), decide_eq_true_iff] at h
    rw [if_neg (not_not.2 hd.symm), decide_eq_false_iff_not]
    exact lt_asymm h
  · rw [if_pos hd] at h
    rw [if_pos (Ne.symm hd)]
    cases hfa : fa.isDetail with
    | false => rfl
    | true => exact absurd (hfa.trans h.symm) hd

theorem functionGroupLess_trans (index : Index) (a b c : FreestandingFunctionID)
    (fa fb fc : FreestandingFunction) (ha : index.groupAt a = some fa)
    (hb : index.groupAt b = some fb) (hc : index.groupAt c = some fc)
    (hab : functionGroupLess index a b = true) (hbc : functionGroupLess index b c = true) :
    functionGroupLess index a c = true := by
  rw [functionGroupLess_eq index a b fa fb ha hb] at hab
  rw [functionGroupLess_eq index b c fb fc hb hc] at hbc
  rw [functionGroupLess_eq index a c fa fc ha hc]
  by_cases h₁ : fa.isDetail = fb.isDetail
  · rw [if_neg (not_not.2 h₁), decide_eq_true_iff] at hab
    by_cases h₂ : fb.isDetail = fc.isDetail
    · rw [if_neg (not_not.2 h₂), decide_eq_true_iff] at hbc
      rw [if_neg (not_not.2 (h₁.trans h₂)), decide_eq_true_iff]
      exact lt_trans hab hbc
    · rw [if_pos h₂] at hbc
      rw [if_pos (by rw [h₁]; exact h₂)]
      exact hbc
  · rw [if_pos h₁] at hab
    by_cases h₂ : fb.isDetail = fc.isDetail
    · rw [if_pos (by rw [← h₂]; exact h₁), ← h₂]
      exact hab
    · rw [if_pos h₂] at hbc
      have hfa : fa.isDetail = false := by
        cases hfa : fa.isDetail with
        | false => rfl
        | true => exact absurd (hfa.trans hab.symm) h₁
      rw [if_pos (by rw [hfa, hbc]; decide)]
      exact hbc

theorem functionGroupLess_strictWeak (index : Index) :
    StrictWeakOn (functionGroupLess index) (functionGroupKeys index) := by
  refine ⟨fun a ha => ?_, fun a ha b hb c hc hab hbc => ?_,
    fun a ha b hb c hc h₁ h₂ h₃ h₄ => ?_⟩
  · obtain ⟨fa, hfa⟩ := groupAt_of_mem_keys index a ha
    exact ((functionGroupLess_incomparable index a a fa fa hfa hfa).2 ⟨rfl, rfl⟩).1
  · obtain ⟨fa, hfa⟩ := groupAt_of_mem_keys index a ha
    obtain ⟨fb, hfb⟩ := groupAt_of_mem_keys index b hb
    obtain ⟨fc, hfc⟩ := groupAt_of_mem_keys index c hc
    exact functionGroupLess_trans index a b c fa fb fc hfa hfb hfc hab hbc
  · obtain ⟨fa, hfa⟩ := groupAt_of_mem_keys index a ha
    obtain ⟨fb, hfb⟩ := groupAt_of_mem_keys index b hb
    obtain ⟨fc, hfc⟩ := groupAt_of_mem_keys index c hc
    obtain ⟨hd₁, hn₁⟩ := (functionGroupLess_incomparable index a b fa fb hfa hfb).1 ⟨h₁, h₂⟩
    obtain ⟨hd₂, hn₂⟩ := (functionGroupLess_incomparable index b c fb fc hfb hfc).1 ⟨h₃, h₄⟩
    exact (functionGroupLess_incomparable index a c fa fc hfa hfc).2
      ⟨hd₁.trans hd₂, hn₁.trans hn₂⟩

/-- C13: whatever order `std::sort` leaves the vector in, the sequence of groups that
`printFunctions` lists is a permutation of the keys of `index.freestandingFunctions` in which
no group with `isDetail = true` comes before a group with `isDetail = false`, and of two
groups with the same `isDetail` flag the earlier one has the smaller or the same name. -/
theorem printFunctions_order (index : Index) (sorted : List FreestandingFunctionID)
    (h : StdSortOutcome (functionGroupLess index) (functionGroupKeys index) sorted) :
    sorted.Perm (functionGroupKeys index) ∧
      sorted.Pairwise fun a b =>
        ∀ fa fb, index.groupAt a = some fa → index.groupAt b = some fb →
          ¬ (fa.isDetail = true ∧ fb.isDetail = false) ∧
            (fa.isDetail = fb.isDetail → a.name ≤ b.name) := by
  refine ⟨h.1, h.2.imp ?_⟩
  intro a b hba fa fb hfa hfb
  rw [functionGroupLess_eq index b a fb fa hfb hfa] at hba
  by_cases hd : fb.isDetail = fa.isDetail
  · rw [if_neg (not_not.2 hd), decide_eq_false_iff_not] at hba
    refine ⟨?_, fun _ => not_lt.1 hba⟩
    rintro ⟨h₁, h₂⟩
    rw [h₁, h₂] at hd
    cases hd
  · rw [if_pos hd] at hba
    refine ⟨?_, fun h' => absurd h'.symm hd⟩
    rintro ⟨h₁, _⟩
    rw [h₁] at hba
    cases hba

/-- C13 on a sample: the groups `zeta`, `impl` (detail), `alpha` and `Beta` are listed as
`Beta`, `alpha`, `zeta`, `impl`. -/
theorem printFunctions_order_witness :
    StdSortOutcome (functionGroupLess groupIndex) (functionGroupKeys groupIndex)
        [⟨⟨10⟩, "Beta"⟩, ⟨⟨11⟩, "alpha"⟩, ⟨⟨11⟩, "zeta"⟩, ⟨⟨10⟩, "impl"⟩] ∧
      List.Perm [⟨⟨10⟩, "Beta"⟩, ⟨⟨11⟩, "alpha"⟩, ⟨⟨11⟩, "zeta"⟩, ⟨⟨10⟩, "impl"⟩]
        (functionGroupKeys groupIndex) :=
  ⟨by decide, (printFunctions_order groupIndex _ (by decide)).1⟩

/-- C14, as amended: the comparator of the function-group list is a strict weak ordering on
the listed groups, not a total order: it never places each of two groups before the other,
and it places neither before the other exactly when they have the same detail flag and the
same name; exactly one of two listed groups is placed strictly before the other in every
other case. -/
theorem functionGroupLess_order (index : Index) :
    StrictWeakOn (functionGroupLess index) (functionGroupKeys index) ∧
      ∀ a ∈ functionGroupKeys index, ∀ b ∈ functionGroupKeys index,
        ∀ fa fb, index.groupAt a = some fa → index.groupAt b = some fb →
          ¬ (functionGroupLess index a b = true ∧ functionGroupLess index b a = true) ∧
          ((functionGroupLess index a b = false ∧ functionGroupLess index b a = false) ↔
            (fa.isDetail = fb.isDetail ∧ a.name = b.name)) := by
  refine ⟨functionGroupLess_strictWeak index, fun a _ b _ fa fb hfa hfb => ⟨?_, ?_⟩⟩
  · rintro ⟨h₁, h₂⟩
    rw [functionGroupLess_asymm index a b fa fb hfa hfb h₁] at h₂
    cases h₂
  · exact functionGroupLess_incomparable index a b fa fb hfa hfb

/-- C14 fails as stated: the groups `f` of two namespaces are distinct entries of the list,
the comparator places neither before the other, and both orders of the two are outcomes
that `std::sort` may leave. -/
theorem functionGroupLess_order_counterexample :
    (⟨⟨10⟩, "f"⟩ : FreestandingFunctionID) ≠ ⟨⟨11⟩, "f"⟩ ∧
      functionGroupKeys tieIndex = [⟨⟨10⟩, "f"⟩, ⟨⟨11⟩, "f"⟩] ∧
      functionGroupLess tieIndex ⟨⟨10⟩, "f"⟩ ⟨⟨11⟩, "f"⟩ = false ∧
      functionGroupLess tieIndex ⟨⟨11⟩, "f"⟩ ⟨⟨10⟩, "f"⟩ = false ∧
      StdSortOutcome (functionGroupLess tieIndex) (functionGroupKeys tieIndex)
        [⟨⟨10⟩, "f"⟩, ⟨⟨11⟩, "f"⟩] ∧
      StdSortOutcome (functionGroupLess tieIndex) (functionGroupKeys tieIndex)
        [⟨⟨11⟩, "f"⟩, ⟨⟨10⟩, "f"⟩] := by
  refine ⟨by decide, by decide, by decide, by decide, by decide, by decide⟩

/-- C14 (amended) on a sample: `Beta` is placed before `alpha` and not the other way
round. -/
theorem functionGroupLess_order_witness :
    functionGroupLess groupIndex ⟨⟨10⟩, "Beta"⟩ ⟨⟨11⟩, "alpha"⟩ = true ∧
      ¬ (functionGroupLess groupIndex ⟨⟨10⟩, "Beta"⟩ ⟨⟨11⟩, "alpha"⟩ = true ∧
        functionGroupLess groupIndex ⟨⟨11⟩, "alpha"⟩ ⟨⟨10⟩, "Beta"⟩ = true) :=
  ⟨by decide,
    ((functionGroupLess_order groupIndex).2 ⟨⟨10⟩, "Beta"⟩ (by decide) ⟨⟨11⟩, "alpha"⟩
      (by decide) {} {} (by decide) (by decide)).1⟩

theorem memberVariableLess_false_iff (a b : MemberVariable) :
    memberVariableLess b a = false ↔ a.access.value ≤ b.access.value := by
  simp [memberVariableLess]

theorem AccessSpecifier.value_injective (x y : AccessSpecifier) (h : x.value = y.value) :
    x = y := by
  cases x <;> cases y <;> first | rfl | (simp [AccessSpecifier.value] at h)

/-- C15: the vector that `printMemberVariables` visits is a permutation of `c.vars`, sorted by
access specifier in the order public < protected < private < none, and the variables of any
one access specifier are in the order they have in `c.vars` (the sort is stable). -/
theorem sortedVars_stable (c : RecordSymbol) :
    (sortedVars c).Perm c.vars ∧
      (sortedVars c).Pairwise (fun a b => a.access.value ≤ b.access.value) ∧
      (AccessSpecifier.AS_public.value < AccessSpecifier.AS_protected.value ∧
        AccessSpecifier.AS_protected.value < AccessSpecifier.AS_private.value ∧
        AccessSpecifier.AS_private.value < AccessSpecifier.AS_none.value) ∧
      ∀ x : AccessSpecifier,
        (sortedVars c).filter (fun v => decide (v.access = x)) =
          c.vars.filter (fun v => decide (v.access = x)) := by
  have hperm : (sortedVars c).Perm c.vars := List.perm_insertionSort _ _
  refine ⟨hperm, ?_, by decide, fun x => ?_⟩
  · haveI : IsTotal MemberVariable (fun a b => memberVariableLess b a = false) :=
      ⟨fun a b => by
        rw [memberVariableLess_false_iff, memberVariableLess_false_iff]
        exact le_total _ _⟩
    haveI : IsTrans MemberVariable (fun a b => memberVariableLess b a = false) :=
      ⟨fun a b d hab hbd => by
        rw [memberVariableLess_false_iff] at hab hbd ⊢
        exact le_trans hab hbd⟩
    have hs : (sortedVars c).Pairwise (fun a b => memberVariableLess b a = false) :=
      List.sorted_insertionSort _ c.vars
    exact hs.imp fun {a b} h => (memberVariableLess_false_iff a b).1 h
  · have hpw : (c.vars.filter (fun v => decide (v.access = x))).Pairwise
        (fun a b => memberVariableLess b a = false) := by
      rw [List.pairwise_iff_forall_sublist]
      intro a b hab
      have ha := List.of_mem_filter (hab.subset (List.mem_cons_self _ _))
      have hb := List.of_mem_filter (hab.subset (List.mem_cons_of_mem _ (List.mem_singleton_self _)))
      simp only [decide_eq_true_eq] at ha hb
      rw [memberVariableLess_false_iff, ha, hb]
    have hsub : (c.vars.filter (fun v => decide (v.access = x))).Sublist (sortedVars c) :=
      List.sublist_insertionSort hpw (List.filter_sublist _)
    have hsub' := hsub.filter (fun v => decide (v.access = x))
    rw [List.filter_filter] at hsub'
    simp only [Bool.and_self] at hsub'
    have hlen := (hperm.filter (fun v => decide (v.access = x))).length_eq
    exact (hsub'.eq_of_length hlen.symm).symm

/-- The vector `sortedVars` on a sample record. -/
theorem sortedVars_sample :
    sortedVars { vars :=
        [ { name := "d", access := AccessSpecifier.AS_private },
          { name := "a", access := AccessSpecifier.AS_public },
          { name := "p", access := AccessSpecifier.AS_protected },
          { name := "e", access := AccessSpecifier.AS_private },
          { name := "b", access := AccessSpecifier.AS_public } ] } =
      [ { name := "a", access := AccessSpecifier.AS_public },
        { name := "b", access := AccessSpecifier.AS_public },
        { name := "p", access := AccessSpecifier.AS_protected },
        { name := "d", access := AccessSpecifier.AS_private },
        { name := "e", access := AccessSpecifier.AS_private } ] := by
  decide

/-! ## Strings -/

theorem utf8_mk_cons (c : Char) (cs : List Char) :
    utf8 ⟨c :: cs⟩ = utf8Char c ++ utf8 ⟨cs⟩ := by
  simp [utf8]

theorem utf8Char_ne_nil (c : Char) : utf8Char c ≠ [] := by
  unfold utf8Char
  split_ifs <;> simp

theorem utf8Char_length (c : Char) : (utf8Char c).length = utf8Len c := by
  unfold utf8Char utf8Len
  split_ifs <;> rfl

theorem utf8_eq_nil (s : String) : utf8 s = [] ↔ s = "" := by
  obtain ⟨cs⟩ := s
  cases cs with
  | nil => simp [utf8]
  | cons c cs =>
    rw [utf8_mk_cons]
    constructor
    · intro h
      exact absurd (List.append_eq_nil.1 h).1 (utf8Char_ne_nil c)
    · intro h
      simp [String.ext_iff] at h

/-- The byte `$` is in the encoding of the char `$` only, of which it is all. -/
theorem utf8Char_dollar (c : Char) :
    (c = '$' → utf8Char c = [36]) ∧ (c ≠ '$' → ∀ b ∈ utf8Char c, b ≠ 36) := by
  constructor
  · rintro rfl
    rfl
  · intro hc b hb hb36
    subst hb36
    unfold utf8Char at hb
    split_ifs at hb with h₁ h₂ h₃
    · simp only [List.mem_singleton] at hb
      apply hc
      rw [← Char.ofNat_toNat c, ← hb]
    · simp only [List.mem_cons, List.mem_singleton, List.not_mem_nil, or_false] at hb
      omega
    · simp only [List.mem_cons, List.mem_singleton, List.not_mem_nil, or_false] at hb
      omega
    · simp only [List.mem_cons, List.mem_singleton, List.not_mem_nil, or_false] at hb
      omega

theorem hasSubstring_dd_cons_ne (c : Char) (l : List Char) (hc : c ≠ '$') :
    hasSubstring ['$', '$'] (c :: l) = hasSubstring ['$', '$'] l := by
  have : ('$' == c) = false := by simpa using Ne.symm hc
  simp [hasSubstring, List.isPrefixOf, this]

theorem hasSubstring_bb_cons_ne (b : Nat) (l : List Nat) (hb : b ≠ 36) :
    hasSubstring [36, 36] (b :: l) = hasSubstring [36, 36] l := by
  have : (36 == b) = false := by simpa using Ne.symm hb
  simp [hasSubstring, List.isPrefixOf, this]

theorem hasSubstring_bb_append_ne (block l : List Nat) (h : ∀ b ∈ block, b ≠ 36) :
    hasSubstring [36, 36] (block ++ l) = hasSubstring [36, 36] l := by
  induction block with
  | nil => rfl
  | cons b block ih =>
    rw [List.cons_append, hasSubstring_bb_cons_ne _ _ (h b (List.mem_cons_self _ _)),
      ih fun x hx => h x (List.mem_cons_of_mem _ hx)]

theorem hasSubstring_bb_append_dots (l : List Nat) :
    hasSubstring [36, 36] (l ++ [46, 46, 46]) = hasSubstring [36, 36] l := by
  induction l with
  | nil => decide
  | cons c l ih =>
    simp only [List.cons_append, hasSubstring, ih]
    congr 1
    cases l with
    | nil => simp [List.isPrefixOf]
    | cons d l => simp [List.isPrefixOf]

/-- Whether the bytes of a text start with the byte `$`. -/
theorem isPrefixOf_dollar_utf8 (cs : List Char) :
    List.isPrefixOf [36] (utf8 ⟨cs⟩) = List.isPrefixOf ['$'] cs := by
  cases cs with
  | nil => rfl
  | cons d cs =>
    rw [utf8_mk_cons]
    by_cases hd : d = '$'
    · subst hd
      rw [(utf8Char_dollar '$').1 rfl]
      simp [List.isPrefixOf]
    · have hne := (utf8Char_dollar d).2 hd
      have hd' : ('$' == d) = false := by simpa using Ne.symm hd
      cases hu : utf8Char d with
      | nil => exact absurd hu (utf8Char_ne_nil d)
      | cons b bs =>
        have hb : (36 == b) = false := by
          have := hne b (by rw [hu]; exact List.mem_cons_self _ _)
          simpa using Ne.symm this
        simp [List.isPrefixOf, hb, hd']

/-- The bytes of a text have the two bytes of `"$$"` where the text has its two chars. -/
theorem hasSubstring_utf8_dd (t : String) :
    hasSubstring (utf8 "$$") (utf8 t) = stringFinds t "$$" := by
  obtain ⟨cs⟩ := t
  have e : utf8 "$$" = [36, 36] := rfl
  have dd : ("$$" : String).data = ['$', '$'] := rfl
  rw [e, stringFinds, dd]
  induction cs with
  | nil => rfl
  | cons c cs ih =>
    simp only at ih ⊢
    rw [utf8_mk_cons]
    by_cases hc : c = '$'
    · subst hc
      rw [(utf8Char_dollar '$').1 rfl]
      simp only [List.singleton_append, hasSubstring, ih]
      congr 1
      have := isPrefixOf_dollar_utf8 cs
      simpa [List.isPrefixOf] using this
    · rw [hasSubstring_bb_append_ne _ _ ((utf8Char_dollar c).2 hc), hasSubstring_dd_cons_ne _ _ hc,
        ih]

/-- The separator and the dots bring no `"$$"` into a blurb. -/
theorem hasSubstring_blurb (x : List Nat) :
    hasSubstring (utf8 "$$") (utf8 " - " ++ x) = hasSubstring (utf8 "$$") x ∧
      hasSubstring (utf8 "$$") (utf8 " - " ++ x ++ utf8 "...") = hasSubstring (utf8 "$$") x := by
  have e : utf8 "$$" = [36, 36] := rfl
  have e₁ : utf8 " - " = [32, 45, 32] := rfl
  have e₂ : utf8 "..." = [46, 46, 46] := rfl
  rw [e, e₁, e₂]
  constructor
  · exact hasSubstring_bb_append_ne _ _ (by decide)
  · rw [List.append_assoc, hasSubstring_bb_append_ne _ _ (by decide),
      hasSubstring_bb_append_dots]

theorem blurb_ne_empty (x : List Nat) :
    utf8 " - " ++ x ≠ [] ∧ utf8 " - " ++ x ++ utf8 "..." ≠ [] := by
  have e₁ : utf8 " - " = [32, 45, 32] := rfl
  rw [e₁]
  constructor <;> simp

theorem utf8Len_eq_utf8Size (c : Char) : utf8Len c = c.utf8Size := by
  have h₁ : c.val ≤ UInt32.ofNatCore 127 (by decide) ↔ c.toNat ≤ 127 := by
    rw [UInt32.le_def, BitVec.le_def]
    rfl
  have h₂ : c.val ≤ UInt32.ofNatCore 2047 (by decide) ↔ c.toNat ≤ 2047 := by
    rw [UInt32.le_def, BitVec.le_def]
    rfl
  have h₃ : c.val ≤ UInt32.ofNatCore 65535 (by decide) ↔ c.toNat ≤ 65535 := by
    rw [UInt32.le_def, BitVec.le_def]
    rfl
  unfold utf8Len Char.utf8Size
  simp only [h₁, h₂, h₃]
  split_ifs <;> first | rfl | omega

/-- The number of bytes of a string is what `String.utf8ByteSize` counts. -/
theorem size_eq_utf8ByteSize (s : String) : size s = s.utf8ByteSize := by
  obtain ⟨cs⟩ := s
  induction cs with
  | nil => rfl
  | cons c cs ih =>
    simp only [size, utf8_mk_cons, List.length_append, utf8Char_length] at ih ⊢
    rw [ih, utf8Len_eq_utf8Size]
    simp [String.utf8ByteSize, String.utf8ByteSize.go, Nat.add_comm]

theorem utf8_samples :
    utf8 "Az" = [0x41, 0x7A] ∧ utf8 "é" = [0xC3, 0xA9] ∧ utf8 "€" = [0xE2, 0x82, 0xAC] ∧
      utf8 "😀" = [0xF0, 0x9F, 0x98, 0x80] ∧
      ("é€😀".data.flatMap String.utf8EncodeChar).map UInt8.toNat = utf8 "é€😀" := by
  decide

theorem atCharFrom_le : ∀ (cs : List Char) (i k : Nat), atCharFrom i cs k = true → i ≤ k := by
  intro cs
  induction cs with
  | nil => intro i k h; simpa [atCharFrom] using h
  | cons c cs ih =>
    intro i k h
    simp only [atCharFrom, Bool.or_eq_true, decide_eq_true_eq] at h
    rcases h with h | h
    · omega
    · have := ih _ _ h
      omega

theorem utf8Len_pos (c : Char) : 0 < utf8Len c := by
  unfold utf8Len
  split_ifs <;> decide

theorem size_mk_cons (c : Char) (cs : List Char) :
    size ⟨c :: cs⟩ = utf8Len c + size ⟨cs⟩ := by
  simp [size, utf8_mk_cons, utf8Char_length]

/-- The chars with a byte in a range of bytes that cuts through no char have the bytes of the
range. -/
theorem charsWithin_bytes (pos stop : Nat) : ∀ (cs : List Char) (i : Nat),
    (pos ≤ i ∨ atCharFrom i cs pos = true) → (stop ≤ i ∨ atCharFrom i cs stop = true) →
    utf8 ⟨charsWithin pos stop i cs⟩ =
      ((utf8 ⟨cs⟩).drop (pos - i)).take (stop - max pos i) := by
  intro cs
  induction cs with
  | nil => intro i _ _; simp [charsWithin, utf8]
  | cons c cs ih =>
    intro i hpos hstop
    have hL := utf8Len_pos c
    have hlen := utf8Char_length c
    have hstop' : stop ≤ i + utf8Len c ∨ atCharFrom (i + utf8Len c) cs stop = true := by
      rcases hstop with h | h
      · exact Or.inl (by omega)
      · simp only [atCharFrom, Bool.or_eq_true, decide_eq_true_eq] at h
        rcases h with h | h
        · exact Or.inl (by omega)
        · exact Or.inr h
    rw [utf8_mk_cons]
    by_cases hp : pos ≤ i
    · have ih' := ih (i + utf8Len c) (Or.inl (by omega)) hstop'
      rw [show pos - (i + utf8Len c) = 0 by omega,
        show max pos (i + utf8Len c) = i + utf8Len c by omega, List.drop_zero] at ih'
      rw [show pos - i = 0 by omega, show max pos i = i by omega, List.drop_zero]
      by_cases hs : i + utf8Len c ≤ stop
      · have e₁ : (utf8Char c).take (stop - i) = utf8Char c :=
          List.take_of_length_le (by omega)
        rw [charsWithin, if_pos (by omega), utf8_mk_cons, ih', List.take_append_eq_append_take, e₁,
          hlen, show stop - (i + utf8Len c) = stop - i - utf8Len c by omega]
      · have hsi : stop ≤ i := by
          rcases hstop with h | h
          · exact h
          · simp only [atCharFrom, Bool.or_eq_true, decide_eq_true_eq] at h
            rcases h with h | h
            · omega
            · have := atCharFrom_le _ _ _ h
              omega
        rw [charsWithin, if_neg (by omega), ih', show stop - (i + utf8Len c) = 0 by omega,
          show stop - i = 0 by omega]
        rfl
    · have hpos' : atCharFrom (i + utf8Len c) cs pos = true := by
        rcases hpos with h | h
        · exact absurd h hp
        · simp only [atCharFrom, Bool.or_eq_true, decide_eq_true_eq] at h
          rcases h with h | h
          · omega
          · exact h
      have hge := atCharFrom_le _ _ _ hpos'
      have ih' := ih (i + utf8Len c) (Or.inr hpos') hstop'
      rw [show max pos (i + utf8Len c) = pos by omega] at ih'
      have e₁ : (utf8Char c).drop (pos - i) = [] := List.drop_of_length_le (by omega)
      rw [charsWithin, if_neg (by omega), ih', show max pos i = pos by omega,
        List.drop_append_eq_append_drop, e₁, hlen, List.nil_append,
        show pos - (i + utf8Len c) = pos - i - utf8Len c by omega]

/-- The text that `substr` gives for a range of bytes that cuts through no char has the bytes
that `std::string::substr` returns. -/
theorem substr_bytes (s : String) (pos count : Nat) (hpos : atChar s pos = true)
    (hend : atChar s (pos + count) = true) :
    utf8 (substr s pos count) = substrBytes s pos count := by
  have h := charsWithin_bytes pos (pos + count) s.data 0 (Or.inr hpos) (Or.inr hend)
  rw [show pos - 0 = pos by omega, show pos + count - max pos 0 = count by omega] at h
  exact h

/-- There is a char with a byte in a range of bytes exactly when the range has a byte of the
text. -/
theorem charsWithin_eq_nil (pos stop : Nat) : ∀ (cs : List Char) (i : Nat),
    charsWithin pos stop i cs = [] ↔ ¬ max pos i < min stop (i + size ⟨cs⟩) := by
  intro cs
  induction cs with
  | nil =>
    intro i
    have : size ⟨[]⟩ = 0 := rfl
    simp only [charsWithin, this, true_iff]
    omega
  | cons c cs ih =>
    intro i
    have hL := utf8Len_pos c
    rw [size_mk_cons]
    by_cases h : max pos i < min stop (i + utf8Len c)
    · rw [charsWithin, if_pos h]
      simp only [List.cons_ne_nil, false_iff, not_not]
      omega
    · rw [charsWithin, if_neg h, ih]
      constructor
      · intro h₁ h₂
        apply h₁
        omega
      · intro h₁ h₂
        apply h₁
        omega

/-- The text that `substr` gives is empty exactly when the value of `std::string::substr`
is, whatever the range. -/
theorem substr_eq_empty (s : String) (pos count : Nat) :
    substr s pos count = "" ↔ substrBytes s pos count = [] := by
  have h := charsWithin_eq_nil pos (pos + count) s.data 0
  have hs : size ⟨s.data⟩ = size s := rfl
  have e : substr s pos count = "" ↔ charsWithin pos (pos + count) 0 s.data = [] := by
    rw [substr, String.ext_iff]
  rw [hs] at h
  rw [e, h, substrBytes, List.take_eq_nil_iff, List.drop_eq_nil_iff]
  show _ ↔ count = 0 ∨ size s ≤ pos
  omega

/-- The text of a range of bytes on samples: the return type of the prototype `ééé f()`, of
which `f` is at the byte offset 7, and what follows the name; and a range that ends inside
the char `é`, whose first byte alone is in the value of the call. -/
theorem substr_samples :
    substr "ééé f()" 0 7 = "ééé " ∧ substr "ééé f()" 8 npos = "()" ∧ size "ééé f()" = 10 ∧
      utf8 (substr "ééé f()" 0 7) = substrBytes "ééé f()" 0 7 ∧
      find "ééé f()" "f" = 7 ∧
      substr "aé" 0 2 = "aé" ∧ substrBytes "aé" 0 2 = [0x61, 0xC3] ∧ atChar "aé" 2 = false := by
  decide

/-! ## Overview blurbs -/

/-- What `getSymbolBlurb` computes, in terms of the comment it chooses. -/
theorem getSymbolBlurb_eq (s : Symbol) :
    getSymbolBlurb s =
      if chosenComment s = "" then []
      else if hasSubstring (utf8 "$$")
          (if size (chosenComment s) > 64 then
              utf8 " - " ++ substrBytes (chosenComment s) 0 63 ++ utf8 "..."
            else utf8 " - " ++ utf8 (chosenComment s)) then []
      else if size (chosenComment s) > 64 then
        utf8 " - " ++ substrBytes (chosenComment s) 0 63 ++ utf8 "..."
      else utf8 " - " ++ utf8 (chosenComment s) := by
  have e : utf8 "" = [] := rfl
  unfold getSymbolBlurb chosenComment
  by_cases hb : s.briefComment = ""
  · by_cases hd : s.docComment = ""
    · simp [hb, hd, e, hasSubstring]
    · simp [hb, hd, e]
  · simp [hb, e]

/-- C16: for a symbol with a non-empty brief comment the blurb does not depend on the doc
comment (it is the blurb of the same symbol with any other doc comment, the empty one
included); with an empty brief comment the blurb is made from the doc comment in the same
way; with both empty the blurb is the empty string. -/
theorem getSymbolBlurb_brief (s : Symbol) :
    (s.briefComment ≠ "" →
      ∀ doc, getSymbolBlurb { s with docComment := doc } = getSymbolBlurb s) ∧
    (s.briefComment = "" →
      getSymbolBlurb s =
        getSymbolBlurb { s with briefComment := s.docComment, docComment := "" }) ∧
    (s.briefComment = "" → s.docComment = "" → getSymbolBlurb s = utf8 "") := by
  refine ⟨fun hb doc => ?_, fun hb => ?_, fun hb hd => ?_⟩
  · rw [getSymbolBlurb_eq, getSymbolBlurb_eq]
    simp [chosenComment, hb]
  · have h₁ : chosenComment s = s.docComment := by simp [chosenComment, hb]
    have h₂ : chosenComment { s with briefComment := s.docComment, docComment := "" } =
        s.docComment := by
      by_cases hd : s.docComment = "" <;> simp [chosenComment, hd]
    rw [getSymbolBlurb_eq, getSymbolBlurb_eq, h₁, h₂]
  · rw [getSymbolBlurb_eq]
    simp [chosenComment, hb, hd]
    rfl

/-- C16 on a sample: with the brief comment "Draws." the doc comment plays no part. -/
theorem getSymbolBlurb_brief_witness :
    getSymbolBlurb { briefComment := "Draws.", docComment := "Long text with $$x$$." } =
        utf8 " - Draws." ∧
      getSymbolBlurb { briefComment := "Draws.", docComment := "" } = utf8 " - Draws." ∧
      getSymbolBlurb { briefComment := "", docComment := "Long text." } = utf8 " - Long text." ∧
      getSymbolBlurb { briefComment := "", docComment := "" } = utf8 "" :=
  ⟨((getSymbolBlurb_brief { briefComment := "Draws.", docComment := "" }).1 (by decide)
      "Long text with $$x$$.").trans (by decide),
    by decide,
    ((getSymbolBlurb_brief { briefComment := "", docComment := "Long text." }).2.1 rfl).trans
      (by decide),
    (getSymbolBlurb_brief { briefComment := "", docComment := "" }).2.2 rfl rfl⟩

/-- The blurb of a symbol whose chosen comment is not empty: empty when the bytes of the
comment that it shows have `"$$"`, else the separator and those bytes, with an ellipsis when
the comment was cut. -/
theorem getSymbolBlurb_shown (s : Symbol) (ht : chosenComment s ≠ "") :
    getSymbolBlurb s =
      if hasSubstring (utf8 "$$") (shownPart (chosenComment s)) then []
      else if size (chosenComment s) > 64 then
        utf8 " - " ++ (utf8 (chosenComment s)).take 63 ++ utf8 "..."
      else utf8 " - " ++ utf8 (chosenComment s) := by
  have e : ∀ t, substrBytes t 0 63 = (utf8 t).take 63 := fun t => rfl
  rw [getSymbolBlurb_eq, if_neg ht]
  unfold shownPart
  by_cases hl : size (chosenComment s) > 64
  · simp only [hl, if_true, (hasSubstring_blurb _).2, e]
  · simp only [hl, if_false, (hasSubstring_blurb _).1]

/-- C18, as amended: the blurb of a symbol is the empty string exactly when its chosen
comment is empty or the part of it that the blurb shows (all of a comment of at most 64
bytes, the first 63 bytes of a longer one) has `"$$"`; a comment of more than 64 bytes whose
first 63 bytes have no `"$$"` gives those 63 bytes and `"..."`, whatever follows them. -/
theorem getSymbolBlurb_display_math (s : Symbol) :
    (getSymbolBlurb s = utf8 "" ↔
      chosenComment s = "" ∨
        hasSubstring (utf8 "$$") (shownPart (chosenComment s)) = true) ∧
    (size (chosenComment s) ≤ 64 → stringFinds (chosenComment s) "$$" = true →
      getSymbolBlurb s = utf8 "") ∧
    (64 < size (chosenComment s) →
      hasSubstring (utf8 "$$") ((utf8 (chosenComment s)).take 63) = true →
      getSymbolBlurb s = utf8 "") ∧
    (64 < size (chosenComment s) →
      hasSubstring (utf8 "$$") ((utf8 (chosenComment s)).take 63) = false →
      getSymbolBlurb s = utf8 " - " ++ (utf8 (chosenComment s)).take 63 ++ utf8 "...") := by
  have e : utf8 "" = [] := rfl
  have e₆₃ : ∀ t, substrBytes t 0 63 = (utf8 t).take 63 := fun t => rfl
  rw [e]
  by_cases ht : chosenComment s = ""
  · have h : getSymbolBlurb s = [] := by rw [getSymbolBlurb_eq, if_pos ht]
    refine ⟨⟨fun _ => Or.inl ht, fun _ => h⟩, fun _ _ => h, fun _ _ => h, fun hl => ?_⟩
    rw [ht] at hl
    exact absurd hl (by decide)
  · have h := getSymbolBlurb_shown s ht
    refine ⟨?_, fun hl hf => ?_, fun hl hf => ?_, fun hl hf => ?_⟩
    · constructor
      · intro he
        right
        cases hf : hasSubstring (utf8 "$$") (shownPart (chosenComment s)) with
        | true => rfl
        | false =>
          rw [h, hf] at he
          by_cases hl : size (chosenComment s) > 64
          · simp only [hl, if_true, Bool.false_eq_true, if_false] at he
            exact absurd he (blurb_ne_empty _).2
          · simp only [hl, if_false, Bool.false_eq_true] at he
            exact absurd he (blurb_ne_empty _).1
      · rintro (he | hf)
        · exact absurd he ht
        · rw [h, hf]
          rfl
    · rw [← hasSubstring_utf8_dd] at hf
      rw [h]
      simp [shownPart, Nat.not_lt.2 hl, hf]
    · rw [h]
      simp [shownPart, hl, hf, e₆₃]
    · rw [h]
      simp [shownPart, hl, hf, e₆₃]

/-- C18 fails as stated: a brief comment of 65 bytes that ends in `"$$"`, and one whose
`"$$"` is its bytes 63 and 64, do have `"$$"`, yet their blurbs are not empty, the 63 bytes
shown being free of it. So it is for the comment of 32 times `é` and `"$$"`, which has 34
characters and 66 bytes: the blurb shows 31 times `é` and the first byte of one more. -/
theorem getSymbolBlurb_display_math_counterexample :
    (stringFinds (String.mk (List.replicate 63 'x') ++ "$$") "$$" = true ∧
      getSymbolBlurb { briefComment := String.mk (List.replicate 63 'x') ++ "$$" } =
        utf8 (" - " ++ String.mk (List.replicate 63 'x') ++ "...")) ∧
    (stringFinds (String.mk (List.replicate 62 'x') ++ "$$y") "$$" = true ∧
      getSymbolBlurb { briefComment := String.mk (List.replicate 62 'x') ++ "$$y" } =
        utf8 (" - " ++ String.mk (List.replicate 62 'x') ++ "$" ++ "...")) ∧
    (stringFinds (String.mk (List.replicate 32 'é') ++ "$$") "$$" = true ∧
      getSymbolBlurb { briefComment := String.mk (List.replicate 32 'é') ++ "$$" } =
        utf8 (" - " ++ String.mk (List.replicate 31 'é')) ++ [0xC3] ++ utf8 "...") := by
  refine ⟨⟨by decide, by decide⟩, ⟨by decide, by decide⟩, ⟨by decide, by decide⟩⟩

/-- C18 (amended) on samples: a short comment with `"$$"` gives the empty blurb, and so does
a long one whose `"$$"` is among its first 63 bytes. -/
theorem getSymbolBlurb_display_math_witness :
    getSymbolBlurb { docComment := "Solves $$x^2 = 1$$." } = utf8 "" ∧
      getSymbolBlurb { docComment := "$$" ++ String.mk (List.replicate 70 'x') } = utf8 "" :=
  ⟨(getSymbolBlurb_display_math { docComment := "Solves $$x^2 = 1$$." }).2.1 (by decide)
      (by decide),
    (getSymbolBlurb_display_math
      { docComment := "$$" ++ String.mk (List.replicate 70 'x') }).2.2.1 (by decide) (by decide)⟩

/-! ## Search index kind codes -/

/-- C20, as amended: `to_string` gives each of the four access specifiers its own name,
`"public"`, `"protected"`, `"private"` and `"none"`; the `default` branch `"unknown"` of its
`switch` is taken exactly by the integer values above those of the four enumerators, so by no
access specifier. -/
theorem to_string_names :
    to_string AccessSpecifier.AS_public = "public" ∧
    to_string AccessSpecifier.AS_protected = "protected" ∧
    to_string AccessSpecifier.AS_private = "private" ∧
    to_string AccessSpecifier.AS_none = "none" ∧
    (∀ access : AccessSpecifier, to_string access ≠ "unknown") ∧
    (∀ v : Nat, to_string_value v = "unknown" ↔ 3 < v) ∧
    ∀ a b : AccessSpecifier, to_string a = to_string b → a = b := by
  refine ⟨rfl, rfl, rfl, rfl, fun access => ?_, fun v => ?_, fun a b => ?_⟩
  · cases access <;> decide
  · match v with
    | 0 => exact ⟨fun h => absurd h (by decide), fun h => absurd h (by decide)⟩
    | 1 => exact ⟨fun h => absurd h (by decide), fun h => absurd h (by decide)⟩
    | 2 => exact ⟨fun h => absurd h (by decide), fun h => absurd h (by decide)⟩
    | 3 => exact ⟨fun h => absurd h (by decide), fun h => absurd h (by decide)⟩
    | n + 4 => exact ⟨fun _ => by omega, fun _ => rfl⟩
  · cases a <;> cases b <;> decide

/-- C20 fails as stated: the access specifier none is rendered as `"none"`, which is not
`"unknown"`. -/
theorem to_string_names_counterexample :
    to_string AccessSpecifier.AS_none = "none" ∧
    to_string AccessSpecifier.AS_none ≠ "unknown" :=
  ⟨rfl, by decide⟩

/-- C20 (amended) on samples: the name of the specifier none, and the `default` branch at the
value 4. -/
theorem to_string_names_witness :
    to_string AccessSpecifier.AS_none = "none" ∧ to_string_value 4 = "unknown" :=
  ⟨to_string_names.2.2.2.1, (to_string_names.2.2.2.2.2.1 4).2 (by decide)⟩

/-! ## The flattener and its recursive reference -/

theorem flatEdge_of_not_admissible (index : Index)
    (flat : List BaseRecord → Option (List BaseRecord)) (b : BaseRecord)
    (h : admissible index b = false) : flatEdge index flat b = some [] := by
  have h' : index.records.contains b.id = false ∨ b.access = AccessSpecifier.AS_private := by
    by_contra hn
    rw [not_or] at hn
    have : admissible index b = true :=
      (admissible_iff index b).2 ⟨by simpa using hn.1, hn.2⟩
    rw [h] at this
    cases this
  rw [flatEdge, if_pos h']

theorem flatEdge_of_admissible (index : Index)
    (flat : List BaseRecord → Option (List BaseRecord)) (b : BaseRecord) (c : RecordSymbol)
    (h : admissible index b = true) (hc : index.records.entriesAt b.id = some c) :
    flatEdge index flat b = (flat c.baseRecords).map fun rest => b :: rest := by
  have h' := (admissible_iff index b).1 h
  have hn : ¬ (index.records.contains b.id = false ∨ b.access = AccessSpecifier.AS_private) := by
    rintro (h₁ | h₂)
    · rw [h'.1] at h₁
      cases h₁
    · exact h'.2 h₂
  rw [flatEdge, if_neg hn, hc]

theorem concatEdges_flat (index : Index) (flat : List BaseRecord → Option (List BaseRecord))
    (hflat : ∀ bases res, flat bases = some res → Flat index bases.reverse res) :
    ∀ s res, concatEdges (flatEdge index flat) s = some res → Flat index s res := by
  intro s
  induction s with
  | nil =>
    intro res h
    simp only [concatEdges, Option.some.injEq] at h
    subst h
    exact Flat.nil
  | cons b rest ih =>
    intro res h
    rw [concatEdges] at h
    cases hx : flatEdge index flat b with
    | none => rw [hx] at h; cases h
    | some x =>
      cases hy : concatEdges (flatEdge index flat) rest with
      | none => rw [hx, hy] at h; cases h
      | some y =>
        rw [hx, hy] at h
        simp only [Option.some.injEq] at h
        subst h
        have hrest := ih y hy
        cases hb : admissible index b with
        | false =>
          rw [flatEdge_of_not_admissible index flat b hb] at hx
          simp only [Option.some.injEq] at hx
          subst hx
          exact Flat.skip b rest y hb hrest
        | true =>
          obtain ⟨c, hc⟩ := (contains_iff_entriesAt _ _).1 ((admissible_iff index b).1 hb).1
          rw [flatEdge_of_admissible index flat b c hb hc] at hx
          cases ho : flat c.baseRecords with
          | none => rw [ho] at hx; cases hx
          | some o =>
            rw [ho] at hx
            simp only [Option.map_some', Option.some.injEq] at hx
            subst hx
            have h₁ := hflat _ _ ho
            rw [← List.append_nil c.baseRecords.reverse, ← pushAll_eq] at h₁
            exact Flat.take b c rest o y hb hc h₁ hrest

theorem flatReference_flat (index : Index) :
    ∀ depth bases res, flatReference index depth bases = some res →
      Flat index bases.reverse res := by
  intro depth
  induction depth with
  | zero => intro bases res h; cases h
  | succ d ih =>
    intro bases res h
    rw [flatReference] at h
    exact concatEdges_flat index _ ih _ _ h

theorem flat_concatEdges (index : Index) {s out : List BaseRecord} (h : Flat index s out) :
    ∃ d, ∀ d', d ≤ d' →
      concatEdges (flatEdge index (flatReference index d')) s = some out := by
  induction h with
  | nil => exact ⟨0, fun d' _ => rfl⟩
  | skip b s out hb _ ih =>
    obtain ⟨d, hd⟩ := ih
    refine ⟨d, fun d' hd' => ?_⟩
    rw [concatEdges, flatEdge_of_not_admissible index _ b hb, hd d' hd']
    rfl
  | take b c s o₁ o₂ hb hc _ _ ih₁ ih₂ =>
    obtain ⟨d₁, hd₁⟩ := ih₁
    obtain ⟨d₂, hd₂⟩ := ih₂
    refine ⟨max (d₁ + 1) d₂, fun d' hd' => ?_⟩
    obtain ⟨k, rfl⟩ : ∃ k, d' = k + 1 := ⟨d' - 1, by omega⟩
    have hk : d₁ ≤ k := by omega
    have h₁ : flatReference index (k + 1) c.baseRecords = some o₁ := by
      rw [flatReference]
      have := hd₁ k hk
      rwa [pushAll_eq, List.append_nil] at this
    rw [concatEdges, flatEdge_of_admissible index _ b c hb hc, h₁, hd₂ (k + 1) (by omega)]
    rfl

/-- The recursive reference has the value `res` at some depth exactly when the traversal of
the reversed base list gives `res`. -/
theorem flatReference_iff_flat (index : Index) (bases res : List BaseRecord) :
    (∃ depth, flatReference index depth bases = some res) ↔ Flat index bases.reverse res := by
  constructor
  · rintro ⟨depth, h⟩
    exact flatReference_flat index depth bases res h
  · intro h
    obtain ⟨d, hd⟩ := flat_concatEdges index h
    exact ⟨d + 1, by rw [flatReference]; exact hd d (Nat.le_refl d)⟩

theorem flat_blocks (index : Index) {s out : List BaseRecord} (h : Flat index s out) :
    ∃ blocks : List (List BaseRecord), out = blocks.flatten ∧
      List.Forall₂ (EdgeBlock index) s blocks := by
  induction h with
  | nil => exact ⟨[], rfl, List.Forall₂.nil⟩
  | skip b s out hb _ ih =>
    obtain ⟨bl, hout, hall⟩ := ih
    exact ⟨[] :: bl, by simpa using hout, List.Forall₂.cons (Or.inl ⟨hb, rfl⟩) hall⟩
  | take b c s o₁ o₂ hb hc h₁ _ _ ih₂ =>
    obtain ⟨bl, hout, hall⟩ := ih₂
    rw [pushAll_eq, List.append_nil] at h₁
    obtain ⟨fuel, hfuel⟩ := (getInheritedSymbols_iff_flat index c o₁).2 h₁
    refine ⟨(b :: o₁) :: bl, by simp [hout], List.Forall₂.cons (Or.inr ⟨hb, c, o₁, fuel, hc, hfuel, rfl⟩) hall⟩

/-- C26: `getInheritedSymbols(index, R)` returns `res` exactly when the recursive reference
`flat(R.baseRecords)` has the value `res`, and with acyclic inheritance both have a value.
A returned list is the concatenation, over the base edges of `R` in reverse declaration
order, of the block of each edge: nothing for an edge that is private or whose target is
absent, and otherwise the edge immediately followed by the list returned for its target. In
particular two admissible base-less direct bases declared as `[a, b]` give `[b, a]`. -/
theorem getInheritedSymbols_refines (index : Index) (R : RecordSymbol) :
    (∀ res, (∃ fuel, getInheritedSymbols fuel index R = some res) ↔
      ∃ depth, flatReference index depth R.baseRecords = some res) ∧
    (Acyclic index → ∃ res, (∃ fuel, getInheritedSymbols fuel index R = some res) ∧
      ∃ depth, flatReference index depth R.baseRecords = some res) ∧
    (∀ fuel res, getInheritedSymbols fuel index R = some res →
      ∃ blocks : List (List BaseRecord), res = blocks.flatten ∧
        List.Forall₂ (EdgeBlock index) R.baseRecords.reverse blocks) ∧
    (∀ a b ca cb, R.baseRecords = [a, b] →
      admissible index a = true → admissible index b = true →
      index.records.entriesAt a.id = some ca → index.records.entriesAt b.id = some cb →
      ca.baseRecords = [] → cb.baseRecords = [] →
      ∃ fuel, getInheritedSymbols fuel index R = some [b, a]) := by
  have key : ∀ res, (∃ fuel, getInheritedSymbols fuel index R = some res) ↔
      ∃ depth, flatReference index depth R.baseRecords = some res := fun res =>
    (getInheritedSymbols_iff_flat index R res).trans
      (flatReference_iff_flat index R.baseRecords res).symm
  refine ⟨key, fun hacyc => ?_, fun fuel res h => ?_, ?_⟩
  · obtain ⟨fuel, res, h⟩ := acyclic_returns index hacyc R
    exact ⟨res, ⟨fuel, h⟩, (key res).1 ⟨fuel, h⟩⟩
  · exact flat_blocks index ((getInheritedSymbols_iff_flat index R res).1 ⟨fuel, h⟩)
  · intro a b ca cb hR ha hb hca hcb hae hbe
    apply (getInheritedSymbols_iff_flat index R [b, a]).2
    rw [hR]
    have hnil : ∀ c : RecordSymbol, c.baseRecords = [] →
        Flat index (pushAll c.baseRecords []) [] := fun c hc => by
      rw [hc]
      exact Flat.nil
    have h₁ : Flat index [a] [a] :=
      Flat.take a ca [] [] [] ha hca (hnil ca hae) Flat.nil
    exact Flat.take b cb [a] [] [a] hb hcb (hnil cb hbe) h₁

/-- C26 on the diamond sample: the recursive reference gives the list that
`getInheritedSymbols` returns for `Derived`, at depth 3. -/
theorem getInheritedSymbols_refines_witness :
    (∃ depth, flatReference exIndex depth exRoot.baseRecords = some exResult) ∧
      flatReference exIndex 3 exRoot.baseRecords = some exResult ∧
      getInheritedSymbols 8 exIndex exRoot = some exResult :=
  ⟨((getInheritedSymbols_refines exIndex exRoot).1 exResult).1 ⟨8, by decide⟩, by decide,
    by decide⟩

/-! ## Termination of the flattener -/

theorem flat_returns_from (index : Index) {s out : List BaseRecord} (h : Flat index s out) :
    ∃ fuel, ∀ fuel', fuel ≤ fuel' → getInheritedSymbolsLoop index fuel' s [] = some out := by
  obtain ⟨n, hn⟩ := flat_run index h
  refine ⟨n, fun fuel' hf => ?_⟩
  obtain ⟨m, rfl⟩ : ∃ m, fuel' = n + m := ⟨fuel' - n, by omega⟩
  have := hn m [] []
  rw [List.append_nil, List.nil_append] at this
  rw [this]
  cases m <;> rfl

theorem flat_mem_shorter (index : Index) {s out : List BaseRecord} (h : Flat index s out) :
    ∀ b ∈ s, admissible index b = true → ∀ c, index.records.entriesAt b.id = some c →
      ∃ o, Flat index (pushAll c.baseRecords []) o ∧ o.length < out.length := by
  induction h with
  | nil => intro b hb; cases hb
  | skip b' s out hb' _ ih =>
    intro b hb hadm c hc
    rcases List.mem_cons.1 hb with rfl | hb
    · rw [hb'] at hadm
      cases hadm
    · exact ih b hb hadm c hc
  | take b' c' s o₁ o₂ _ hc' h₁ _ _ ih₂ =>
    intro b hb hadm c hc
    rcases List.mem_cons.1 hb with rfl | hb
    · rw [hc'] at hc
      cases hc
      exact ⟨o₁, h₁, by simp; omega⟩
    · obtain ⟨o, ho, hlt⟩ := ih₂ b hb hadm c hc
      exact ⟨o, ho, by simp; omega⟩

theorem transGen_shorter (index : Index) {x y : SymbolID}
    (hxy : Relation.TransGen (InheritsFrom index) x y) :
    ∀ cx ox, index.records.entriesAt x = some cx → Flat index (pushAll cx.baseRecords []) ox →
      ∃ cy oy, index.records.entriesAt y = some cy ∧
        Flat index (pushAll cy.baseRecords []) oy ∧ oy.length < ox.length := by
  have step : ∀ a b, InheritsFrom index a b → ∀ ca oa, index.records.entriesAt a = some ca →
      Flat index (pushAll ca.baseRecords []) oa →
      ∃ cb ob, index.records.entriesAt b = some cb ∧
        Flat index (pushAll cb.baseRecords []) ob ∧ ob.length < oa.length := by
    rintro a b ⟨c, hc, e, he, rfl, hadm⟩ ca oa hca hoa
    rw [hc] at hca
    cases hca
    obtain ⟨cb, hcb⟩ := (contains_iff_entriesAt _ _).1 ((admissible_iff index e).1 hadm).1
    have hmem : e ∈ pushAll c.baseRecords [] := by
      rw [pushAll_eq, List.append_nil]
      exact List.mem_reverse.2 he
    obtain ⟨o, ho, hlt⟩ := flat_mem_shorter index hoa e hmem hadm cb hcb
    exact ⟨cb, o, hcb, ho, hlt⟩
  induction hxy with
  | single h => exact step _ _ h
  | tail _ h ih =>
    intro cx ox hcx hox
    obtain ⟨cm, om, hcm, hom, hlt⟩ := ih cx ox hcx hox
    obtain ⟨cy, oy, hcy, hoy, hlt'⟩ := step _ _ h cm om hcm hom
    exact ⟨cy, oy, hcy, hoy, by omega⟩

/-- If `getInheritedSymbols` returns for every record of the index, inheritance is acyclic. -/
theorem acyclic_of_returns (index : Index)
    (h : ∀ x c, index.records.entriesAt x = some c →
      ∃ fuel res, getInheritedSymbols fuel index c = some res) : Acyclic index := by
  intro x hx
  have hrec : ∃ c, index.records.entriesAt x = some c := by
    rcases Relation.TransGen.head'_iff.1 hx with ⟨_, ⟨c, hc, _⟩, _⟩
    exact ⟨c, hc⟩
  obtain ⟨c, hc⟩ := hrec
  obtain ⟨fuel, res, hres⟩ := h x c hc
  have hflat := (getInheritedSymbols_iff_flat index c res).1 ⟨fuel, hres⟩
  rw [← List.append_nil c.baseRecords.reverse, ← pushAll_eq] at hflat
  obtain ⟨c', o', hc', ho', hlt⟩ := transGen_shorter index hx c res hc hflat
  rw [hc] at hc'
  cases hc'
  rw [flat_det index hflat o' ho'] at hlt
  exact lt_irrefl _ hlt

/-- C27: in an index with acyclic inheritance `getInheritedSymbols(index, R)` terminates for
every record `R`: from some number of loop iterations on it returns one and the same list.
Acyclicity is also what termination needs: if the function returns for every record of the
index, inheritance is acyclic. -/
theorem getInheritedSymbols_terminates (index : Index) :
    (Acyclic index → ∀ R : RecordSymbol, ∃ fuel res, ∀ fuel', fuel ≤ fuel' →
      getInheritedSymbols fuel' index R = some res) ∧
    ((∀ x c, index.records.entriesAt x = some c →
      ∃ fuel res, getInheritedSymbols fuel index c = some res) → Acyclic index) := by
  refine ⟨fun hacyc R => ?_, acyclic_of_returns index⟩
  obtain ⟨out, h⟩ := acyclic_flat index hacyc (pushAll R.baseRecords [])
  obtain ⟨fuel, hf⟩ := flat_returns_from index h
  exact ⟨fuel, out, hf⟩

/-- C27 on the samples: the diamond index is acyclic and the function returns for
`Derived`; in the index with a cycle it returns for no number of iterations. -/
theorem getInheritedSymbols_terminates_witness :
    (∃ fuel res, ∀ fuel', fuel ≤ fuel' → getInheritedSymbols fuel' exIndex exRoot = some res) ∧
      ∀ fuel, getInheritedSymbols fuel cycIndex cycRoot = none :=
  ⟨(getInheritedSymbols_terminates exIndex).1 exIndex_acyclic exRoot,
    fun fuel => (cycIndex_loop fuel []).1⟩

/-! ## Safety of the lookups on the flattened ancestors -/

/-- C28: every entry of a list returned by `getInheritedSymbols(index, R)` has an id that is
a key of `index.records` and an access specifier other than private; so the lookup
`index.records.entries.at(base.id)` that `printRecord` makes for each returned entry, in its
loop over inherited member variables and in its loop over inherited methods, finds a
record. -/
theorem getInheritedSymbols_lookups_safe (index : Index) (R : RecordSymbol) (fuel : Nat)
    (res : List BaseRecord) (h : getInheritedSymbols fuel index R = some res) :
    (∀ base ∈ res, index.records.contains base.id = true ∧
      base.access ≠ AccessSpecifier.AS_private ∧
      ∃ ic, index.records.entriesAt base.id = some ic) ∧
    ∃ ics : List RecordSymbol, res.map (fun base => index.records.entriesAt base.id) =
      ics.map some := by
  have hflat := (getInheritedSymbols_iff_flat index R res).1 ⟨fuel, h⟩
  have hall : ∀ base ∈ res, index.records.contains base.id = true ∧
      base.access ≠ AccessSpecifier.AS_private ∧
      ∃ ic, index.records.entriesAt base.id = some ic := by
    intro base hbase
    have hadm := (admissible_iff index base).1 (flat_admissible index hflat base hbase)
    exact ⟨hadm.1, hadm.2, (contains_iff_entriesAt _ _).1 hadm.1⟩
  refine ⟨hall, ?_⟩
  clear h hflat
  induction res with
  | nil => exact ⟨[], rfl⟩
  | cons b rest ih =>
    obtain ⟨ics, hics⟩ := ih fun base hbase => hall base (List.mem_cons_of_mem _ hbase)
    obtain ⟨ic, hic⟩ := (hall b (List.mem_cons_self _ _)).2.2
    exact ⟨ic :: ics, by simp [hic, hics]⟩

/-- C28 on the diamond sample: the four entries returned for `Derived` are records of the
index. -/
theorem getInheritedSymbols_lookups_safe_witness :
    getInheritedSymbols 8 exIndex exRoot = some exResult ∧
      ∀ base ∈ exResult, exIndex.records.contains base.id = true ∧
        base.access ≠ AccessSpecifier.AS_private ∧
        ∃ ic, exIndex.records.entriesAt base.id = some ic :=
  ⟨by decide, (getInheritedSymbols_lookups_safe exIndex exRoot 8 exResult (by decide)).1⟩

/-! ## HTML escaping -/

theorem replaceAllFrom_single (c : Char) (sub : List Char) (l : List Char) :
    replaceAllFrom [c] sub 0 l = l.flatMap fun x => if x = c then sub else [x] := by
  induction l with
  | nil => rfl
  | cons x rest ih =>
    rw [replaceAllFrom, List.flatMap_cons]
    by_cases hx : x = c
    · subst hx
      simp [List.isPrefixOf, replaceAllFrom, ih]
    · have hx' : ¬ c = x := fun h => hx h.symm
      simp [List.isPrefixOf, hx, hx', ih]

theorem escapeForHTML_data (s : String) :
    (escapeForHTML s).data = s.data.flatMap escapeChar := by
  have h : ∀ (str : String) (c : Char) (sub : String),
      (replaceAll str (String.singleton c) sub).data =
        str.data.flatMap fun x => if x = c then sub.data else [x] := fun str c sub =>
    replaceAllFrom_single c sub.data str.data
  have e₁ : "&" = String.singleton '&' := rfl
  have e₂ : "<" = String.singleton '<' := rfl
  have e₃ : ">" = String.singleton '>' := rfl
  simp only [escapeForHTML]
  rw [e₁, e₂, e₃]
  simp only [h, List.flatMap_assoc]
  congr 1
  funext x
  by_cases h₁ : x = '&'
  · subst h₁; decide
  by_cases h₂ : x = '<'
  · subst h₂; decide
  by_cases h₃ : x = '>'
  · subst h₃; decide
  by_cases h₄ : x = quoteChar
  · subst h₄; decide
  by_cases h₅ : x = aposChar
  · subst h₅; decide
  simp [escapeChar, h₁, h₂, h₃, h₄, h₅]

theorem escapeChar_cases (x : Char) :
    (x ≠ '&' ∧ escapeChar x = [x] ∧
      x ≠ '<' ∧ x ≠ '>' ∧ x ≠ quoteChar ∧ x ≠ aposChar) ∨
    ∃ e ∈ htmlEntities, e.2 = x ∧ escapeChar x = e.1 ∧
      ∃ tl, e.1 = '&' :: tl ∧ ∀ c ∈ tl,
        c ≠ '&' ∧ c ≠ '<' ∧ c ≠ '>' ∧ c ≠ quoteChar ∧ c ≠ aposChar := by
  by_cases h₁ : x = '&'
  · subst h₁
    exact Or.inr ⟨("&amp;".data, '&'), by simp [htmlEntities], rfl, rfl, _, rfl, by decide⟩
  by_cases h₂ : x = '<'
  · subst h₂
    exact Or.inr ⟨("&lt;".data, '<'), by simp [htmlEntities], rfl, rfl, _, rfl, by decide⟩
  by_cases h₃ : x = '>'
  · subst h₃
    exact Or.inr ⟨("&gt;".data, '>'), by simp [htmlEntities], rfl, rfl, _, rfl, by decide⟩
  by_cases h₄ : x = quoteChar
  · subst h₄
    exact Or.inr ⟨("&quot;".data, quoteChar), by simp [htmlEntities], rfl, rfl, _, rfl,
      by decide⟩
  by_cases h₅ : x = aposChar
  · subst h₅
    exact Or.inr ⟨("&apos;".data, aposChar), by simp [htmlEntities], rfl, rfl, _, rfl,
      by decide⟩
  exact Or.inl ⟨h₁, by simp [escapeChar, h₁, h₂, h₃, h₄, h₅], h₂, h₃, h₄, h₅⟩

theorem split_past {α : Type} (a : α) (w : List α) (hw : a ∉ w) :
    ∀ pre post rest : List α, pre ++ a :: post = w ++ rest →
      ∃ pre', pre = w ++ pre' ∧ pre' ++ a :: post = rest := by
  induction w with
  | nil => intro pre post rest h; exact ⟨pre, rfl, h⟩
  | cons y w ih =>
    intro pre post rest h
    cases pre with
    | nil =>
      simp only [List.nil_append, List.cons_append, List.cons.injEq] at h
      exact absurd h.1 (fun e => hw (e ▸ List.mem_cons_self _ _))
    | cons p pre₁ =>
      simp only [List.cons_append, List.cons.injEq] at h
      obtain ⟨pre', hp, hr⟩ := ih (fun hm => hw (List.mem_cons_of_mem _ hm)) pre₁ post rest h.2
      exact ⟨pre', by rw [h.1, hp]; rfl, hr⟩

theorem escaped_no_markup (l : List Char) :
    ∀ c ∈ l.flatMap escapeChar, c ≠ '<' ∧ c ≠ '>' ∧ c ≠ quoteChar ∧ c ≠ aposChar := by
  intro c hc
  obtain ⟨x, _, hcx⟩ := List.mem_flatMap.1 hc
  rcases escapeChar_cases x with ⟨_, hx, h₂, h₃, h₄, h₅⟩ | ⟨e, _, _, hx, tl, htl, hall⟩
  · rw [hx, List.mem_singleton] at hcx
    subst hcx
    exact ⟨h₂, h₃, h₄, h₅⟩
  · rw [hx, htl] at hcx
    rcases List.mem_cons.1 hcx with rfl | hcx
    · decide
    · exact (hall c hcx).2

theorem escaped_ampersands (l : List Char) :
    ∀ pre post, l.flatMap escapeChar = pre ++ '&' :: post →
      ∃ e ∈ htmlEntities, e.1 <+: '&' :: post := by
  induction l with
  | nil =>
    intro pre post h
    simp at h
  | cons x rest ih =>
    intro pre post h
    rw [List.flatMap_cons] at h
    rcases escapeChar_cases x with ⟨h₁, hx, _⟩ | ⟨e, he, _, hx, tl, htl, hall⟩
    · rw [hx] at h
      cases pre with
      | nil =>
        simp only [List.nil_append, List.singleton_append, List.cons.injEq] at h
        exact absurd h.1 h₁
      | cons p pre₁ =>
        simp only [List.cons_append, List.singleton_append, List.cons.injEq] at h
        exact ih pre₁ post (by simpa using h.2)
    · rw [hx, htl] at h
      cases pre with
      | nil =>
        simp only [List.nil_append, List.cons_append, List.cons.injEq, true_and] at h
        exact ⟨e, he, ⟨rest.flatMap escapeChar, by rw [htl, ← h]; rfl⟩⟩
      | cons p pre₁ =>
        simp only [List.cons_append, List.cons.injEq] at h
        obtain ⟨pre', _, hr⟩ := split_past '&' tl (fun hm => (hall _ hm).1 rfl) pre₁ post
          (rest.flatMap escapeChar) h.2.symm
        exact ih pre' post hr.symm

theorem unescapeFrom_block (x : Char) (rest : List Char) :
    unescapeFrom 0 (escapeChar x ++ rest) = x :: unescapeFrom 0 rest := by
  by_cases h₁ : x = '&'
  · subst h₁
    simp [escapeChar, unescapeFrom, htmlEntities, List.find?, List.isPrefixOf]
  by_cases h₂ : x = '<'
  · subst h₂
    simp [escapeChar, unescapeFrom, htmlEntities, List.find?, List.isPrefixOf]
  by_cases h₃ : x = '>'
  · subst h₃
    simp [escapeChar, unescapeFrom, htmlEntities, List.find?, List.isPrefixOf]
  by_cases h₄ : x = quoteChar
  · subst h₄
    simp [escapeChar, unescapeFrom, htmlEntities, List.find?, List.isPrefixOf, quoteChar]
  by_cases h₅ : x = aposChar
  · subst h₅
    simp [escapeChar, unescapeFrom, htmlEntities, List.find?, List.isPrefixOf, quoteChar,
      aposChar]
  have hx : escapeChar x = [x] := by simp [escapeChar, h₁, h₂, h₃, h₄, h₅]
  have hb : ('&' == x) = false := beq_eq_false_iff_ne.2 fun h => h₁ h.symm
  rw [hx, List.singleton_append, unescapeFrom]
  simp [htmlEntities, List.find?, List.isPrefixOf, hb]

theorem unescapeFrom_escaped (l : List Char) :
    unescapeFrom 0 (l.flatMap escapeChar) = l := by
  induction l with
  | nil => rfl
  | cons x rest ih => rw [List.flatMap_cons, unescapeFrom_block, ih]

/-- C29: the output of `escapeForHTML` is its input with each of the chars `&`, `<`, `>`,
`"` and apostrophe replaced by its entity and every other char kept. It has none of the chars
`<`, `>`, `"` and apostrophe, every `&` in it is the first char of one of the five entities,
replacing each entity by its char gives the input back, and so `escapeForHTML` is
injective. -/
theorem escapeForHTML_entities (s : String) :
    (escapeForHTML s).data = s.data.flatMap escapeChar ∧
    (∀ c ∈ (escapeForHTML s).data, c ≠ '<' ∧ c ≠ '>' ∧ c ≠ quoteChar ∧ c ≠ aposChar) ∧
    (∀ pre post, (escapeForHTML s).data = pre ++ '&' :: post →
      ∃ e ∈ htmlEntities, e.1 <+: '&' :: post) ∧
    unescapeHTML (escapeForHTML s) = s ∧
    ∀ t, escapeForHTML s = escapeForHTML t → s = t := by
  have hinv : ∀ u : String, unescapeHTML (escapeForHTML u) = u := fun u => by
    apply String.ext
    rw [unescapeHTML, escapeForHTML_data]
    exact unescapeFrom_escaped u.data
  refine ⟨escapeForHTML_data s, ?_, ?_, hinv s, fun t h => ?_⟩
  · rw [escapeForHTML_data]
    exact escaped_no_markup s.data
  · rw [escapeForHTML_data]
    exact escaped_ampersands s.data
  · rw [← hinv s, ← hinv t, h]

/-- C29 on a sample: a text with `<`, `&` and an entity is escaped once, and unescaping
gives it back. -/
theorem escapeForHTML_entities_witness :
    escapeForHTML "1 < 2 && x &lt; y" = "1 &lt; 2 &amp;&amp; x &amp;lt; y" ∧
      unescapeHTML (escapeForHTML "1 < 2 && x &lt; y") = "1 < 2 && x &lt; y" ∧
      ∃ e ∈ htmlEntities, e.1 <+: '&' :: "lt; 2 &amp;&amp; x &amp;lt; y".data :=
  ⟨by decide, (escapeForHTML_entities "1 < 2 && x &lt; y").2.2.2.1,
    (escapeForHTML_entities "1 < 2 && x &lt; y").2.2.1 "1 ".data
      "lt; 2 &amp;&amp; x &amp;lt; y".data (by decide)⟩

/-! ## Unresolved cross-references -/

theorem hasSubstring_head_mem (a : Char) (needle : List Char) :
    ∀ l : List Char, hasSubstring (a :: needle) l = true → a ∈ l := by
  intro l
  induction l with
  | nil => intro h; simp [hasSubstring] at h
  | cons c rest ih =>
    intro h
    rw [hasSubstring, Bool.or_eq_true] at h
    rcases h with h | h
    · simp only [List.isPrefixOf, Bool.and_eq_true, beq_iff_eq] at h
      rw [h.1]
      exact List.mem_cons_self _ _
    · exact List.mem_cons_of_mem _ (ih h)

/-- With the zero ID and a bare name outside the table of `std::` types the type name is
returned formatted and escaped, and it has no anchor. -/
theorem getHyperlinkedTypeName_zero (lib : Lib) (ext : Ext) (index : Index) (type : TypeRef)
    (h0 : type.id.raw = 0) (hstd : lib.stdTypeURL (getBareTypeName lib type.name) = none) :
    getHyperlinkedTypeName lib ext index type =
        escapeForHTML (clangFormat lib type.name lib.defaultColumnLimit) ∧
      stringFinds (getHyperlinkedTypeName lib ext index type) "<a href" = false := by
  have h : getHyperlinkedTypeName lib ext index type =
      escapeForHTML (clangFormat lib type.name lib.defaultColumnLimit) := by
    simp [getHyperlinkedTypeName, h0, hstd]
  refine ⟨h, ?_⟩
  rw [h]
  cases hf : stringFinds (escapeForHTML (clangFormat lib type.name lib.defaultColumnLimit))
    "<a href" with
  | false => rfl
  | true =>
    have hmem := hasSubstring_head_mem '<' _ _ hf
    rw [escapeForHTML_data] at hmem
    exact absurd rfl (escaped_no_markup _ _ hmem).1

/-- With a non-zero ID the bare name is replaced by an anchor to whatever `getURLForSymbol`
gives, the empty string included. -/
theorem getHyperlinkedTypeName_nonzero (lib : Lib) (ext : Ext) (index : Index) (type : TypeRef)
    (hne : type.id.raw ≠ 0) :
    getHyperlinkedTypeName lib ext index type =
      (lib.replaceFirst (escapeForHTML (clangFormat lib type.name lib.defaultColumnLimit))
        (getBareTypeName lib type.name)
        (anchorHTML (getURLForSymbol ext index type.id true) (getBareTypeName lib type.name))
        0).1 := by
  simp [getHyperlinkedTypeName, hne]

/-- C21 at a failing input: the type `const Widget<int> &` with the ID 99, which is no
record, enum or alias of the sample index and whose bare name `Widget` is not in the table of
`std::` types, is rendered with an anchor that has an empty `href`; with the zero ID the same
name is rendered as plain escaped text. -/
theorem getHyperlinkedTypeName_dangling :
    getURLForSymbol sampleExt siteIndex ⟨99⟩ true = "" ∧
    sampleLib.stdTypeURL (getBareTypeName sampleLib "const Widget<int> &") = none ∧
    getHyperlinkedTypeName sampleLib sampleExt siteIndex
        { name := "const Widget<int> &", id := ⟨99⟩ } =
      "const " ++ anchorHTML "" "Widget" ++ "&lt;int&gt; &amp;" ∧
    stringFinds (getHyperlinkedTypeName sampleLib sampleExt siteIndex
        { name := "const Widget<int> &", id := ⟨99⟩ }) "<a href" = true ∧
    getHyperlinkedTypeName sampleLib sampleExt siteIndex
        { name := "const Widget<int> &", id := ⟨0⟩ } = "const Widget&lt;int&gt; &amp;" := by
  refine ⟨by decide, by decide, by decide, by decide, by decide⟩

/-! ## Nodes that grow -/

@[simp] theorem Node.name_AddChild (n c : Node) : (n.AddChild c).name = n.name := by
  cases n with
  | element name as cs =>
    cases c with
    | element m bs ds =>
      by_cases hm : m = ""
      · subst hm; rfl
      · simp [Node.AddChild, Node.name]
        split <;> simp_all
    | text t => rfl
    | raw r => rfl
  | text t => rfl
  | raw r => rfl

@[simp] theorem Node.name_AppendText (n : Node) (t : String) : (n.AppendText t).name = n.name := by
  cases n <;> rfl

@[simp] theorem Node.name_AppendRawHTML (n : Node) (t : String) :
    (n.AppendRawHTML t).name = n.name := by
  cases n <;> rfl

@[simp] theorem Node.name_SetAttr (n : Node) (k v : String) : (n.SetAttr k v).name = n.name := by
  cases n <;> rfl

@[simp] theorem Node.name_ToggleClass (n : Node) (c : String) :
    (n.ToggleClass c).name = n.name := by
  cases n with
  | element name as cs =>
    simp only [Node.ToggleClass]
    split <;> rfl
  | text t => rfl
  | raw r => rfl

@[simp] theorem Node.name_named (s : String) : (Node.named s).name = s := rfl

@[simp] theorem Node.name_withText (s t : String) : (Node.withText s t).name = s := rfl

theorem Node.mark_name {n : Node} {k : Mark} (h : n.mark = some k) :
    n.name = "h2" ∨ n.name = "p" := by
  unfold Node.mark at h
  split at h
  · split at h
    · left; assumption
    · cases h
  · split at h
    · right; rename_i hc; exact hc.1
    · cases h
  · cases h

theorem Node.mark_of_name (n : Node) (h₁ : n.name ≠ "h2") (h₂ : n.name ≠ "p") :
    n.mark = none := by
  cases h : n.mark with
  | none => rfl
  | some k =>
    rcases Node.mark_name h with h' | h'
    · exact absurd h' h₁
    · exact absurd h' h₂

theorem grows_refl (name : String) (as : List (String × String)) (cs : List Node) :
    Grows [] (Node.element name as cs) (Node.element name as cs) :=
  ⟨name, as, cs, [], rfl, by simp, rfl⟩

theorem grows_right {l : List Mark} {n n' : Node} (h : Grows l n n') : Grows [] n' n' := by
  obtain ⟨name, as, cs, extra, _, rfl, _⟩ := h
  exact grows_refl _ _ _

theorem grows_left {l : List Mark} {n n' : Node} (h : Grows l n n') : Grows [] n n := by
  obtain ⟨name, as, cs, extra, rfl, _, _⟩ := h
  exact grows_refl _ _ _

theorem grows_trans {l₁ l₂ : List Mark} {a b c : Node} (h₁ : Grows l₁ a b)
    (h₂ : Grows l₂ b c) : Grows (l₁ ++ l₂) a c := by
  obtain ⟨name, as, cs, e₁, rfl, rfl, rfl⟩ := h₁
  obtain ⟨name', as', cs', e₂, hb, rfl, rfl⟩ := h₂
  cases hb
  exact ⟨name, as, cs, e₁ ++ e₂, rfl, by simp, by simp⟩

theorem grows_outline {l : List Mark} {n n' : Node} (h : Grows l n n') :
    outline n' = outline n ++ l := by
  obtain ⟨name, as, cs, extra, rfl, rfl, rfl⟩ := h
  simp [outline, Node.children]

theorem grows_addChild {n : Node} (hn : Grows [] n n) (c : Node) :
    Grows c.mark.toList n (n.AddChild c) := by
  obtain ⟨name, as, cs, _, rfl, _, _⟩ := hn
  cases c with
  | element m bs ds =>
    by_cases hm : m = ""
    · subst hm
      have hmark : (Node.element "" bs ds).mark = none :=
        Node.mark_of_name _ (by simp [Node.name]) (by simp [Node.name])
      rw [hmark]
      exact grows_refl _ _ _
    · refine ⟨name, as, cs, [Node.element m bs ds], rfl, ?_, ?_⟩
      · simp only [Node.AddChild]
        split
        · rename_i heq
          simp only [Node.element.injEq] at heq
          exact absurd heq.1 hm
        · rfl
      · cases h : (Node.element m bs ds).mark <;> simp [h]
  | text t => exact ⟨name, as, cs, [Node.text t], rfl, rfl, rfl⟩
  | raw r => exact ⟨name, as, cs, [Node.raw r], rfl, rfl, rfl⟩

theorem grows_addChild_none {n : Node} (hn : Grows [] n n) (c : Node) (hc : c.mark = none) :
    Grows [] n (n.AddChild c) := by
  have := grows_addChild hn c
  rwa [hc] at this

theorem grows_addChild_some {n : Node} (hn : Grows [] n n) (c : Node) (k : Mark)
    (hc : c.mark = some k) : Grows [k] n (n.AddChild c) := by
  have := grows_addChild hn c
  rwa [hc] at this

theorem Result.bind_eq_ok {α β : Type} (r : Result α) (f : α → Result β) (b : β) :
    r.bind f = Result.ok b ↔ ∃ a, r = Result.ok a ∧ f a = Result.ok b := by
  cases r <;> simp [Result.bind]

theorem atKey_eq_ok {T : Type} (db : Database T) (id : SymbolID) (t : T) :
    db.atKey id = Result.ok t ↔ db.entriesAt id = some t := by
  unfold Database.atKey
  cases db.entriesAt id <;> simp

/-! ## Marks of the parts of a record page -/

theorem appendAsMarkdown_grows (lib : Lib) (comment : String) {n : Node} (hn : Grows [] n n) :
    Grows [] n (appendAsMarkdown lib comment n) := by
  simp only [appendAsMarkdown]
  split_ifs
  · exact grows_addChild_none hn ((Node.named "p").AppendRawHTML (lib.markdown comment)) rfl
  · exact grows_addChild_none hn (Node.withText "p" comment)
      (by simp [Node.mark, Node.withText])
  · exact hn

theorem getDeclaredAtNode_mark (s : Symbol) (gitRepoURL gitDefaultBranch : String) :
    (getDeclaredAtNode s gitRepoURL gitDefaultBranch).mark = none := by
  unfold getDeclaredAtNode
  split_ifs <;> simp [Node.mark, Node.withText, Node.AddChild, Node.SetAttr]

theorem addTemplateParams_name (shown : String → String) (tparams : List TemplateParam) :
    ∀ dl : Node, (addTemplateParams shown tparams dl).name = dl.name := by
  unfold addTemplateParams
  induction tparams with
  | nil => intro dl; rfl
  | cons t rest ih =>
    intro dl
    rw [List.foldl_cons, ih]
    split_ifs <;> simp

theorem addParams_name (lib : Lib) (ext : Ext) (index : Index) (params : List FunctionParam) :
    ∀ dl : Node, (addParams lib ext index params dl).name = dl.name := by
  unfold addParams
  induction params with
  | nil => intro dl; rfl
  | cons t rest ih =>
    intro dl
    rw [List.foldl_cons, ih]
    split_ifs <;> simp

theorem mark_withText (name t : String) (h : name ≠ "h2") : (Node.withText name t).mark = none := by
  simp [Node.mark, Node.withText, h]

theorem mark_heading (t : String) : (Node.withText "h2" t).mark = some (Mark.heading t) := by
  simp [Node.mark, Node.withText]

theorem printFunction_grows (lib : Lib) (ext : Ext) (index : Index) (f : FunctionSymbol)
    (gitRepoURL gitDefaultBranch : String) {n : Node} (hn : Grows [] n n) :
    Grows [] n (printFunction lib ext index f n gitRepoURL gitDefaultBranch) := by
  unfold printFunction
  have g₁ := grows_addChild_none hn ((Node.named ("h3#" ++ ext.str f.ID)).AddChild
    (((Node.named "pre.p-0.hdoc-pre-parent").AddChild
      (((Node.withText "a.is-size-4" "¶").SetAttr "class" "hdoc-permalink-icon").SetAttr
        "href" ("#" ++ ext.str f.ID))).AddChild
      ((Node.named "code.hdoc-function-code.language-cpp").AppendRawHTML
        (getHyperlinkedFunctionProto lib ext index
          (clangFormat lib f.proto lib.defaultColumnLimit) f))))
    (by simp [Node.mark, Node.named, Node.withText, Node.AddChild, Node.SetAttr,
      Node.AppendRawHTML])
  have g₂ : ∀ m, Grows [] n m → Grows [] n
      (if f.briefComment ≠ "" ∨ f.docComment ≠ "" then
        m.AddChild (Node.withText "h4" "Description") else m) := fun m hm => by
    split_ifs
    · exact grows_trans hm (grows_addChild_none (grows_right hm) _
        (mark_withText _ _ (by decide)))
    · exact hm
  have g₃ := g₂ _ g₁
  have g₄ := grows_trans g₃ (appendAsMarkdown_grows lib f.briefComment (grows_right g₃))
  have g₅ := grows_trans g₄ (appendAsMarkdown_grows lib f.docComment (grows_right g₄))
  have g₆ := grows_trans g₅ (grows_addChild_none (grows_right g₅)
    (getDeclaredAtNode f.toSymbol gitRepoURL gitDefaultBranch) (getDeclaredAtNode_mark _ _ _))
  have g₇ : ∀ m, Grows [] n m → Grows [] n
      (if f.templateParams.length > 0 then
        (m.AddChild (Node.withText "h4" "Template Parameters")).AddChild
          (addTemplateParams escapeForHTML f.templateParams (Node.named "dl")) else m) :=
    fun m hm => by
      split_ifs
      · have a := grows_trans hm (grows_addChild_none (grows_right hm)
          (Node.withText "h4" "Template Parameters") (mark_withText _ _ (by decide)))
        exact grows_trans a (grows_addChild_none (grows_right a) _
          (Node.mark_of_name _ (by rw [addTemplateParams_name]; decide)
            (by rw [addTemplateParams_name]; decide)))
      · exact hm
  have g₈ : ∀ m, Grows [] n m → Grows [] n
      (if f.params.length > 0 then
        (m.AddChild (Node.withText "h4" "Parameters")).AddChild
          (addParams lib ext index f.params (Node.named "dl")) else m) :=
    fun m hm => by
      split_ifs
      · have a := grows_trans hm (grows_addChild_none (grows_right hm)
          (Node.withText "h4" "Parameters") (mark_withText _ _ (by decide)))
        exact grows_trans a (grows_addChild_none (grows_right a) _
          (Node.mark_of_name _ (by rw [addParams_name]; decide)
            (by rw [addParams_name]; decide)))
      · exact hm
  have g₉ : ∀ m, Grows [] n m → Grows [] n
      (if f.returnTypeDocComment ≠ "" then
        (m.AddChild (Node.withText "h4" "Returns")).AddChild
          (Node.withText "p" f.returnTypeDocComment) else m) :=
    fun m hm => by
      split_ifs
      · have a := grows_trans hm (grows_addChild_none (grows_right hm)
          (Node.withText "h4" "Returns") (mark_withText _ _ (by decide)))
        exact grows_trans a (grows_addChild_none (grows_right a) _
          (mark_withText _ _ (by decide)))
      · exact hm
  have g := g₉ _ (g₈ _ (g₇ _ g₆))
  exact grows_trans g (grows_addChild_none (grows_right g) (Node.named "hr.member-fun-separator")
    rfl)

theorem recordHeader_grows (lib : Lib) (cfg : Config) (c : RecordSymbol) {n : Node}
    (hn : Grows [] n n) :
    Grows ([Mark.heading "Declaration"] ++
      (if c.briefComment ≠ "" ∨ c.docComment ≠ "" then [Mark.heading "Description"] else []))
      n (recordHeader lib cfg c n) := by
  unfold recordHeader
  have g₁ := grows_addChild_none hn (Node.withText "h1" (c.type ++ " " ++ c.name))
    (mark_withText _ _ (by decide))
  have g₂ := grows_trans g₁ (grows_addChild_some (grows_right g₁)
    (Node.withText "h2" "Declaration") _ (mark_heading _))
  have g₃ := grows_trans g₂ (grows_addChild_none (grows_right g₂)
    ((Node.named "pre.p-0").AddChild
      (Node.withText "code.hdoc-record-code.language-cpp"
        (clangFormat lib c.proto 70 ++ " \x7b /* full declaration omitted */ \x7d;")))
    (by simp [Node.mark, Node.named, Node.withText, Node.AddChild]))
  have g₄ : Grows ([Mark.heading "Declaration"] ++
      (if c.briefComment ≠ "" ∨ c.docComment ≠ "" then [Mark.heading "Description"] else []))
      n (if c.briefComment ≠ "" ∨ c.docComment ≠ "" then
        (((n.AddChild (Node.withText "h1" (c.type ++ " " ++ c.name))).AddChild
          (Node.withText "h2" "Declaration")).AddChild
          ((Node.named "pre.p-0").AddChild
            (Node.withText "code.hdoc-record-code.language-cpp"
              (clangFormat lib c.proto 70 ++
                " \x7b /* full declaration omitted */ \x7d;")))).AddChild
          (Node.withText "h2" "Description")
      else ((n.AddChild (Node.withText "h1" (c.type ++ " " ++ c.name))).AddChild
          (Node.withText "h2" "Declaration")).AddChild
          ((Node.named "pre.p-0").AddChild
            (Node.withText "code.hdoc-record-code.language-cpp"
              (clangFormat lib c.proto 70 ++
                " \x7b /* full declaration omitted */ \x7d;")))) := by
    split_ifs
    · have := grows_trans g₃ (grows_addChild_some (grows_right g₃)
        (Node.withText "h2" "Description") _ (mark_heading _))
      simpa using this
    · simpa using g₃
  have g₅ := grows_trans g₄ (appendAsMarkdown_grows lib c.briefComment (grows_right g₄))
  have g₆ := grows_trans g₅ (appendAsMarkdown_grows lib c.docComment (grows_right g₅))
  have g₇ := grows_trans g₆ (grows_addChild_none (grows_right g₆)
    (getDeclaredAtNode c.toSymbol cfg.gitRepoURL cfg.gitDefaultBranch)
    (getDeclaredAtNode_mark _ _ _))
  simpa using g₇

theorem mark_inherits (as : List (String × String)) (cs : List Node) :
    (Node.element "p" as (Node.text "Inherits from: " :: cs)).mark = none := by
  unfold Node.mark
  split
  · rename_i heq
    simp only [Node.element.injEq] at heq
    simp [← heq.1]
  · rename_i heq
    simp only [Node.element.injEq, List.cons.injEq, Node.text.injEq] at heq
    obtain ⟨_, _, ht, _⟩ := heq
    simp [← ht]
  · rfl

theorem recordBases_loop (ext : Ext) (index : Index) (bases : List BaseRecord) :
    ∀ (cs : List Node) (k : Nat), ∃ cs',
      (bases.foldl (fun (state : Node × Nat) baseRecord =>
        let baseP := if state.2 > 0 then state.1.AppendText ", " else state.1
        let baseP :=
          match index.records.entriesAt baseRecord.id with
          | none => baseP.AppendText baseRecord.name
          | some p => baseP.AddChild ((Node.withText "a" p.name).SetAttr "href"
              (ext.recordRelativeUrl p))
        (baseP, state.2 + 1))
        (Node.element "p" [] (Node.text "Inherits from: " :: cs), k)).1 =
      Node.element "p" [] (Node.text "Inherits from: " :: cs') := by
  induction bases with
  | nil => intro cs k; exact ⟨cs, rfl⟩
  | cons b rest ih =>
    intro cs k
    rw [List.foldl_cons]
    have h₁ : ∃ cs₁, (if k > 0 then
        (Node.element "p" [] (Node.text "Inherits from: " :: cs)).AppendText ", "
        else Node.element "p" [] (Node.text "Inherits from: " :: cs)) =
        Node.element "p" [] (Node.text "Inherits from: " :: cs₁) := by
      split_ifs
      · exact ⟨cs ++ [Node.text ", "], rfl⟩
      · exact ⟨cs, rfl⟩
    obtain ⟨cs₁, h₁⟩ := h₁
    simp only [h₁]
    cases index.records.entriesAt b.id with
    | none => exact ih _ _
    | some p =>
      have h₂ : (Node.element "p" [] (Node.text "Inherits from: " :: cs₁)).AddChild
          ((Node.withText "a" p.name).SetAttr "href" (ext.recordRelativeUrl p)) =
          Node.element "p" [] (Node.text "Inherits from: " ::
            (cs₁ ++ [(Node.withText "a" p.name).SetAttr "href" (ext.recordRelativeUrl p)])) := by
        simp [Node.AddChild, Node.withText, Node.SetAttr]
      simp only [h₂]
      exact ih _ _

theorem recordBases_grows (ext : Ext) (index : Index) (c : RecordSymbol) {n : Node}
    (hn : Grows [] n n) : Grows [] n (recordBases ext index c n) := by
  unfold recordBases
  split_ifs
  · obtain ⟨cs', h⟩ := recordBases_loop ext index c.baseRecords [] 0
    refine grows_addChild_none hn _ ?_
    have e : Node.withText "p" "Inherits from: " =
        Node.element "p" [] (Node.text "Inherits from: " :: []) := rfl
    rw [e, h]
    exact mark_inherits _ _
  · exact hn

theorem recordTemplateParams_grows (c : RecordSymbol) {n : Node} (hn : Grows [] n n) :
    Grows (if c.templateParams.length > 0 then [Mark.heading "Template Parameters"] else [])
      n (recordTemplateParams c n) := by
  unfold recordTemplateParams
  split_ifs
  · have a := grows_addChild_some hn (Node.withText "h2" "Template Parameters") _
      (mark_heading _)
    have b := grows_trans a (grows_addChild_none (grows_right a)
      (addTemplateParams (fun type => type) c.templateParams (Node.named "dl"))
      (Node.mark_of_name _ (by rw [addTemplateParams_name]; decide)
        (by rw [addTemplateParams_name]; decide)))
    simpa using b
  · exact hn

theorem inheritedFromParagraph_mark (ext : Ext) (c : RecordSymbol) :
    (inheritedFromParagraph ext c).mark = some (inheritedMark ext c) := by
  simp [inheritedFromParagraph, inheritedMark, Node.mark, Node.withText, Node.AddChild,
    Node.SetAttr, Node.AppendText, List.lookup]

/-! ## Member variables -/

theorem Node.AddChild_of_name (name : String) (as : List (String × String)) (cs : List Node)
    (c : Node) (hc : c.name ≠ "") :
    (Node.element name as cs).AddChild c = Node.element name as (cs ++ [c]) := by
  cases c with
  | element m bs ds =>
    simp only [Node.AddChild]
    split
    · rename_i heq
      simp only [Node.element.injEq] at heq
      exact absurd heq.1 hc
    · rfl
  | text t => rfl
  | raw r => rfl

theorem memberVariableEntry_name (lib : Lib) (ext : Ext) (index : Index) (c : RecordSymbol)
    (isInherited : Bool) (var : MemberVariable) :
    (memberVariableEntry lib ext index c isInherited var).name = "dt.is-family-code" := by
  simp only [memberVariableEntry]
  split_ifs <;> simp

theorem memberVariableStep_name (lib : Lib) (ext : Ext) (index : Index) (c : RecordSymbol)
    (isInherited : Bool) (vars : List MemberVariable) :
    ∀ state : Node × Nat,
      (vars.foldl (memberVariableStep lib ext index c isInherited) state).1.name =
        state.1.name := by
  induction vars with
  | nil => intro state; rfl
  | cons v rest ih =>
    intro state
    rw [List.foldl_cons, ih]
    simp only [memberVariableStep]
    split_ifs <;> simp

theorem memberVariables_inherited_loop (lib : Lib) (ext : Ext) (index : Index)
    (c : RecordSymbol) (vars : List MemberVariable) :
    ∀ (cs : List Node) (k : Nat),
      vars.foldl (memberVariableStep lib ext index c true) (Node.element "dl" [] cs, k) =
        (Node.element "dl" []
          (cs ++ (vars.filter fun var => decide (var.access ≠ AccessSpecifier.AS_private)).map
            (memberVariableEntry lib ext index c true)),
          k + (vars.filter fun var => decide (var.access ≠ AccessSpecifier.AS_private)).length) := by
  induction vars with
  | nil => intro cs k; simp
  | cons v rest ih =>
    intro cs k
    rw [List.foldl_cons]
    by_cases hv : v.access = AccessSpecifier.AS_private
    · have : memberVariableStep lib ext index c true (Node.element "dl" [] cs, k) v =
          (Node.element "dl" [] cs, k) := by
        simp [memberVariableStep, hv]
      rw [this, ih]
      simp [hv]
    · have : memberVariableStep lib ext index c true (Node.element "dl" [] cs, k) v =
          (Node.element "dl" [] (cs ++ [memberVariableEntry lib ext index c true v]), k + 1) := by
        simp only [memberVariableStep]
        rw [if_neg (by simp [hv])]
        simp only [Bool.true_eq_false, false_and, if_false]
        rw [Node.AddChild_of_name _ _ _ _
          (by rw [memberVariableEntry_name]; decide)]
      rw [this, ih]
      simp [hv]
      omega

/-- What `printMemberVariables` adds to `main` for an inherited record: nothing when the
record has no member variable that is not private, and otherwise the paragraph "Inherited
from" and the list of the entries of those variables. -/
theorem printMemberVariables_inherited (lib : Lib) (ext : Ext) (index : Index)
    (c : RecordSymbol) (name : String) (as : List (String × String)) (cs : List Node) :
    printMemberVariables lib ext index c (Node.element name as cs) true =
      if visibleVars c = [] then Node.element name as cs
      else Node.element name as (cs ++ [inheritedFromParagraph ext c,
        Node.element "dl" [] ((visibleVars c).map (memberVariableEntry lib ext index c true))]) := by
  have hloop := memberVariables_inherited_loop lib ext index c (sortedVars c) [] 0
  simp only [printMemberVariables, Node.named]
  rw [hloop]
  simp only [List.nil_append, Nat.zero_add]
  by_cases hv : visibleVars c = []
  · have hlen : (List.filter (fun var => decide (var.access ≠ AccessSpecifier.AS_private))
        (sortedVars c)).length = 0 := by
      rw [← visibleVars, hv]; rfl
    rw [if_pos hv, hlen]
    simp
  · have hlen : (List.filter (fun var => decide (var.access ≠ AccessSpecifier.AS_private))
        (sortedVars c)).length > 0 := by
      rw [← visibleVars]
      exact List.length_pos.2 hv
    rw [if_neg hv, if_pos hlen]
    have hp : (inheritedFromParagraph ext c).name ≠ "" := by
      simp [inheritedFromParagraph]
    simp only [if_true]
    rw [Node.AddChild_of_name _ _ _ _ hp, Node.AddChild_of_name _ _ _ _ (by simp [Node.name])]
    simp [visibleVars]

theorem printMemberVariables_grows (lib : Lib) (ext : Ext) (index : Index) (c : RecordSymbol)
    (isInherited : Bool) {n : Node} (hn : Grows [] n n) :
    Grows (if isInherited = true ∧ visibleVars c ≠ [] then [inheritedMark ext c] else [])
      n (printMemberVariables lib ext index c n isInherited) := by
  cases isInherited with
  | true =>
    obtain ⟨name, as, cs, _, rfl, _, _⟩ := hn
    rw [printMemberVariables_inherited]
    by_cases hv : visibleVars c = []
    · simp only [hv, if_true, ne_eq, not_true_eq_false, and_false, if_false]
      exact grows_refl _ _ _
    · rw [if_neg hv, if_pos ⟨rfl, hv⟩]
      refine ⟨name, as, cs, [inheritedFromParagraph ext c, Node.element "dl" []
        ((visibleVars c).map (memberVariableEntry lib ext index c true))], rfl, rfl, ?_⟩
      have hdl : (Node.element "dl" []
          ((visibleVars c).map (memberVariableEntry lib ext index c true))).mark = none :=
        Node.mark_of_name _ (by simp [Node.name]) (by simp [Node.name])
      simp [List.filterMap_cons, inheritedFromParagraph_mark, hdl]
  | false =>
    rw [if_neg (fun h => Bool.false_ne_true h.1)]
    simp only [printMemberVariables, Bool.false_eq_true, if_false]
    split_ifs
    · refine grows_addChild_none hn _ (Node.mark_of_name _ ?_ ?_)
      · rw [memberVariableStep_name]; decide
      · rw [memberVariableStep_name]; decide
    · exact hn

/-! ## Loops that may raise -/

theorem forEach_induct {α σ : Type} (step : α → σ → Result σ) (R : σ → σ → Prop)
    (hrefl : ∀ s, R s s) (htrans : ∀ a b c, R a b → R b c → R a c)
    (hstep : ∀ a s s', step a s = Result.ok s' → R s s') :
    ∀ l s s', forEach step l s = Result.ok s' → R s s' := by
  intro l
  induction l with
  | nil =>
    intro s s' h
    simp only [forEach, Result.ok.injEq] at h
    subst h
    exact hrefl s
  | cons a rest ih =>
    intro s s' h
    rw [forEach, Result.bind_eq_ok] at h
    obtain ⟨m, hm, hrest⟩ := h
    exact htrans _ _ _ (hstep a s m hm) (ih m s' hrest)

theorem forEach_name {α : Type} (step : α → Node → Result Node)
    (hstep : ∀ a n n', step a n = Result.ok n' → n'.name = n.name) (l : List α) (n n' : Node)
    (h : forEach step l n = Result.ok n') : n'.name = n.name :=
  forEach_induct step (fun s s' => s'.name = s.name) (fun _ => rfl)
    (fun _ _ _ h₁ h₂ => h₂.trans h₁) hstep l n n' h

theorem forEach_grows {α : Type} (step : α → Node → Result Node)
    (hstep : ∀ a n n', Grows [] n n → step a n = Result.ok n' → Grows [] n n') (l : List α)
    (n n' : Node) (hn : Grows [] n n) (h : forEach step l n = Result.ok n') : Grows [] n n' :=
  forEach_induct step (fun s s' => Grows [] s s → Grows [] s s') (fun _ hs => hs)
    (fun _ _ _ h₁ h₂ ha => grows_trans (h₁ ha) (h₂ (grows_right (h₁ ha))))
    (fun a s s' hs hg => hstep a s s' hg hs) l n n' h hn

/-! ## Inherited methods -/

theorem inheritedMethodEntry_name (ext : Ext) (c : RecordSymbol) (f : FunctionSymbol) :
    (inheritedMethodEntry ext c f).name = "li.is-family-code" := by
  simp [inheritedMethodEntry]

theorem listedMethods_cons (index : Index) (id : SymbolID) (rest : List SymbolID)
    (f : FunctionSymbol) (hf : index.functions.entriesAt id = some f) :
    listedMethods index (id :: rest) =
      if f.access = AccessSpecifier.AS_private ∨ f.isCtorOrDtor = true then
        listedMethods index rest
      else f :: listedMethods index rest := by
  unfold listedMethods
  rw [List.filterMap_cons, hf]
  by_cases h₁ : f.access = AccessSpecifier.AS_private
  · simp [h₁]
  · cases h₂ : f.isCtorOrDtor <;> simp [h₁, h₂]

/-- The loop of `printInheritedMethods` returns exactly when every ID is a key of
`index.functions`, and then `ul` has got the entries of the listed methods. -/
theorem inheritedMethods_loop (ext : Ext) (index : Index) (c : RecordSymbol) :
    ∀ (ids : List SymbolID) (cs : List Node) (ul : Node),
      forEach (inheritedMethodStep ext index c) ids (Node.element "ul" [] cs) = Result.ok ul ↔
        (∀ id ∈ ids, index.functions.contains id = true) ∧
          ul = Node.element "ul" []
            (cs ++ (listedMethods index ids).map (inheritedMethodEntry ext c)) := by
  intro ids
  induction ids with
  | nil =>
    intro cs ul
    have e : listedMethods index [] = [] := rfl
    rw [forEach, e, List.map_nil, List.append_nil]
    constructor
    · intro h
      cases h
      exact ⟨fun _ hx => absurd hx (List.not_mem_nil _), rfl⟩
    · rintro ⟨_, rfl⟩
      rfl
  | cons id rest ih =>
    intro cs ul
    rw [forEach, Result.bind_eq_ok]
    constructor
    · rintro ⟨m, hm, hrest⟩
      rw [inheritedMethodStep, Result.bind_eq_ok] at hm
      obtain ⟨f, hf, hm⟩ := hm
      rw [atKey_eq_ok] at hf
      have hcont : index.functions.contains id = true :=
        (contains_iff_entriesAt _ _).2 ⟨f, hf⟩
      by_cases hskip : f.access = AccessSpecifier.AS_private ∨ f.isCtorOrDtor = true
      · rw [if_pos hskip] at hm
        cases hm
        obtain ⟨hall, hul⟩ := (ih cs ul).1 hrest
        refine ⟨fun x hx => ?_, ?_⟩
        · rcases List.mem_cons.1 hx with rfl | hx
          · exact hcont
          · exact hall x hx
        · rw [hul, listedMethods_cons index id rest f hf, if_pos hskip]
      · rw [if_neg hskip] at hm
        cases hm
        rw [Node.AddChild_of_name _ _ _ _
          (by rw [inheritedMethodEntry_name]; decide)] at hrest
        obtain ⟨hall, hul⟩ := (ih _ ul).1 hrest
        refine ⟨fun x hx => ?_, ?_⟩
        · rcases List.mem_cons.1 hx with rfl | hx
          · exact hcont
          · exact hall x hx
        · rw [hul, listedMethods_cons index id rest f hf, if_neg hskip]
          simp
    · rintro ⟨hall, hul⟩
      obtain ⟨f, hf⟩ := (contains_iff_entriesAt _ _).1 (hall id (List.mem_cons_self _ _))
      have hrest := fun x hx => hall x (List.mem_cons_of_mem _ hx)
      by_cases hskip : f.access = AccessSpecifier.AS_private ∨ f.isCtorOrDtor = true
      · refine ⟨Node.element "ul" [] cs, ?_, ?_⟩
        · rw [inheritedMethodStep, Result.bind_eq_ok]
          exact ⟨f, (atKey_eq_ok _ _ _).2 hf, by rw [if_pos hskip]⟩
        · refine (ih cs ul).2 ⟨hrest, ?_⟩
          rw [hul, listedMethods_cons index id rest f hf, if_pos hskip]
      · refine ⟨Node.element "ul" [] (cs ++ [inheritedMethodEntry ext c f]), ?_, ?_⟩
        · rw [inheritedMethodStep, Result.bind_eq_ok]
          refine ⟨f, (atKey_eq_ok _ _ _).2 hf, ?_⟩
          rw [if_neg hskip, Node.AddChild_of_name _ _ _ _
            (by rw [inheritedMethodEntry_name]; decide)]
        · refine (ih _ ul).2 ⟨hrest, ?_⟩
          rw [hul, listedMethods_cons index id rest f hf, if_neg hskip]
          simp

/-- What `printInheritedMethods` does: it returns exactly when every ID of the sorted list
of method IDs is a key of `index.functions`, and then it has added nothing for a record
without method IDs, and otherwise the paragraph "Inherited from" and the list of the entries
of the listed methods. -/
theorem printInheritedMethods_eq (lib : Lib) (ext : Ext) (index : Index) (c : RecordSymbol)
    (name : String) (as : List (String × String)) (cs : List Node) (main : Node) :
    printInheritedMethods lib ext index c (Node.element name as cs) = Result.ok main ↔
      (∀ id ∈ getSortedIDs lib c.methodIDs index.functions (fun f => f.name),
        index.functions.contains id = true) ∧
      main =
        if c.methodIDs.length > 0 then
          Node.element name as (cs ++ [inheritedFromParagraph ext c,
            Node.element "ul" []
              ((listedMethods index
                (getSortedIDs lib c.methodIDs index.functions fun f => f.name)).map
                (inheritedMethodEntry ext c))])
        else Node.element name as cs := by
  have hp : (inheritedFromParagraph ext c).name ≠ "" := by simp [inheritedFromParagraph]
  rw [printInheritedMethods, Result.bind_eq_ok]
  constructor
  · rintro ⟨ul, hul, hmain⟩
    obtain ⟨hall, rfl⟩ := (inheritedMethods_loop ext index c _ [] ul).1 hul
    refine ⟨hall, ?_⟩
    split_ifs at hmain ⊢
    · rw [Node.AddChild_of_name _ _ _ _ hp,
        Node.AddChild_of_name _ _ _ _ (by simp [Node.name])] at hmain
      simpa using hmain.symm
    · simpa using hmain.symm
  · rintro ⟨hall, hmain⟩
    refine ⟨_, (inheritedMethods_loop ext index c _ [] _).2 ⟨hall, rfl⟩, ?_⟩
    rw [hmain]
    split_ifs
    · rw [Node.AddChild_of_name _ _ _ _ hp,
        Node.AddChild_of_name _ _ _ _ (by simp [Node.name])]
      simp
    · rfl

theorem printInheritedMethods_grows (lib : Lib) (ext : Ext) (index : Index) (c : RecordSymbol)
    {n n' : Node} (hn : Grows [] n n)
    (h : printInheritedMethods lib ext index c n = Result.ok n') :
    Grows (if c.methodIDs.length > 0 then [inheritedMark ext c] else []) n n' := by
  obtain ⟨name, as, cs, _, rfl, _, _⟩ := hn
  obtain ⟨_, rfl⟩ := (printInheritedMethods_eq lib ext index c name as cs n').1 h
  split_ifs
  · refine ⟨name, as, cs, _, rfl, rfl, ?_⟩
    have hul : ∀ l, (Node.element "ul" [] l).mark = none := fun l =>
      Node.mark_of_name _ (by simp [Node.name]) (by simp [Node.name])
    simp [List.filterMap_cons, inheritedFromParagraph_mark, hul]
  · exact grows_refl _ _ _

/-! ## The parts of `printRecord` -/

theorem printFunctionOverview_mark (lib : Lib) (ext : Ext) (ids : List SymbolID) (index : Index)
    (ul : Node) (h : printFunctionOverview lib ext ids index = Result.ok ul) :
    ul.mark = none := by
  have hname : ul.name = "ul" := by
    refine forEach_name _ (fun a n n' hstep => ?_) ids (Node.named "ul") ul h
    rw [Result.bind_eq_ok] at hstep
    obtain ⟨m, _, hstep⟩ := hstep
    rw [Result.bind_eq_ok] at hstep
    obtain ⟨li, _, hstep⟩ := hstep
    cases hstep
    simp
  exact Node.mark_of_name _ (by rw [hname]; decide) (by rw [hname]; decide)

theorem inheritedVariables_loop (lib : Lib) (ext : Ext) (index : Index) :
    ∀ (res : List BaseRecord) (ics : List RecordSymbol) (state state' : Node × Bool),
      Grows [] state.1 state.1 →
      res.map (fun base => index.records.entriesAt base.id) = ics.map some →
      forEach (fun (base : BaseRecord) (state : Node × Bool) =>
        (index.records.atKey base.id).bind fun ic =>
          let state : Node × Bool :=
            if state.2 = false ∧ ic.vars.length > 0 then
              (state.1.AddChild (Node.withText "h2" "Member Variables"), true)
            else state
          Result.ok (printMemberVariables lib ext index ic state.1 true, state.2))
        res state = Result.ok state' →
      Grows (inheritedVariablesOutline ext ics state.2) state.1 state'.1 := by
  intro res
  induction res with
  | nil =>
    intro ics state state' hn hics h
    cases ics with
    | nil =>
      simp only [forEach, Result.ok.injEq] at h
      subst h
      exact hn
    | cons ic rest => simp at hics
  | cons base res ih =>
    intro ics state state' hn hics h
    cases ics with
    | nil => simp at hics
    | cons ic ics =>
      simp only [List.map_cons, List.cons.injEq] at hics
      obtain ⟨hic, hics⟩ := hics
      rw [forEach, Result.bind_eq_ok] at h
      obtain ⟨mid, hmid, hrest⟩ := h
      rw [Result.bind_eq_ok] at hmid
      obtain ⟨ic', hic', hmid⟩ := hmid
      rw [atKey_eq_ok, hic] at hic'
      cases hic'
      simp only [Result.ok.injEq] at hmid
      subst hmid
      rw [inheritedVariablesOutline]
      obtain ⟨m, flag⟩ := state
      simp only at hn hrest ⊢
      by_cases hflag : flag = false ∧ ic.vars.length > 0
      · obtain ⟨rfl, hvars⟩ := hflag
        simp only [hvars, and_self, if_true] at hrest ⊢
        have g₁ := grows_addChild_some hn (Node.withText "h2" "Member Variables") _
          (mark_heading _)
        have g₂ := grows_trans g₁
          (printMemberVariables_grows lib ext index ic true (grows_right g₁))
        have g₃ := ih ics _ state' (grows_right g₂) hics hrest
        have g := grows_trans g₂ g₃
        simpa [hvars, List.append_assoc] using g
      · simp only [hflag, if_false] at hrest ⊢
        have g₂ := printMemberVariables_grows lib ext index ic true hn
        have g₃ := ih ics _ state' (grows_right g₂) hics hrest
        have hf : (flag || decide (ic.vars.length > 0)) = flag := by
          rw [not_and] at hflag
          cases flag with
          | true => rfl
          | false => simp [hflag rfl]
        have g := grows_trans g₂ g₃
        rw [hf]
        simpa [List.append_assoc] using g

theorem recordMemberVariables_grows (lib : Lib) (ext : Ext) (index : Index) (c : RecordSymbol)
    (res : List BaseRecord) (ics : List RecordSymbol) {n n' : Node} (hn : Grows [] n n)
    (hics : res.map (fun base => index.records.entriesAt base.id) = ics.map some)
    (h : recordMemberVariables lib ext index c res n = Result.ok n') :
    Grows ((if c.vars.length > 0 then [Mark.heading "Member Variables"] else []) ++
      inheritedVariablesOutline ext ics (decide (c.vars.length > 0))) n n' := by
  rw [recordMemberVariables, Result.bind_eq_ok] at h
  obtain ⟨state', hloop, hn'⟩ := h
  cases hn'
  by_cases hv : c.vars.length > 0
  · simp only [hv, if_true] at hloop ⊢
    have g₁ := grows_addChild_some hn (Node.withText "h2" "Member Variables") _
      (mark_heading _)
    have g₂ := grows_trans g₁
      (printMemberVariables_grows lib ext index c false (grows_right g₁))
    have g₃ := inheritedVariables_loop lib ext index res ics _ state' (grows_right g₂) hics hloop
    simpa [List.append_assoc] using grows_trans g₂ g₃
  · simp only [hv, if_false] at hloop ⊢
    have g₃ := inheritedVariables_loop lib ext index res ics _ state' hn hics hloop
    simpa using g₃

theorem recordAliases_grows (lib : Lib) (index : Index) (c : RecordSymbol) {n n' : Node}
    (hn : Grows [] n n) (h : recordAliases lib index c n = Result.ok n') :
    Grows (if c.aliasIDs.length > 0 then [Mark.heading "Member Aliases"] else []) n n' := by
  unfold recordAliases at h
  split_ifs at h ⊢
  · rw [Result.bind_eq_ok] at h
    obtain ⟨ul, hul, hn'⟩ := h
    cases hn'
    have hname : ul.name = "ul" := by
      refine forEach_name _ (fun a m m' hstep => ?_) _ (Node.named "ul") ul hul
      rw [Result.bind_eq_ok] at hstep
      obtain ⟨al, _, hstep⟩ := hstep
      cases hstep
      simp
    have g₁ := grows_addChild_some hn (Node.withText "h2" "Member Aliases") _ (mark_heading _)
    have g₂ := grows_trans g₁ (grows_addChild_none (grows_right g₁) ul
      (Node.mark_of_name _ (by rw [hname]; decide) (by rw [hname]; decide)))
    simpa using g₂
  · cases h
    exact hn

theorem inheritedMethods_outline_loop (lib : Lib) (ext : Ext) (index : Index)
    (c : RecordSymbol) :
    ∀ (res : List BaseRecord) (ics : List RecordSymbol) (state state' : Node × Bool),
      Grows [] state.1 state.1 →
      res.map (fun base => index.records.entriesAt base.id) = ics.map some →
      forEach (fun (base : BaseRecord) (state : Node × Bool) =>
        (index.records.atKey base.id).bind fun ic =>
          let state : Node × Bool :=
            if state.2 = false ∧ c.methodIDs.length > 0 then
              (state.1.AddChild (Node.withText "h2" "Member Function Overview"), true)
            else state
          (printInheritedMethods lib ext index ic state.1).bind fun main =>
            Result.ok (main, state.2))
        res state = Result.ok state' →
      Grows (inheritedMethodsOutline ext (decide (c.methodIDs.length > 0)) ics state.2)
        state.1 state'.1 := by
  intro res
  induction res with
  | nil =>
    intro ics state state' hn hics h
    cases ics with
    | nil =>
      simp only [forEach, Result.ok.injEq] at h
      subst h
      exact hn
    | cons ic rest => simp at hics
  | cons base res ih =>
    intro ics state state' hn hics h
    cases ics with
    | nil => simp at hics
    | cons ic ics =>
      simp only [List.map_cons, List.cons.injEq] at hics
      obtain ⟨hic, hics⟩ := hics
      rw [forEach, Result.bind_eq_ok] at h
      obtain ⟨mid, hmid, hrest⟩ := h
      rw [Result.bind_eq_ok] at hmid
      obtain ⟨ic', hic', hmid⟩ := hmid
      rw [atKey_eq_ok, hic] at hic'
      cases hic'
      rw [inheritedMethodsOutline]
      obtain ⟨m, flag⟩ := state
      simp only at hn hmid hrest ⊢
      by_cases hflag : flag = false ∧ c.methodIDs.length > 0
      · obtain ⟨rfl, hown⟩ := hflag
        simp only [hown, and_self, if_true] at hmid
        rw [Result.bind_eq_ok] at hmid
        obtain ⟨main, hmain, hmid⟩ := hmid
        cases hmid
        have g₁ := grows_addChild_some hn (Node.withText "h2" "Member Function Overview") _
          (mark_heading _)
        have g₂ := grows_trans g₁
          (printInheritedMethods_grows lib ext index ic (grows_right g₁) hmain)
        have g₃ := ih ics _ state' (grows_right g₂) hics hrest
        have g := grows_trans g₂ g₃
        simpa [hown, List.append_assoc] using g
      · simp only [hflag, if_false] at hmid
        rw [Result.bind_eq_ok] at hmid
        obtain ⟨main, hmain, hmid⟩ := hmid
        cases hmid
        have g₂ := printInheritedMethods_grows lib ext index ic hn hmain
        have g₃ := ih ics _ state' (grows_right g₂) hics hrest
        have hf : (flag || decide (c.methodIDs.length > 0)) = flag := by
          rw [not_and] at hflag
          cases flag with
          | true => rfl
          | false => simp [hflag rfl]
        have hfirst : ¬ (flag = false ∧ decide (c.methodIDs.length > 0) = true) := by
          simpa using hflag
        have g := grows_trans g₂ g₃
        rw [hf, if_neg hfirst]
        simpa [List.append_assoc] using g

theorem recordMethodOverview_grows (lib : Lib) (ext : Ext) (index : Index) (c : RecordSymbol)
    (res : List BaseRecord) (ics : List RecordSymbol) {n n' : Node} (hn : Grows [] n n)
    (hics : res.map (fun base => index.records.entriesAt base.id) = ics.map some)
    (h : recordMethodOverview lib ext index c res n = Result.ok n') :
    Grows ((if (getSortedIDs lib c.methodIDs index.functions fun f => f.name).length > 0 then
        [Mark.heading "Member Function Overview"] else []) ++
      inheritedMethodsOutline ext (decide (c.methodIDs.length > 0)) ics
        (decide ((getSortedIDs lib c.methodIDs index.functions fun f => f.name).length > 0)))
      n n' := by
  simp only [recordMethodOverview] at h
  rw [Result.bind_eq_ok] at h
  obtain ⟨state, hfirst, h⟩ := h
  rw [Result.bind_eq_ok] at h
  obtain ⟨state', hloop, hn'⟩ := h
  cases hn'
  by_cases hs : (getSortedIDs lib c.methodIDs index.functions fun f => f.name).length > 0
  · simp only [hs, if_true] at hfirst ⊢
    rw [Result.bind_eq_ok] at hfirst
    obtain ⟨ul, hul, hstate⟩ := hfirst
    cases hstate
    have g₁ := grows_addChild_some hn (Node.withText "h2" "Member Function Overview") _
      (mark_heading _)
    have g₂ := grows_trans g₁ (grows_addChild_none (grows_right g₁) ul
      (printFunctionOverview_mark lib ext _ index ul hul))
    have g₃ := inheritedMethods_outline_loop lib ext index c res ics _ state'
      (grows_right g₂) hics hloop
    simpa [List.append_assoc] using grows_trans g₂ g₃
  · simp only [hs, if_false] at hfirst ⊢
    cases hfirst
    have g₃ := inheritedMethods_outline_loop lib ext index c res ics _ state' hn hics hloop
    simpa using g₃

theorem recordFriendOverview_grows (lib : Lib) (ext : Ext) (index : Index) (c : RecordSymbol)
    {n n' : Node} (hn : Grows [] n n) (h : recordFriendOverview lib ext index c n = Result.ok n') :
    Grows (if (getSortedIDs lib c.hiddenFriendIDs index.functions fun f => f.name).length > 0
      then [Mark.heading "Friend Function Overview"] else []) n n' := by
  simp only [recordFriendOverview] at h
  split_ifs at h ⊢
  · rw [Result.bind_eq_ok] at h
    obtain ⟨ul, hul, hn'⟩ := h
    cases hn'
    have g₁ := grows_addChild_some hn (Node.withText "h2" "Friend Function Overview") _
      (mark_heading _)
    have g₂ := grows_trans g₁ (grows_addChild_none (grows_right g₁) ul
      (printFunctionOverview_mark lib ext _ index ul hul))
    simpa using g₂
  · cases h
    exact hn

theorem recordMemberFunctions_grows (lib : Lib) (ext : Ext) (cfg : Config) (index : Index)
    (c : RecordSymbol) {n n' : Node} (hn : Grows [] n n)
    (h : recordMemberFunctions lib ext cfg index c n = Result.ok n') :
    Grows (if (getSortedIDs lib c.methodIDs index.functions fun f => f.name).length > 0
      then [Mark.heading "Member Functions"] else []) n n' := by
  simp only [recordMemberFunctions] at h
  split_ifs at h ⊢
  · have g₁ := grows_addChild_some hn (Node.withText "h2" "Member Functions") _
      (mark_heading _)
    have g₂ := forEach_grows _ (fun a m m' hm hstep => ?_) _ _ n' (grows_right g₁) h
    · simpa using grows_trans g₁ g₂
    · split_ifs at hstep
      · cases hstep
        exact hm
      · rw [Result.bind_eq_ok] at hstep
        obtain ⟨f, _, hstep⟩ := hstep
        cases hstep
        exact printFunction_grows lib ext index f _ _ hm
  · cases h
    exact hn

theorem recordFriendFunctions_grows (lib : Lib) (ext : Ext) (cfg : Config) (index : Index)
    (c : RecordSymbol) {n n' : Node} (hn : Grows [] n n)
    (h : recordFriendFunctions lib ext cfg index c n = Result.ok n') :
    Grows (if (getSortedIDs lib c.hiddenFriendIDs index.functions fun f => f.name).length > 0
      then [Mark.heading "Friend Functions"] else []) n n' := by
  simp only [recordFriendFunctions] at h
  split_ifs at h ⊢
  · have g₁ := grows_addChild_some hn (Node.withText "h2" "Friend Functions") _
      (mark_heading _)
    have g₂ := forEach_grows _ (fun a m m' hm hstep => ?_) _ _ n' (grows_right g₁) h
    · simpa using grows_trans g₁ g₂
    · rw [Result.bind_eq_ok] at hstep
      obtain ⟨f, _, hstep⟩ := hstep
      cases hstep
      exact printFunction_grows lib ext index f _ _ hm
  · cases h
    exact hn

/-- The outline of the node `main` that `printRecord` builds, when it builds one: the
headings and the paragraphs "Inherited from" of `recordOutline`, in that order. -/
theorem recordMain_outline (lib : Lib) (ext : Ext) (cfg : Config) (fuel : Nat) (index : Index)
    (c : RecordSymbol) (res : List BaseRecord) (ics : List RecordSymbol) (main : Node)
    (hres : getInheritedSymbols fuel index c = some res)
    (hics : res.map (fun base => index.records.entriesAt base.id) = ics.map some)
    (h : recordMain lib ext cfg fuel index c = Result.ok main) :
    outline main = recordOutline lib ext index c ics := by
  simp only [recordMain, hres] at h
  rw [Result.bind_eq_ok] at h
  obtain ⟨m₁, h₁, h⟩ := h
  rw [Result.bind_eq_ok] at h
  obtain ⟨m₂, h₂, h⟩ := h
  rw [Result.bind_eq_ok] at h
  obtain ⟨m₃, h₃, h⟩ := h
  rw [Result.bind_eq_ok] at h
  obtain ⟨m₄, h₄, h⟩ := h
  rw [Result.bind_eq_ok] at h
  obtain ⟨m₅, h₅, h₆⟩ := h
  have g₀ : Grows [] (Node.named "main") (Node.named "main") := grows_refl _ _ _
  have ga := recordHeader_grows lib cfg c g₀
  have gb := grows_trans ga (recordBases_grows ext index c (grows_right ga))
  have gc := grows_trans gb (recordTemplateParams_grows c (grows_right gb))
  have g₁ := grows_trans gc
    (recordMemberVariables_grows lib ext index c res ics (grows_right gc) hics h₁)
  have g₂ := grows_trans g₁ (recordAliases_grows lib index c (grows_right g₁) h₂)
  have g₃ := grows_trans g₂
    (recordMethodOverview_grows lib ext index c res ics (grows_right g₂) hics h₃)
  have g₄ := grows_trans g₃ (recordFriendOverview_grows lib ext index c (grows_right g₃) h₄)
  have g₅ := grows_trans g₄ (recordMemberFunctions_grows lib ext cfg index c (grows_right g₄) h₅)
  have g₆ := grows_trans g₅ (recordFriendFunctions_grows lib ext cfg index c (grows_right g₅) h₆)
  rw [grows_outline g₆]
  simp [outline, Node.named, Node.children, recordOutline, List.append_assoc]

/-! ## Blocks of inherited members -/

theorem visibleVars_perm (c : RecordSymbol) :
    (visibleVars c).Perm
      (c.vars.filter fun var => decide (var.access ≠ AccessSpecifier.AS_private)) :=
  (List.perm_insertionSort _ _).filter _

theorem mem_listedMethods (index : Index) (ids : List SymbolID) (f : FunctionSymbol) :
    f ∈ listedMethods index ids ↔
      (∃ id ∈ ids, index.functions.entriesAt id = some f) ∧
        f.access ≠ AccessSpecifier.AS_private ∧ f.isCtorOrDtor = false := by
  simp [listedMethods, List.mem_filter, List.mem_filterMap]

/-- The paragraph "Inherited from", written out: the text, the link to the record with its
name, and a colon. -/
theorem inheritedFromParagraph_eq (ext : Ext) (c : RecordSymbol) :
    inheritedFromParagraph ext c =
      Node.element "p" [] [Node.text "Inherited from ",
        Node.element "a" [("href", ext.recordRelativeUrl c)] [Node.text c.name],
        Node.text ":"] := by
  rw [inheritedFromParagraph, Node.withText, Node.withText, Node.SetAttr,
    Node.AddChild_of_name _ _ _ _ (by simp [Node.name]), Node.AppendText]
  rfl

/-- The entry of an inherited member variable that is not private, written out: a link to
the variable on the page of the record, with the name of the variable in bold, the default
value if there is one, and the class of protected members. -/
theorem memberVariableEntry_inherited (lib : Lib) (ext : Ext) (index : Index)
    (c : RecordSymbol) (var : MemberVariable) (h : var.access ≠ AccessSpecifier.AS_private) :
    memberVariableEntry lib ext index c true var =
      Node.element "dt.is-family-code"
        (if var.access = AccessSpecifier.AS_protected then [("class", "hdoc-protected")] else [])
        (Node.element "a" [("href", ext.recordRelativeUrl c ++ "#var_" ++ var.name)]
            [Node.text (if var.isStatic = true then " static " else " "),
              Node.element "b" [] [Node.text var.name]] ::
          if var.defaultValue ≠ "" then [Node.text (" = " ++ var.defaultValue)] else []) := by
  have ha : ((Node.withText "a" (if var.isStatic = true then " static " else " ")).SetAttr "href"
      (ext.recordRelativeUrl c ++ "#var_" ++ var.name)).AddChild (Node.withText "b" var.name) =
      Node.element "a" [("href", ext.recordRelativeUrl c ++ "#var_" ++ var.name)]
        [Node.text (if var.isStatic = true then " static " else " "),
          Node.element "b" [] [Node.text var.name]] := by
    rw [Node.withText, Node.withText, Node.SetAttr,
      Node.AddChild_of_name _ _ _ _ (by simp [Node.name])]
    rfl
  simp only [memberVariableEntry, Bool.true_eq_false, if_false, ha, Node.named,
    Node.AddChild_of_name _ _ _ _ (show (Node.element "a" _ _).name ≠ "" by simp [Node.name]),
    if_neg h]
  by_cases hd : var.defaultValue = "" <;>
    by_cases hp : var.access = AccessSpecifier.AS_protected <;>
    simp [hd, hp, Node.AppendText, Node.ToggleClass]

/-- The entry of an inherited method, written out: a link to the method on the page of the
record, with the access of the method and its name in bold. -/
theorem inheritedMethodEntry_eq (ext : Ext) (c : RecordSymbol) (f : FunctionSymbol) :
    inheritedMethodEntry ext c f =
      Node.element "li.is-family-code" []
        [Node.element "a" [("href", ext.recordRelativeUrl c ++ "#" ++ ext.str f.ID)]
          [Node.text (to_string f.access ++ " "), Node.element "b" [] [Node.text f.name]]] := by
  have ha : ((Node.withText "a" (to_string f.access ++ " ")).SetAttr "href"
      (ext.recordRelativeUrl c ++ "#" ++ ext.str f.ID)).AddChild (Node.withText "b" f.name) =
      Node.element "a" [("href", ext.recordRelativeUrl c ++ "#" ++ ext.str f.ID)]
        [Node.text (to_string f.access ++ " "), Node.element "b" [] [Node.text f.name]] := by
    rw [Node.withText, Node.withText, Node.SetAttr,
      Node.AddChild_of_name _ _ _ _ (by simp [Node.name])]
    rfl
  rw [inheritedMethodEntry, ha, Node.named, Node.AddChild_of_name _ _ _ _ (by simp [Node.name])]
  rfl

/-- C23: for every record `X` (so for every ancestor that the flattener returns, whatever
the edge that leads to it), the block of inherited member variables that
`printMemberVariables` adds is the paragraph "Inherited from" with the link to `X` and the
list that has, for exactly the member variables of `X` that are not private (no block when
there is none), one entry with the name of the variable and the link to it; and
`printInheritedMethods` returns exactly when every method ID of `X` is a key of
`index.functions`, and then the block it adds is the paragraph and the list that has, for
exactly the methods of `X` that are neither private nor constructors or destructors, one
entry with the access and the name of the method and the link to it. -/
theorem inherited_blocks (lib : Lib) (ext : Ext) (index : Index) (X : RecordSymbol)
    (name : String) (as : List (String × String)) (cs : List Node) :
    printMemberVariables lib ext index X (Node.element name as cs) true =
      (if visibleVars X = [] then Node.element name as cs
      else Node.element name as (cs ++ [
        Node.element "p" [] [Node.text "Inherited from ",
          Node.element "a" [("href", ext.recordRelativeUrl X)] [Node.text X.name],
          Node.text ":"],
        Node.element "dl" [] ((visibleVars X).map fun var =>
          Node.element "dt.is-family-code"
            (if var.access = AccessSpecifier.AS_protected then [("class", "hdoc-protected")]
              else [])
            (Node.element "a" [("href", ext.recordRelativeUrl X ++ "#var_" ++ var.name)]
                [Node.text (if var.isStatic = true then " static " else " "),
                  Node.element "b" [] [Node.text var.name]] ::
              if var.defaultValue ≠ "" then [Node.text (" = " ++ var.defaultValue)]
              else []))])) ∧
    (visibleVars X).Perm
      (X.vars.filter fun var => decide (var.access ≠ AccessSpecifier.AS_private)) ∧
    (∀ main, printInheritedMethods lib ext index X (Node.element name as cs) = Result.ok main ↔
      (∀ id ∈ getSortedIDs lib X.methodIDs index.functions (fun f => f.name),
        index.functions.contains id = true) ∧
      main =
        if X.methodIDs.length > 0 then
          Node.element name as (cs ++ [
            Node.element "p" [] [Node.text "Inherited from ",
              Node.element "a" [("href", ext.recordRelativeUrl X)] [Node.text X.name],
              Node.text ":"],
            Node.element "ul" []
              ((listedMethods index
                (getSortedIDs lib X.methodIDs index.functions fun f => f.name)).map fun f =>
                Node.element "li.is-family-code" []
                  [Node.element "a"
                    [("href", ext.recordRelativeUrl X ++ "#" ++ ext.str f.ID)]
                    [Node.text (to_string f.access ++ " "),
                      Node.element "b" [] [Node.text f.name]]])])
        else Node.element name as cs) ∧
    (∀ f, f ∈ listedMethods index
        (getSortedIDs lib X.methodIDs index.functions fun f => f.name) ↔
      (∃ id ∈ getSortedIDs lib X.methodIDs index.functions (fun f => f.name),
        index.functions.entriesAt id = some f) ∧
      f.access ≠ AccessSpecifier.AS_private ∧ f.isCtorOrDtor = false) ∧
    ((getSortedIDs lib X.methodIDs index.functions fun f => f.name).Perm X.methodIDs →
      (listedMethods index
        (getSortedIDs lib X.methodIDs index.functions fun f => f.name)).Perm
        (listedMethods index X.methodIDs)) := by
  have hvars : (visibleVars X).map (memberVariableEntry lib ext index X true) =
      (visibleVars X).map fun var =>
        Node.element "dt.is-family-code"
          (if var.access = AccessSpecifier.AS_protected then [("class", "hdoc-protected")]
            else [])
          (Node.element "a" [("href", ext.recordRelativeUrl X ++ "#var_" ++ var.name)]
              [Node.text (if var.isStatic = true then " static " else " "),
                Node.element "b" [] [Node.text var.name]] ::
            if var.defaultValue ≠ "" then [Node.text (" = " ++ var.defaultValue)]
            else []) :=
    List.map_congr_left fun var hvar =>
      memberVariableEntry_inherited lib ext index X var
        (by simpa using (List.mem_filter.1 hvar).2)
  have hmeth : inheritedMethodEntry ext X = fun f =>
      Node.element "li.is-family-code" []
        [Node.element "a" [("href", ext.recordRelativeUrl X ++ "#" ++ ext.str f.ID)]
          [Node.text (to_string f.access ++ " "), Node.element "b" [] [Node.text f.name]]] :=
    funext fun f => inheritedMethodEntry_eq ext X f
  refine ⟨?_, visibleVars_perm X, fun main => ?_, fun f => mem_listedMethods index _ f,
    fun hperm => (hperm.filterMap _).filter _⟩
  · rw [printMemberVariables_inherited, hvars, inheritedFromParagraph_eq]
  · rw [printInheritedMethods_eq, hmeth, inheritedFromParagraph_eq]

/-- C23 on the sample record `Bar`: of its variables `limit`, `cache` (private) and `scale`
the block lists `limit` and `scale`; of its methods `start`, `secret` (private) and its
constructor the block lists `start`. -/
theorem inherited_blocks_witness :
    visibleVars recBar = [{ name := "limit" },
      { name := "scale", access := AccessSpecifier.AS_protected }] ∧
    listedMethods pageIndex
      (getSortedIDs sampleLib recBar.methodIDs pageIndex.functions fun f => f.name) =
      [fnStart] ∧
    printMemberVariables sampleLib sampleExt pageIndex recBar (Node.element "main" [] []) true =
      Node.element "main" [] [
        Node.element "p" [] [Node.text "Inherited from ",
          Node.element "a" [("href", sampleExt.recordRelativeUrl recBar)] [Node.text "Bar"],
          Node.text ":"],
        Node.element "dl" [] [
          Node.element "dt.is-family-code" []
            [Node.element "a" [("href", sampleExt.recordRelativeUrl recBar ++ "#var_limit")]
              [Node.text " ", Node.element "b" [] [Node.text "limit"]]],
          Node.element "dt.is-family-code" [("class", "hdoc-protected")]
            [Node.element "a" [("href", sampleExt.recordRelativeUrl recBar ++ "#var_scale")]
              [Node.text " ", Node.element "b" [] [Node.text "scale"]]]]] ∧
    printInheritedMethods sampleLib sampleExt pageIndex recBar (Node.element "main" [] []) =
      Result.ok (Node.element "main" [] [
        Node.element "p" [] [Node.text "Inherited from ",
          Node.element "a" [("href", sampleExt.recordRelativeUrl recBar)] [Node.text "Bar"],
          Node.text ":"],
        Node.element "ul" [] [
          Node.element "li.is-family-code" []
            [Node.element "a"
              [("href", sampleExt.recordRelativeUrl recBar ++ "#" ++ sampleExt.str ⟨202⟩)]
              [Node.text "public ", Node.element "b" [] [Node.text "start"]]]]]) :=
  ⟨by decide, by decide,
    (inherited_blocks sampleLib sampleExt pageIndex recBar "main" [] []).1.trans rfl,
    ((inherited_blocks sampleLib sampleExt pageIndex recBar "main" [] []).2.2.1 _).2
      ⟨by decide, rfl⟩⟩

/-! ## When `printRecord` returns -/

theorem forEach_total {α σ : Type} (step : α → σ → Result σ) (l : List α)
    (h : ∀ a ∈ l, ∀ s, ∃ s', step a s = Result.ok s') :
    ∀ s, ∃ s', forEach step l s = Result.ok s' := by
  induction l with
  | nil => intro s; exact ⟨s, rfl⟩
  | cons a rest ih =>
    intro s
    obtain ⟨m, hm⟩ := h a (List.mem_cons_self _ _) s
    obtain ⟨s', hs'⟩ := ih (fun b hb => h b (List.mem_cons_of_mem _ hb)) m
    exact ⟨s', by rw [forEach, hm]; exact hs'⟩

theorem bind_total {α β : Type} (r : Result α) (f : α → Result β)
    (hr : ∃ a, r = Result.ok a) (hf : ∀ a, ∃ b, f a = Result.ok b) :
    ∃ b, r.bind f = Result.ok b := by
  obtain ⟨a, rfl⟩ := hr
  exact hf a

theorem functionOverviewEntry_total (lib : Lib) (ext : Ext) (m : FunctionSymbol)
    (h : offsetsWithin m = true) : ∃ li, functionOverviewEntry lib ext m = Result.ok li := by
  simp only [offsetsWithin, Bool.and_eq_true, decide_eq_true_eq] at h
  have h₁ : substrAt m.proto 0 m.postTemplate = Result.ok (substr m.proto 0 m.postTemplate) := by
    simp [substrAt]
  have h₂ : substrAt m.proto m.postTemplate (wrap64 (m.nameStart - m.postTemplate)) =
      Result.ok (substr m.proto m.postTemplate (wrap64 (m.nameStart - m.postTemplate))) := by
    rw [substrAt, if_neg (by omega)]
  have h₃ : substrAt m.proto (wrap64 (m.nameStart + size m.name))
      (wrap64 (size m.proto - m.nameStart - size m.name)) =
      Result.ok (substr m.proto (wrap64 (m.nameStart + size m.name))
        (wrap64 (size m.proto - m.nameStart - size m.name))) := by
    rw [substrAt, if_neg (by omega)]
  simp only [functionOverviewEntry, h₁, h₂, h₃, Result.bind]
  exact ⟨_, rfl⟩

theorem printFunctionOverview_total (lib : Lib) (ext : Ext) (ids : List SymbolID)
    (index : Index)
    (h : ids.all (fun id => (index.functions.entriesAt id).any offsetsWithin) = true) :
    ∃ ul, printFunctionOverview lib ext ids index = Result.ok ul := by
  refine forEach_total _ ids (fun id hid ul => ?_) _
  rw [List.all_eq_true] at h
  have := h id hid
  cases hm : index.functions.entriesAt id with
  | none => rw [hm] at this; cases this
  | some m =>
    rw [hm] at this
    obtain ⟨li, hli⟩ := functionOverviewEntry_total lib ext m (by simpa using this)
    exact ⟨ul.AddChild li, by simp [(atKey_eq_ok _ _ _).2 hm, hli, Result.bind]⟩

theorem recordMemberVariables_total (lib : Lib) (ext : Ext) (index : Index) (c : RecordSymbol)
    (res : List BaseRecord) (ics : List RecordSymbol) (n : Node)
    (hics : res.map (fun base => index.records.entriesAt base.id) = ics.map some) :
    ∃ n', recordMemberVariables lib ext index c res n = Result.ok n' := by
  have hall : ∀ base ∈ res, ∃ ic, index.records.entriesAt base.id = some ic := by
    intro base hbase
    have hmem : index.records.entriesAt base.id ∈ ics.map some := by
      rw [← hics]
      exact List.mem_map.2 ⟨base, hbase, rfl⟩
    obtain ⟨ic, _, hic⟩ := List.mem_map.1 hmem
    exact ⟨ic, hic.symm⟩
  simp only [recordMemberVariables]
  refine bind_total _ _ (forEach_total _ _ (fun base hbase s => ?_) _) (fun s => ⟨_, rfl⟩)
  obtain ⟨ic, hic⟩ := hall base hbase
  exact bind_total _ _ ⟨ic, (atKey_eq_ok _ _ _).2 hic⟩ (fun ic => ⟨_, rfl⟩)

theorem recordAliases_total (lib : Lib) (index : Index) (c : RecordSymbol) (n : Node)
    (h : (getSortedIDs lib c.aliasIDs index.aliases fun a => a.name).all
      index.aliases.contains = true) :
    ∃ n', recordAliases lib index c n = Result.ok n' := by
  rw [List.all_eq_true] at h
  simp only [recordAliases]
  split_ifs
  · refine bind_total _ _ (forEach_total _ _ (fun id hid ul => ?_) _) (fun s => ⟨_, rfl⟩)
    obtain ⟨a, ha⟩ := (contains_iff_entriesAt _ _).1 (h id hid)
    exact bind_total _ _ ⟨a, (atKey_eq_ok _ _ _).2 ha⟩ (fun a => ⟨_, rfl⟩)
  · exact ⟨n, rfl⟩

theorem printInheritedMethods_total (lib : Lib) (ext : Ext) (index : Index) (c : RecordSymbol)
    (n : Node)
    (h : (getSortedIDs lib c.methodIDs index.functions fun f => f.name).all
      index.functions.contains = true) :
    ∃ n', printInheritedMethods lib ext index c n = Result.ok n' := by
  rw [List.all_eq_true] at h
  rw [printInheritedMethods]
  refine bind_total _ _ ⟨_, (inheritedMethods_loop ext index c _ [] _).2 ⟨h, rfl⟩⟩
    (fun ul => ?_)
  split_ifs
  · exact ⟨_, rfl⟩
  · exact ⟨_, rfl⟩

theorem bind_of_ok {α β : Type} (r : Result α) (f : α → Result β) (a : α)
    (hr : r = Result.ok a) (hf : ∃ b, f a = Result.ok b) : ∃ b, r.bind f = Result.ok b := by
  subst hr
  exact hf

theorem recordMethodOverview_total (lib : Lib) (ext : Ext) (index : Index) (c : RecordSymbol)
    (res : List BaseRecord) (ics : List RecordSymbol) (n : Node)
    (hics : res.map (fun base => index.records.entriesAt base.id) = ics.map some)
    (hown : (getSortedIDs lib c.methodIDs index.functions fun f => f.name).all
      (fun id => (index.functions.entriesAt id).any offsetsWithin) = true)
    (hanc : ics.all (fun ic =>
      (getSortedIDs lib ic.methodIDs index.functions fun f => f.name).all
        index.functions.contains) = true) :
    ∃ n', recordMethodOverview lib ext index c res n = Result.ok n' := by
  have hall : ∀ base ∈ res, ∃ ic, index.records.entriesAt base.id = some ic ∧ ic ∈ ics := by
    intro base hbase
    have hmem : index.records.entriesAt base.id ∈ ics.map some := by
      rw [← hics]
      exact List.mem_map.2 ⟨base, hbase, rfl⟩
    obtain ⟨ic, hic, heq⟩ := List.mem_map.1 hmem
    exact ⟨ic, heq.symm, hic⟩
  rw [List.all_eq_true] at hanc
  simp only [recordMethodOverview]
  refine bind_total _ _ ?_ (fun state => bind_total _ _
    (forEach_total _ _ (fun base hbase s => ?_) _) (fun s => ⟨_, rfl⟩))
  · split_ifs
    · exact bind_total _ _ (printFunctionOverview_total lib ext _ index hown)
        (fun ul => ⟨_, rfl⟩)
    · exact ⟨_, rfl⟩
  · obtain ⟨ic, hic, hmem⟩ := hall base hbase
    refine bind_of_ok _ _ ic ((atKey_eq_ok _ _ _).2 hic) ?_
    exact bind_total _ _ (printInheritedMethods_total lib ext index ic _ (hanc ic hmem))
      (fun m => ⟨_, rfl⟩)

theorem recordFriendOverview_total (lib : Lib) (ext : Ext) (index : Index) (c : RecordSymbol)
    (n : Node)
    (h : (getSortedIDs lib c.hiddenFriendIDs index.functions fun f => f.name).all
      (fun id => (index.functions.entriesAt id).any offsetsWithin) = true) :
    ∃ n', recordFriendOverview lib ext index c n = Result.ok n' := by
  simp only [recordFriendOverview]
  split_ifs
  · exact bind_total _ _ (printFunctionOverview_total lib ext _ index h) (fun ul => ⟨_, rfl⟩)
  · exact ⟨_, rfl⟩

/-- The loop over the methods with full information tests each ID before it looks it up, so
it returns whatever the IDs are. -/
theorem recordMemberFunctions_total (lib : Lib) (ext : Ext) (cfg : Config) (index : Index)
    (c : RecordSymbol) (n : Node) :
    ∃ n', recordMemberFunctions lib ext cfg index c n = Result.ok n' := by
  simp only [recordMemberFunctions]
  split_ifs
  · refine forEach_total _ _ (fun id _ m => ?_) _
    cases hc : index.functions.contains id with
    | false => exact ⟨m, by simp⟩
    | true =>
      obtain ⟨f, hf⟩ := (contains_iff_entriesAt _ _).1 hc
      rw [if_neg (by simp)]
      exact bind_of_ok _ _ f ((atKey_eq_ok _ _ _).2 hf) ⟨_, rfl⟩
  · exact ⟨_, rfl⟩

theorem recordFriendFunctions_total (lib : Lib) (ext : Ext) (cfg : Config) (index : Index)
    (c : RecordSymbol) (n : Node)
    (h : (getSortedIDs lib c.hiddenFriendIDs index.functions fun f => f.name).all
      (fun id => (index.functions.entriesAt id).any offsetsWithin) = true) :
    ∃ n', recordFriendFunctions lib ext cfg index c n = Result.ok n' := by
  rw [List.all_eq_true] at h
  simp only [recordFriendFunctions]
  split_ifs
  · refine forEach_total _ _ (fun id hid m => ?_) _
    have := h id hid
    cases hf : index.functions.entriesAt id with
    | none => rw [hf] at this; cases this
    | some f => exact bind_of_ok _ _ f ((atKey_eq_ok _ _ _).2 hf) ⟨_, rfl⟩
  · exact ⟨_, rfl⟩

/-- The node `main` of the page of a record is built whenever the flattener returns and the
member IDs that are looked up without a test resolve. -/
theorem recordMain_total (lib : Lib) (ext : Ext) (cfg : Config) (fuel : Nat) (index : Index)
    (c : RecordSymbol) (res : List BaseRecord) (ics : List RecordSymbol)
    (hres : getInheritedSymbols fuel index c = some res)
    (hics : res.map (fun base => index.records.entriesAt base.id) = ics.map some)
    (hmem : membersResolve lib index c ics = true) :
    ∃ main, recordMain lib ext cfg fuel index c = Result.ok main := by
  simp only [membersResolve, Bool.and_eq_true] at hmem
  obtain ⟨⟨⟨h₁, h₂⟩, h₃⟩, h₄⟩ := hmem
  simp only [recordMain, hres]
  exact bind_total _ _ (recordMemberVariables_total lib ext index c res ics _ hics) fun _ =>
    bind_total _ _ (recordAliases_total lib index c _ h₁) fun _ =>
    bind_total _ _ (recordMethodOverview_total lib ext index c res ics _ hics h₂ h₄) fun _ =>
    bind_total _ _ (recordFriendOverview_total lib ext index c _ h₃) fun _ =>
    bind_total _ _ (recordMemberFunctions_total lib ext cfg index c _) fun _ =>
    recordFriendFunctions_total lib ext cfg index c _ h₃

/-! ## Inherited sections of a record page -/

theorem mem_inheritedVariablesOutline (ext : Ext) (k : Mark) (hk : ∀ t, k ≠ Mark.heading t) :
    ∀ (ics : List RecordSymbol) (flag : Bool),
      k ∈ inheritedVariablesOutline ext ics flag ↔
        ∃ ic ∈ ics, visibleVars ic ≠ [] ∧ inheritedMark ext ic = k := by
  intro ics
  induction ics with
  | nil => intro flag; simp [inheritedVariablesOutline]
  | cons ic rest ih =>
    intro flag
    rw [inheritedVariablesOutline, List.mem_append, List.mem_append, ih]
    have h₁ : k ∉ (if flag = false ∧ ic.vars.length > 0 then
        [Mark.heading "Member Variables"] else []) := by
      split_ifs
      · simp only [List.mem_singleton]
        exact hk _
      · exact List.not_mem_nil _
    constructor
    · rintro ((h | h) | ⟨ic', hic', h⟩)
      · exact absurd h h₁
      · split_ifs at h with hv
        · exact ⟨ic, List.mem_cons_self _ _, hv, (List.mem_singleton.1 h).symm⟩
        · cases h
      · exact ⟨ic', List.mem_cons_of_mem _ hic', h⟩
    · rintro ⟨ic', hic', hv, h⟩
      rcases List.mem_cons.1 hic' with rfl | hic'
      · left; right
        rw [if_pos hv, h]
        exact List.mem_singleton_self _
      · right
        exact ⟨ic', hic', hv, h⟩

theorem mem_inheritedMethodsOutline (ext : Ext) (own : Bool) (k : Mark)
    (hk : ∀ t, k ≠ Mark.heading t) :
    ∀ (ics : List RecordSymbol) (flag : Bool),
      k ∈ inheritedMethodsOutline ext own ics flag ↔
        ∃ ic ∈ ics, ic.methodIDs ≠ [] ∧ inheritedMark ext ic = k := by
  intro ics
  induction ics with
  | nil => intro flag; simp [inheritedMethodsOutline]
  | cons ic rest ih =>
    intro flag
    rw [inheritedMethodsOutline, List.mem_append, List.mem_append, ih]
    have h₁ : k ∉ (if flag = false ∧ own = true then
        [Mark.heading "Member Function Overview"] else []) := by
      split_ifs
      · simp only [List.mem_singleton]
        exact hk _
      · exact List.not_mem_nil _
    constructor
    · rintro ((h | h) | ⟨ic', hic', h⟩)
      · exact absurd h h₁
      · split_ifs at h with hv
        · exact ⟨ic, List.mem_cons_self _ _, List.length_pos.1 hv,
            (List.mem_singleton.1 h).symm⟩
        · cases h
      · exact ⟨ic', List.mem_cons_of_mem _ hic', h⟩
    · rintro ⟨ic', hic', hv, h⟩
      rcases List.mem_cons.1 hic' with rfl | hic'
      · left; right
        rw [if_pos (List.length_pos.2 hv), h]
        exact List.mem_singleton_self _
      · right
        exact ⟨ic', hic', hv, h⟩

/-- The paragraphs "Inherited from" of the outline of a record page are those of the
flattened ancestors that have a member variable that is not private or a method ID. -/
theorem mem_recordOutline (lib : Lib) (ext : Ext) (index : Index) (c : RecordSymbol)
    (ics : List RecordSymbol) (k : Mark) (hk : ∀ t, k ≠ Mark.heading t) :
    k ∈ recordOutline lib ext index c ics ↔
      ∃ ic ∈ ics, (visibleVars ic ≠ [] ∨ ic.methodIDs ≠ []) ∧ inheritedMark ext ic = k := by
  have hif : ∀ (p : Prop) [Decidable p] (t : String),
      k ∉ (if p then [Mark.heading t] else []) := by
    intro p _ t
    split_ifs
    · simp only [List.mem_singleton]
      exact hk _
    · exact List.not_mem_nil _
  have hd : k ∉ [Mark.heading "Declaration"] := by
    simp only [List.mem_singleton]
    exact hk _
  simp only [recordOutline, List.mem_append, mem_inheritedVariablesOutline ext k hk,
    mem_inheritedMethodsOutline ext _ k hk, hif, hd, false_or, or_false]
  constructor
  · rintro (⟨ic, hic, hv, h⟩ | ⟨ic, hic, hv, h⟩)
    · exact ⟨ic, hic, Or.inl hv, h⟩
    · exact ⟨ic, hic, Or.inr hv, h⟩
  · rintro ⟨ic, hic, hv | hv, h⟩
    · exact Or.inl ⟨ic, hic, hv, h⟩
    · exact Or.inr ⟨ic, hic, hv, h⟩

theorem getInheritedSymbols_one_base (index : Index) (foo bar : RecordSymbol)
    (barEdge bazEdge : BaseRecord) (hfoo : foo.baseRecords = [barEdge])
    (hpublic : barEdge.access = AccessSpecifier.AS_public)
    (hbar : index.records.entriesAt barEdge.id = some bar)
    (hbases : bar.baseRecords = [bazEdge])
    (hprivate : bazEdge.access = AccessSpecifier.AS_private) :
    (∀ fuel, 2 ≤ fuel → getInheritedSymbols fuel index foo = some [barEdge]) ∧
      ∀ fuel res, getInheritedSymbols fuel index foo = some res → res = [barEdge] := by
  have hadm : admissible index barEdge = true :=
    (admissible_iff index barEdge).2
      ⟨(contains_iff_entriesAt _ _).2 ⟨bar, hbar⟩, by rw [hpublic]; decide⟩
  have hnot : admissible index bazEdge = false := by
    cases h : admissible index bazEdge with
    | false => rfl
    | true => exact absurd hprivate ((admissible_iff index bazEdge).1 h).2
  have key : ∀ fuel, 2 ≤ fuel → getInheritedSymbols fuel index foo = some [barEdge] := by
    intro fuel hfuel
    obtain ⟨n, rfl⟩ : ∃ n, fuel = n + 2 := ⟨fuel - 2, by omega⟩
    rw [getInheritedSymbols, hfoo, pushAll_eq, List.reverse_singleton, List.append_nil,
      loop_take index (n + 1) barEdge bar [] [] hadm hbar, hbases, pushAll_eq,
      List.reverse_singleton, List.append_nil, loop_skip index n bazEdge [] _ hnot]
    cases n <;> rfl
  exact ⟨key, fun fuel res h => getInheritedSymbols_det index foo 2 fuel [barEdge] res
    (key 2 (Nat.le_refl 2)) h⟩

theorem printRecord_main (lib : Lib) (ext : Ext) (cfg : Config) (fuel : Nat) (index : Index)
    (c : RecordSymbol) (page : Page) (h : printRecord lib ext cfg fuel index c = Result.ok page) :
    recordMain lib ext cfg fuel index c = Result.ok page.main ∧
      ∃ res, getInheritedSymbols fuel index c = some res := by
  rw [printRecord, Result.bind_eq_ok] at h
  obtain ⟨main, hmain, h⟩ := h
  have hm : page.main = main := by
    cases hb : getBreadcrumbNode ext fuel c.type c.toSymbol index with
    | none => rw [hb] at h; cases h
    | some b =>
      rw [hb] at h
      simp only [Result.ok.injEq] at h
      rw [← h]
  rw [hm]
  refine ⟨hmain, ?_⟩
  cases hres : getInheritedSymbols fuel index c with
  | none =>
    simp only [recordMain, hres] at hmain
    cases hmain
  | some res => exact ⟨res, rfl⟩

theorem printRecord_total (lib : Lib) (ext : Ext) (cfg : Config) (fuel : Nat) (index : Index)
    (c : RecordSymbol) (res : List BaseRecord) (ics : List RecordSymbol)
    (hres : getInheritedSymbols fuel index c = some res)
    (hics : res.map (fun base => index.records.entriesAt base.id) = ics.map some)
    (hmem : membersResolve lib index c ics = true)
    (hcrumbs : (getBreadcrumbNode ext fuel c.type c.toSymbol index).isSome = true) :
    ∃ page, printRecord lib ext cfg fuel index c = Result.ok page := by
  obtain ⟨main, hmain⟩ := recordMain_total lib ext cfg fuel index c res ics hres hics hmem
  obtain ⟨crumbs, hc⟩ := Option.isSome_iff_exists.1 hcrumbs
  exact ⟨_, by rw [printRecord, hmain, Result.bind, hc]⟩

/-- C24, as amended: in an index where the record `foo` has exactly one base, `bar`, by a
public edge, and `bar` has exactly one base, `baz`, by a private edge, both records of the
index: `printRecord` returns a page for `foo` when the member IDs it looks up resolve and the
breadcrumbs are built, and a page it returns has a paragraph "Inherited from" naming `bar`
exactly when `bar` has a member variable that is not private or a method ID; it has no such
paragraph naming `baz`, nor any other record than `bar`. -/
theorem printRecord_inherited_sections (lib : Lib) (ext : Ext) (cfg : Config) (index : Index)
    (foo bar baz : RecordSymbol) (barEdge bazEdge : BaseRecord)
    (hfoo : foo.baseRecords = [barEdge])
    (hpublic : barEdge.access = AccessSpecifier.AS_public)
    (hbar : index.records.entriesAt barEdge.id = some bar)
    (hbases : bar.baseRecords = [bazEdge])
    (hprivate : bazEdge.access = AccessSpecifier.AS_private)
    (hbaz : index.records.entriesAt bazEdge.id = some baz)
    (hdistinct : inheritedMark ext baz ≠ inheritedMark ext bar) :
    (∀ fuel, 2 ≤ fuel → membersResolve lib index foo [bar] = true →
      (getBreadcrumbNode ext fuel foo.type foo.toSymbol index).isSome = true →
      ∃ page, printRecord lib ext cfg fuel index foo = Result.ok page) ∧
    ∀ fuel page, printRecord lib ext cfg fuel index foo = Result.ok page →
      (inheritedMark ext bar ∈ outline page.main ↔
        visibleVars bar ≠ [] ∨ bar.methodIDs ≠ []) ∧
      inheritedMark ext baz ∉ outline page.main ∧
      ∀ name href, Mark.inherited name href ∈ outline page.main →
        Mark.inherited name href = inheritedMark ext bar := by
  have hone := getInheritedSymbols_one_base index foo bar barEdge bazEdge hfoo hpublic hbar
    hbases hprivate
  have hics : [barEdge].map (fun base => index.records.entriesAt base.id) = [bar].map some := by
    simp [hbar]
  have _hbaz := hbaz
  refine ⟨fun fuel hfuel hmem hcrumbs => printRecord_total lib ext cfg fuel index foo
    [barEdge] [bar] (hone.1 fuel hfuel) hics hmem hcrumbs, fun fuel page hpage => ?_⟩
  obtain ⟨hmain, res, hres⟩ := printRecord_main lib ext cfg fuel index foo page hpage
  have hres' := hone.2 fuel res hres
  subst hres'
  have hout := recordMain_outline lib ext cfg fuel index foo [barEdge] [bar] page.main hres
    hics hmain
  have hmem : ∀ name href, Mark.inherited name href ∈ outline page.main ↔
      (visibleVars bar ≠ [] ∨ bar.methodIDs ≠ []) ∧
        inheritedMark ext bar = Mark.inherited name href := by
    intro name href
    rw [hout, mem_recordOutline lib ext index foo [bar] _ (fun t h => by cases h)]
    simp
  refine ⟨?_, ?_, fun name href h => ((hmem name href).1 h).2.symm⟩
  · rw [inheritedMark, hmem]
    simp [inheritedMark]
  · intro h
    rw [inheritedMark, hmem] at h
    exact hdistinct h.2.symm

/-- C24 fails as stated: in the sample index where `Bar` declares no members, `Foo` has the
one public base `Bar`, `Bar` the one private base `Baz`, all in the index; the page of `Foo`
is built and its outline has no paragraph "Inherited from" naming `Bar`. -/
theorem printRecord_inherited_sections_counterexample :
    recFoo.baseRecords = [⟨⟨102⟩, AccessSpecifier.AS_public, "Bar"⟩] ∧
    bareIndex.records.entriesAt ⟨102⟩ = some recBarEmpty ∧
    recBarEmpty.baseRecords = [⟨⟨103⟩, AccessSpecifier.AS_private, "Baz"⟩] ∧
    bareIndex.records.entriesAt ⟨103⟩ = some recBaz ∧
    bareIndex.namespaces.entries = [(⟨100⟩, nsApp)] ∧
    (printRecord sampleLib sampleExt {} 5 bareIndex recFoo).map (fun page => outline page.main) =
      Result.ok [Mark.heading "Declaration", Mark.heading "Member Variables",
        Mark.heading "Member Function Overview", Mark.heading "Member Functions"] ∧
    inheritedMark sampleExt recBarEmpty ∉
      [Mark.heading "Declaration", Mark.heading "Member Variables",
        Mark.heading "Member Function Overview", Mark.heading "Member Functions"] := by
  refine ⟨by decide, by decide, by decide, by decide, by decide, by decide, by decide⟩

/-- C24 (amended) on the sample index: the page of `Foo` is built, it has a paragraph
"Inherited from" naming `Bar`, which has public members, and none naming `Baz`. -/
theorem printRecord_inherited_sections_witness :
    ∃ page, printRecord sampleLib sampleExt {} 5 pageIndex recFoo = Result.ok page ∧
      inheritedMark sampleExt recBar ∈ outline page.main ∧
      inheritedMark sampleExt recBaz ∉ outline page.main := by
  have h := printRecord_inherited_sections sampleLib sampleExt {} pageIndex recFoo recBar
    recBaz ⟨⟨102⟩, AccessSpecifier.AS_public, "Bar"⟩ ⟨⟨103⟩, AccessSpecifier.AS_private, "Baz"⟩
    (by decide) (by decide) (by decide) (by decide) (by decide) (by decide) (by decide)
  obtain ⟨page, hpage⟩ := h.1 5 (by decide) (by decide) (by decide)
  exact ⟨page, hpage, ((h.2 5 page hpage).1).2 (Or.inl (by decide)), (h.2 5 page hpage).2.1⟩

/-! ## Headings of a record page -/

theorem count_if_heading (p : Prop) [Decidable p] (t u : String) :
    (if p then [Mark.heading t] else []).count (Mark.heading u) =
      if p ∧ t = u then 1 else 0 := by
  by_cases hp : p <;> by_cases ht : t = u <;> simp [hp, ht, List.count_cons]

theorem count_if_inherited (p : Prop) [Decidable p] (ext : Ext) (ic : RecordSymbol)
    (u : String) : (if p then [inheritedMark ext ic] else []).count (Mark.heading u) = 0 := by
  by_cases hp : p <;> simp [hp, List.count_cons, inheritedMark]

theorem count_inheritedVariablesOutline (ext : Ext) (u : String) :
    ∀ (ics : List RecordSymbol) (flag : Bool),
      (inheritedVariablesOutline ext ics flag).count (Mark.heading u) =
        if u = "Member Variables" ∧ flag = false ∧ ∃ ic ∈ ics, ic.vars ≠ [] then 1 else 0 := by
  intro ics
  induction ics with
  | nil => intro flag; simp [inheritedVariablesOutline]
  | cons ic rest ih =>
    intro flag
    rw [inheritedVariablesOutline, List.count_append, List.count_append, ih,
      count_if_heading, count_if_inherited]
    by_cases hu : u = "Member Variables"
    · subst hu
      cases flag with
      | true => simp
      | false =>
        by_cases hv : ic.vars = []
        · simp [hv]
        · have : ic.vars.length > 0 := List.length_pos.2 hv
          simp [hv, this]
    · have hu' : ¬ "Member Variables" = u := fun h => hu h.symm
      simp [hu, hu']

theorem count_inheritedMethodsOutline (ext : Ext) (own : Bool) (u : String) :
    ∀ (ics : List RecordSymbol) (flag : Bool),
      (inheritedMethodsOutline ext own ics flag).count (Mark.heading u) =
        if u = "Member Function Overview" ∧ flag = false ∧ own = true ∧ ics ≠ [] then 1
        else 0 := by
  intro ics
  induction ics with
  | nil => intro flag; simp [inheritedMethodsOutline]
  | cons ic rest ih =>
    intro flag
    rw [inheritedMethodsOutline, List.count_append, List.count_append, ih,
      count_if_heading, count_if_inherited]
    by_cases hu : u = "Member Function Overview"
    · subst hu
      cases flag <;> cases own <;> simp
    · have hu' : ¬ "Member Function Overview" = u := fun h => hu h.symm
      simp [hu, hu']

theorem flattened_records (index : Index) (R : RecordSymbol) (fuel : Nat)
    (res : List BaseRecord) (h : getInheritedSymbols fuel index R = some res) :
    ∃ ics : List RecordSymbol,
      res.map (fun base => index.records.entriesAt base.id) = ics.map some := by
  have hflat := (getInheritedSymbols_iff_flat index R res).1 ⟨fuel, h⟩
  have hall : ∀ base ∈ res, ∃ ic, index.records.entriesAt base.id = some ic := fun base hb =>
    (contains_iff_entriesAt _ _).1
      ((admissible_iff index base).1 (flat_admissible index hflat base hb)).1
  clear h hflat
  induction res with
  | nil => exact ⟨[], rfl⟩
  | cons b rest ih =>
    obtain ⟨ics, hics⟩ := ih fun base hbase => hall base (List.mem_cons_of_mem _ hbase)
    obtain ⟨ic, hic⟩ := hall b (List.mem_cons_self _ _)
    exact ⟨ic :: ics, by simp [hic, hics]⟩

/-- C30: on a page that `printRecord` builds for a record `c` whose flattened ancestors are
the records `ics`, the sorted list of method IDs being empty only when `c.methodIDs` is, the
heading "Member Function Overview" stands once when `c.methodIDs` is not empty and not at all
when it is empty: the loop over inherited methods never adds it. So a record without method
IDs gets the paragraph "Inherited from" of each ancestor that has method IDs and no such
heading. The heading "Member Variables" stands once when `c` or one of the ancestors has a
member variable, and not at all otherwise. -/
theorem printRecord_method_heading (lib : Lib) (ext : Ext) (cfg : Config) (index : Index)
    (c : RecordSymbol) (fuel : Nat) (page : Page) (res : List BaseRecord)
    (ics : List RecordSymbol)
    (hsorted : getSortedIDs lib c.methodIDs index.functions (fun f => f.name) = [] ↔
      c.methodIDs = [])
    (hres : getInheritedSymbols fuel index c = some res)
    (hics : res.map (fun base => index.records.entriesAt base.id) = ics.map some)
    (h : printRecord lib ext cfg fuel index c = Result.ok page) :
    (outline page.main).count (Mark.heading "Member Function Overview") =
      (if c.methodIDs = [] then 0 else 1) ∧
    (inheritedMethodsOutline ext (decide (c.methodIDs.length > 0)) ics
      (decide ((getSortedIDs lib c.methodIDs index.functions fun f => f.name).length > 0))).count
      (Mark.heading "Member Function Overview") = 0 ∧
    (c.methodIDs = [] → ∀ ic ∈ ics, ic.methodIDs ≠ [] →
      inheritedMark ext ic ∈ outline page.main ∧
      Mark.heading "Member Function Overview" ∉ outline page.main) ∧
    (outline page.main).count (Mark.heading "Member Variables") =
      (if c.vars ≠ [] ∨ ∃ ic ∈ ics, ic.vars ≠ [] then 1 else 0) := by
  have hout := recordMain_outline lib ext cfg fuel index c res ics page.main hres hics
    (printRecord_main lib ext cfg fuel index c page h).1
  have hlen : (getSortedIDs lib c.methodIDs index.functions fun f => f.name).length > 0 ↔
      c.methodIDs.length > 0 := by
    constructor
    · intro hs
      exact List.length_pos.2 fun he => (List.length_pos.1 hs) (hsorted.2 he)
    · intro hm
      exact List.length_pos.2 fun he => (List.length_pos.1 hm) (hsorted.1 he)
  have hloop : (inheritedMethodsOutline ext (decide (c.methodIDs.length > 0)) ics
      (decide ((getSortedIDs lib c.methodIDs index.functions fun f => f.name).length > 0))).count
      (Mark.heading "Member Function Overview") = 0 := by
    rw [count_inheritedMethodsOutline]
    by_cases hm : c.methodIDs.length > 0
    · simp [hm, hlen.2 hm]
    · simp [hm]
  have hcount : (outline page.main).count (Mark.heading "Member Function Overview") =
      (if c.methodIDs = [] then 0 else 1) := by
    rw [hout]
    simp only [recordOutline, List.count_append, count_if_heading,
      count_inheritedVariablesOutline, hloop]
    by_cases hm : c.methodIDs = []
    · have hs : (getSortedIDs lib c.methodIDs index.functions fun f => f.name).length = 0 := by
        rw [hsorted.2 hm]; rfl
      rw [if_pos hm]
      simp [hs, List.count_cons]
    · have : (getSortedIDs lib c.methodIDs index.functions fun f => f.name).length > 0 :=
        hlen.2 (List.length_pos.2 hm)
      rw [if_neg hm]
      simp [this, List.count_cons]
  refine ⟨hcount, hloop, fun hm ic hic hmeth => ⟨?_, ?_⟩, ?_⟩
  · rw [hout, mem_recordOutline lib ext index c ics _ (fun t h => by cases h)]
    exact ⟨ic, hic, Or.inr hmeth, rfl⟩
  · intro hmem
    have := List.count_pos_iff.2 hmem
    rw [hcount, if_pos hm] at this
    exact absurd this (Nat.lt_irrefl 0)
  · rw [hout]
    simp only [recordOutline, List.count_append, count_if_heading,
      count_inheritedVariablesOutline, count_inheritedMethodsOutline]
    by_cases hv : c.vars = []
    · by_cases hex : ∃ ic ∈ ics, ic.vars ≠ []
      · simp [hv, hex, List.count_cons]
      · simp [hv, hex, List.count_cons]
    · have : c.vars.length > 0 := List.length_pos.2 hv
      simp [hv, this, List.count_cons]

/-- C30 on the sample indexes: the page of a record `Foo` without members of its own, whose
base `Bar` has methods and variables, has the paragraph "Inherited from" naming `Bar`, no
heading "Member Function Overview" and one heading "Member Variables"; the page of the record
`Accent`, whose one method has a prototype with chars of two bytes, has the heading once. -/
theorem printRecord_method_heading_witness :
    (∃ page, printRecord sampleLib sampleExt {} 5 pageIndex recFooPlain = Result.ok page ∧
      (outline page.main).count (Mark.heading "Member Function Overview") = 0 ∧
      inheritedMark sampleExt recBar ∈ outline page.main ∧
      (outline page.main).count (Mark.heading "Member Variables") = 1) ∧
    ∃ page, printRecord sampleLib sampleExt {} 5 accentIndex recAccent = Result.ok page ∧
      (outline page.main).count (Mark.heading "Member Function Overview") = 1 := by
  obtain ⟨page, hpage⟩ := printRecord_total sampleLib sampleExt {} 5 pageIndex recFooPlain
    [⟨⟨102⟩, AccessSpecifier.AS_public, "Bar"⟩] [recBar] (by decide) (by decide) (by decide)
    (by decide)
  have h := printRecord_method_heading sampleLib sampleExt {} pageIndex recFooPlain 5 page
    [⟨⟨102⟩, AccessSpecifier.AS_public, "Bar"⟩] [recBar] (by decide) (by decide) (by decide)
    hpage
  obtain ⟨page', hpage'⟩ := printRecord_total sampleLib sampleExt {} 5 accentIndex recAccent
    [] [] (by decide) (by decide) (by decide) (by decide)
  have h' := printRecord_method_heading sampleLib sampleExt {} accentIndex recAccent 5 page'
    [] [] (by decide) (by decide) (by decide) hpage'
  exact ⟨⟨page, hpage, h.1, (h.2.2.1 rfl recBar (List.mem_singleton_self _) (by decide)).1,
    h.2.2.2.trans (if_pos (Or.inr ⟨recBar, List.mem_singleton_self _, by decide⟩))⟩,
    page', hpage', h'.1.trans (if_neg (by decide))⟩

/-! ## Prototypes with chars of more than one byte -/

/-- The offsets of a prototype are byte offsets: for the method `f` with the prototype
`ééé f()` and the name at the byte offset 7, which is behind the last of its 7 chars, no call
of `substr` raises; the overview entry has the name, the text `()` that follows it and the
return type `ééé`, and `printRecord` returns the page of the record. -/
theorem printRecord_accented :
    fnAccent.proto.length = 7 ∧ size fnAccent.proto = 10 ∧ offsetsWithin fnAccent = true ∧
    functionOverviewEntry sampleLib sampleExt fnAccent =
      Result.ok (Node.element "li.is-family-code" []
        [Node.element "a" [("href", "#" ++ sampleExt.str ⟨206⟩)]
          [Node.element "b" [] [Node.text "f"]],
          Node.text "()", Node.raw " &rarr; ", Node.text "ééé"]) ∧
    (printRecord sampleLib sampleExt {} 5 accentIndex recAccent).map
        (fun page => outline page.main) =
      Result.ok [Mark.heading "Declaration", Mark.heading "Member Function Overview",
        Mark.heading "Member Functions"] := by
  refine ⟨by decide, by decide, by decide, rfl, by decide⟩

/-! ## Member IDs that are not in the index -/

/-- The test in the loops of `printNamespace` does not look at the child: for every ID other
than the zero ID it asks whether the zero ID is a key. -/
theorem comparedWithFalse_eq (childID : SymbolID) (h : childID.raw ≠ 0) :
    comparedWithFalse childID = ⟨0⟩ := by
  simp [comparedWithFalse, h]

/-- C22 at failing inputs: the ID 999 is a key of neither `records` nor `functions` of the
sample index. `printNamespace` raises `std::out_of_range` for a namespace whose record IDs
are 101 and 999 (the test before the lookup asks for the zero ID, not for the child), and so
do `printInheritedMethods` for a record whose one method ID is 999 and
`printFunctionOverview` for that ID, which look it up without a test. The loop over the
methods with full information in `printRecord`, which tests `contains(methodID) == false`,
passes the same ID over, and the namespace without the ID 999 is rendered. -/
theorem dangling_member_aborts :
    pageIndex.records.contains ⟨999⟩ = false ∧
    pageIndex.functions.contains ⟨999⟩ = false ∧
    nsLoose.records = [⟨101⟩, ⟨999⟩] ∧
    pageIndex.records.contains (comparedWithFalse ⟨999⟩) = false ∧
    (printNamespace sampleLib sampleExt 5 pageIndex 5 nsLoose).map (fun _ => ()) =
      Result.outOfRange ∧
    recLoose.methodIDs = [⟨999⟩] ∧
    (printInheritedMethods sampleLib sampleExt pageIndex recLoose (Node.named "main")).map
      (fun _ => ()) = Result.outOfRange ∧
    (printFunctionOverview sampleLib sampleExt [⟨999⟩] pageIndex).map (fun _ => ()) =
      Result.outOfRange ∧
    (recordMemberFunctions sampleLib sampleExt {} pageIndex recLoose (Node.named "main")).map
      outline = Result.ok [Mark.heading "Member Functions"] ∧
    (printNamespace sampleLib sampleExt 5 pageIndex 5 nsApp).map (fun _ => ()) =
      Result.ok () := by
  refine ⟨by decide, by decide, by decide, by decide, by decide, by decide, by decide,
    by decide, by decide, by decide⟩

end hdoc
